import Mathlib

/-!
# roamer: the resource allocation pass

A shallow embedding of `Allocate` (`internal/allocation/allocation.go`) and of the inline
allocation path of the action of `main` (`main.go`, lines 77-146), and theorems about them.

Modelling conventions.

* Go `int` is the 64-bit two's complement integer.  A value is an `Int`, and every
  addition, subtraction, multiplication and division of the code is followed by `wrap`, the
  reduction into `[-2^63, 2^63)`.  Go's `/` on integers truncates toward zero, which is
  `Int.tdiv`; a zero divisor is a run-time panic and is an explicit outcome of the model.
* The job is mutated in place through pointers.  The model passes the job through the loops
  and returns, with every outcome, the job as the run left it: what has been written before
  an early `return` or a panic stays written.
* Lines 20-21 of `Allocate` compute the margin-adjusted capacities with `float32`
  arithmetic.  Their results, the initial values of the locals `availableCPU` and
  `availableMemory`, are inputs of the model.
* Pointers that `Allocate` dereferences unconditionally (`group.Name`, `task.Resources`,
  `Resources.CPU`, `Resources.MemoryMB`) are taken to be non-nil; `group.Count`, which the
  code tests against `nil`, is an `Option`.
-/

namespace Roamer

/-! ## Data model -/

/-- Modelled from the spec: the package `internal/configuration` is not among the sources.
A weight entry, with the two fields `Allocate` reads (`groupConfig.Name`,
`groupConfig.Weight`), as the twin type `GroupConfig` of `main.go` declares them. -/
structure GroupConfig where
  Name : String
  Weight : Int
  deriving DecidableEq, Repr

/-- Modelled from the spec: the package `internal/configuration` is not among the sources.
The part of `configuration.Config` that `Allocate` reads after lines 20-21: the ordered
weight table `config.Groups`. -/
structure Config where
  Groups : List GroupConfig
  deriving DecidableEq, Repr

/-- A task of the job (`api.Task`): its name and the two resource values that `Allocate`
writes, `*task.Resources.CPU` and `*task.Resources.MemoryMB`. -/
structure Task where
  Name : String
  CPU : Int
  MemoryMB : Int
  deriving DecidableEq, Repr

/-- A task group of the job (`api.TaskGroup`): `*group.Name`, the optional `group.Count`
and the listed tasks `group.Tasks`. -/
structure TaskGroup where
  Name : String
  Count : Option Int
  Tasks : List Task
  deriving DecidableEq, Repr

/-- The job (`api.Job`), reduced to `job.TaskGroups`. -/
structure Job where
  TaskGroups : List TaskGroup
  deriving DecidableEq, Repr

/-- How a run ends, together with the state it leaves behind.
`done`: the loop (or the function) ran to its end; `weightError`: the function returned
`errors.New("sum of weights greater than 100")`; `divByZero`: an integer division by zero
panicked. -/
inductive Outcome (σ : Type) where
  | done (s : σ)
  | weightError (s : σ)
  | divByZero (s : σ)
  deriving DecidableEq, Repr

/-- Apply a function to the state carried by an outcome. -/
def Outcome.map {σ τ : Type} (f : σ → τ) : Outcome σ → Outcome τ
  | .done s => .done (f s)
  | .weightError s => .weightError (f s)
  | .divByZero s => .divByZero (f s)

/-- A `for _, x := range xs` loop whose body mutates `x` in place and a loop state `π`,
and may leave the function early.  When the body leaves early at `x`, the elements after
`x` are untouched. -/
def forEach {π α : Type} (body : π → α → Outcome (π × α)) : List α → π → Outcome (π × List α)
  | [], p => .done (p, [])
  | x :: xs, p =>
    match body p x with
    | .done (p', x') => (forEach body xs p').map (fun r => (r.1, x' :: r.2))
    | .weightError (p', x') => .weightError (p', x' :: xs)
    | .divByZero (p', x') => .divByZero (p', x' :: xs)

/-! ## Go's `int` -/

/-- The value that a 64-bit `int` holds for the mathematical result `x` of an operation:
`x` reduced into `[-2^63, 2^63)`. -/
def wrap (x : Int) : Int :=
  (x + 9223372036854775808) % 18446744073709551616 - 9223372036854775808

/-- Go's `+` on `int`. -/
def intAdd (a b : Int) : Int := wrap (a + b)

/-- Go's `-` on `int`. -/
def intSub (a b : Int) : Int := wrap (a - b)

/-- Go's `*` on `int`. -/
def intMul (a b : Int) : Int := wrap (a * b)

/-- Go's `/` on `int` for a non-zero divisor: the quotient truncated toward zero; the one
quotient that does not fit, `-2^63 / -1`, wraps. -/
def intDiv (a b : Int) : Int := wrap (Int.tdiv a b)

/-! ## `Allocate` -/

/-- The contribution of one group to `absoluteTasks` (lines 13-17): the number of listed
tasks, multiplied by `*group.Count` when the count is present. -/
def tasksInGroup (group : TaskGroup) : Int :=
  match group.Count with
  | none => (group.Tasks.length : Int)
  | some c => intMul (group.Tasks.length : Int) c

/-- The value of `absoluteTasks` after the first loop (lines 11-19). -/
def absoluteTasks (job : Job) : Int :=
  job.TaskGroups.foldl (fun absoluteTasks group => intAdd absoluteTasks (tasksInGroup group)) 0

/-- The locals that both phases share: `availableCPU`, `availableMemory`,
`weightlessTasks`. -/
structure Pool where
  availableCPU : Int
  availableMemory : Int
  weightlessTasks : Int
  deriving DecidableEq, Repr

/-- Lines 27-30 and 54-57: an absent count becomes 1. -/
def resolveCount (group : TaskGroup) : TaskGroup :=
  match group.Count with
  | none => { group with Count := some 1 }
  | some _ => group

/-- The innermost loop of phase 1 (lines 34-48) for one task, from the entry list still to
be visited and the running `sumOfWeights`.  `name` is `*group.Name` and `len` is
`len(group.Tasks)`. -/
def scanWeights (name : String) (len : Int) :
    List GroupConfig → Int → Pool → Task → Outcome (Pool × Task)
  | [], _, p, task => .done (p, task)
  | groupConfig :: rest, sumOfWeights, p, task =>
    let sumOfWeights := intAdd sumOfWeights groupConfig.Weight
    if sumOfWeights > 100 then .weightError (p, task)
    else if groupConfig.Name = name then
      if len = 0 then .divByZero (p, task)
      else
        let assignedMemory := intDiv (intDiv (intMul p.availableMemory groupConfig.Weight) 100) len
        let assignedCPU := intDiv (intDiv (intMul p.availableCPU groupConfig.Weight) 100) len
        scanWeights name len rest sumOfWeights
          { availableCPU := intSub p.availableCPU assignedCPU,
            availableMemory := intSub p.availableMemory assignedMemory,
            weightlessTasks := intSub p.weightlessTasks 1 }
          { task with MemoryMB := assignedMemory, CPU := assignedCPU }
    else scanWeights name len rest sumOfWeights p task

/-- The body of the task loop of phase 1 (lines 31-49): `sumOfWeights` starts at 0 for
every task. -/
def phase1Task (config : Config) (group : TaskGroup) (p : Pool) (task : Task) :
    Outcome (Pool × Task) :=
  scanWeights group.Name (group.Tasks.length : Int) config.Groups 0 p task

/-- The body of the group loop of phase 1 (lines 26-50). -/
def phase1Group (config : Config) (p : Pool) (group : TaskGroup) :
    Outcome (Pool × TaskGroup) :=
  let group := resolveCount group
  (forEach (phase1Task config group) group.Tasks p).map
    (fun r => (r.1, { group with Tasks := r.2 }))

/-- Phase 1 (lines 25-50): the groups that have a weight. -/
def phase1 (config : Config) (groups : List TaskGroup) (p : Pool) :
    Outcome (Pool × List TaskGroup) :=
  forEach (phase1Group config) groups p

/-- The body of the task loop of phase 2 (lines 59-72).  The loop state is `found`, which
is declared per group and never reset between the tasks of the group. -/
def phase2Task (config : Config) (name : String) (p : Pool) (found : Bool) (task : Task) :
    Outcome (Bool × Task) :=
  let found := found || config.Groups.any (fun groupConfig => decide (groupConfig.Name = name))
  if found then .done (found, task)
  else if p.weightlessTasks = 0 then .divByZero (found, task)
  else
    let assignedMemory := intDiv p.availableMemory p.weightlessTasks
    let assignedCPU := intDiv p.availableCPU p.weightlessTasks
    .done (found, { task with MemoryMB := assignedMemory, CPU := assignedCPU })

/-- The body of the group loop of phase 2 (lines 53-73). -/
def phase2Group (config : Config) (p : Pool) (_u : Unit) (group : TaskGroup) :
    Outcome (Unit × TaskGroup) :=
  let group := resolveCount group
  (forEach (phase2Task config group.Name p) group.Tasks false).map
    (fun r => ((), { group with Tasks := r.2 }))

/-- Phase 2 (lines 52-73): the rest is split evenly. -/
def phase2 (config : Config) (p : Pool) (groups : List TaskGroup) :
    Outcome (List TaskGroup) :=
  (forEach (phase2Group config p) groups ()).map (fun r => r.2)

/-- `Allocate` (lines 10-75), from the values `availableCPU` and `availableMemory` of
lines 20-21.  The outcome carries the job as the run left it. -/
def Allocate (availableCPU availableMemory : Int) (config : Config) (job : Job) :
    Outcome Job :=
  let weightlessTasks := absoluteTasks job
  match phase1 config job.TaskGroups
      { availableCPU := availableCPU, availableMemory := availableMemory,
        weightlessTasks := weightlessTasks } with
  | .done (p, groups) => (phase2 config p groups).map (fun gs => { TaskGroups := gs })
  | .weightError (_, groups) => .weightError { TaskGroups := groups }
  | .divByZero (_, groups) => .divByZero { TaskGroups := groups }

/-- All tasks of the job, in group order and list order. -/
def Job.allTasks (job : Job) : List Task :=
  job.TaskGroups.flatMap (fun g => g.Tasks)

/-- The sum of the CPU values of all tasks. -/
def Job.totalCPU (job : Job) : Int :=
  (job.allTasks.map (fun t => t.CPU)).sum

/-- The sum of the memory values of all tasks. -/
def Job.totalMemory (job : Job) : Int :=
  (job.allTasks.map (fun t => t.MemoryMB)).sum

/-! ## The inline allocation path of `main.go` -/

namespace Main

/-- `InfrastructureConfig` of `main.go` (lines 21-25). -/
structure InfrastructureConfig where
  Memory : Int
  CPU : Int
  SafetyMargin : Int
  deriving DecidableEq, Repr

/-- `Config` of `main.go` (lines 16-19).  `GroupConfig` of `main.go` (lines 26-29) has the
two fields of the weight entry above. -/
structure Config where
  Infrastructure : InfrastructureConfig
  Groups : List GroupConfig
  deriving DecidableEq, Repr

/-- Lines 77-79: a decoded safety margin of 0 becomes 3. -/
def defaultSafetyMargin (config : Config) : Config :=
  if config.Infrastructure.SafetyMargin = 0 then
    { config with Infrastructure := { config.Infrastructure with SafetyMargin := 3 } }
  else config

/-- The right-hand side of lines 93 and 94, `total * (1.0 - ((SafetyMargin) / 100))`.
`SafetyMargin` is an `int`, so `/ 100` is the integer division and the constant `1.0` is
converted to the `int` 1. -/
def available (total safetyMargin : Int) : Int :=
  intMul total (intSub 1 (intDiv safetyMargin 100))

/-- The innermost loop of the first pass (lines 105-120) for one task.  The assigned
values are computed from the configured totals, the pool is only reduced. -/
def scanWeights (infrastructure : InfrastructureConfig) (name : String) (len : Int) :
    List GroupConfig → Int → Pool → Task → Outcome (Pool × Task)
  | [], _, p, task => .done (p, task)
  | groupConfig :: rest, sumOfWeights, p, task =>
    let sumOfWeights := intAdd sumOfWeights groupConfig.Weight
    if sumOfWeights > 100 then .weightError (p, task)
    else if groupConfig.Name = name then
      if len = 0 then .divByZero (p, task)
      else
        let assignedMemory :=
          intDiv (intDiv (intMul infrastructure.Memory groupConfig.Weight) 100) len
        let assignedCPU :=
          intDiv (intDiv (intMul infrastructure.CPU groupConfig.Weight) 100) len
        scanWeights infrastructure name len rest sumOfWeights
          { availableCPU := intSub p.availableCPU assignedCPU,
            availableMemory := intSub p.availableMemory assignedMemory,
            weightlessTasks := intSub p.weightlessTasks 1 }
          { task with MemoryMB := assignedMemory, CPU := assignedCPU }
    else scanWeights infrastructure name len rest sumOfWeights p task

/-- The body of the task loop of the first pass (lines 102-121). -/
def phase1Task (config : Config) (group : TaskGroup) (p : Pool) (task : Task) :
    Outcome (Pool × Task) :=
  scanWeights config.Infrastructure group.Name (group.Tasks.length : Int) config.Groups 0 p task

/-- The body of the group loop of the first pass (lines 97-122). -/
def phase1Group (config : Config) (p : Pool) (group : TaskGroup) :
    Outcome (Pool × TaskGroup) :=
  let group := resolveCount group
  (forEach (phase1Task config group) group.Tasks p).map
    (fun r => (r.1, { group with Tasks := r.2 }))

/-- The first pass (lines 96-122). -/
def phase1 (config : Config) (groups : List TaskGroup) (p : Pool) :
    Outcome (Pool × List TaskGroup) :=
  forEach (phase1Group config) groups p

/-- Lines 80-146 of the action, after the default of the safety margin: the count of the
tasks (lines 80-88, the loop of `Allocate`), the two capacities, the first pass and the
second pass (lines 124-146, the loop of phase 2 of `Allocate`).  `weightError` stands for
the return of `cli.NewExitError("Sum of weights greater than 100", 1)`. -/
def run (config : Config) (job : Job) : Outcome Job :=
  let availableCPU := available config.Infrastructure.CPU config.Infrastructure.SafetyMargin
  let availableMemory :=
    available config.Infrastructure.Memory config.Infrastructure.SafetyMargin
  let weightlessTasks := absoluteTasks job
  match phase1 config job.TaskGroups
      { availableCPU := availableCPU, availableMemory := availableMemory,
        weightlessTasks := weightlessTasks } with
  | .done (p, groups) =>
    (phase2 { Groups := config.Groups } p groups).map (fun gs => { TaskGroups := gs })
  | .weightError (_, groups) => .weightError { TaskGroups := groups }
  | .divByZero (_, groups) => .divByZero { TaskGroups := groups }

/-- The action of `main` from the decoded configuration and the parsed job to the end of
the second pass (lines 77-146). -/
def action (config : Config) (job : Job) : Outcome Job :=
  run (defaultSafetyMargin config) job

end Main

/-! ## Proof devices -/

/-- Whether some prefix of the entry list, added to the running sum `s`, exceeds 100: the
condition under which the scan of lines 34-38 returns the error.  The running sum is
Go's. -/
def overBudget : List GroupConfig → Int → Bool
  | [], _ => false
  | groupConfig :: rest, s =>
    decide (intAdd s groupConfig.Weight > 100) || overBudget rest (intAdd s groupConfig.Weight)

/-- Whether the weight table has an entry with the given name. -/
def weighted (config : Config) (name : String) : Bool :=
  config.Groups.any (fun groupConfig => decide (groupConfig.Name = name))

/-- The number of listed tasks in groups without a matching weight entry. -/
def unweightedTasks (config : Config) (groups : List TaskGroup) : Int :=
  (groups.map (fun g => if weighted config g.Name then 0 else (g.Tasks.length : Int))).sum

/-- The number of executions of `weightlessTasks--` in a phase 1 that runs to its end: one
for every pair of a listed task and a weight entry that carries the name of its group. -/
def weightedHits (config : Config) (groups : List TaskGroup) : Int :=
  (groups.map (fun g => (g.Tasks.length : Int) *
    ((config.Groups.filter (fun groupConfig => decide (groupConfig.Name = g.Name))).length : Int))).sum

/-- The number of listed tasks in groups with a matching weight entry. -/
def weightedTasks (config : Config) (groups : List TaskGroup) : Int :=
  (groups.map (fun g => if weighted config g.Name then (g.Tasks.length : Int) else 0)).sum

/-- What phase 2 writes to a task of a group without a matching weight entry
(lines 67-70). -/
def evenShare (p : Pool) (task : Task) : Task :=
  { task with MemoryMB := intDiv p.availableMemory p.weightlessTasks,
              CPU := intDiv p.availableCPU p.weightlessTasks }

/-- What a phase 2 that runs to its end makes of a group. -/
def finish (config : Config) (p : Pool) (g : TaskGroup) : TaskGroup :=
  if weighted config g.Name then resolveCount g
  else { resolveCount g with Tasks := g.Tasks.map (evenShare p) }

/-- The sum of the CPU values of the listed tasks of the groups that have a matching
weight entry. -/
def weightedCPU (config : Config) (groups : List TaskGroup) : Int :=
  (groups.map (fun g =>
    if weighted config g.Name then (g.Tasks.map (fun t => t.CPU)).sum else 0)).sum

/-- The sum of the memory values of the listed tasks of the groups that have a matching
weight entry. -/
def weightedMemory (config : Config) (groups : List TaskGroup) : Int :=
  (groups.map (fun g =>
    if weighted config g.Name then (g.Tasks.map (fun t => t.MemoryMB)).sum else 0)).sum

/-- Two groups that differ at most in the resource values of their tasks and in an absent
count against a count of 1. -/
def sameShape (g1 g2 : TaskGroup) : Prop :=
  g1.Name = g2.Name ∧ (resolveCount g1).Count = (resolveCount g2).Count ∧
    List.Forall₂ (fun a b : Task => a.Name = b.Name) g1.Tasks g2.Tasks

/-- Two groups after phase 1 of runs that started from groups of the same shape: they agree
except for the values of tasks that phase 1 has not written. -/
def agreeWeighted (config : Config) (g1 g2 : TaskGroup) : Prop :=
  g1.Name = g2.Name ∧ g1.Count = g2.Count ∧
    List.Forall₂ (fun a b : Task => a.Name = b.Name ∧ (weighted config g1.Name = true → a = b))
      g1.Tasks g2.Tasks

/-- What `Allocate` reads of a group: the name, the count with an absent count read as 1,
and the names of the listed tasks. -/
def skeleton (g : TaskGroup) : String × Option Int × List String :=
  (g.Name, (resolveCount g).Count, g.Tasks.map (fun t => t.Name))

/-- The job with every resource request set to zero. -/
def Job.zeroed (job : Job) : Job :=
  ⟨job.TaskGroups.map (fun g =>
    { g with Tasks := g.Tasks.map (fun t => { t with CPU := 0, MemoryMB := 0 }) })⟩

/-- The number of task instances of the job as a mathematical integer: the listed tasks of
every group multiplied by its count, an absent count read as 1. -/
def taskCount (groups : List TaskGroup) : Int :=
  (groups.map (fun g => (g.Tasks.length : Int) * g.Count.getD 1)).sum

/-- The largest capacity whose hundredfold fits in an `int`: `(2^63 - 1) / 100`. -/
def maxCapacity : Int := 92233720368547758

/-- The share of the pool `P` that lines 40-41 assign for a weight `w` and `len` listed
tasks, in Go's arithmetic. -/
def goShare (w len P : Int) : Int :=
  intDiv (intDiv (intMul P w) 100) len

/-- The share of the pool `P` for a weight `w` and `len` listed tasks as a mathematical
floor: `floor(floor(P * w / 100) / len)`. -/
def floorShare (w len P : Int) : Int :=
  P * w / 100 / len

/-- The assignments within a weighted group as a running pool produces them: starting from
the pool `P`, `n` times the share of the current pool, each share taken from the pool by
`minus` before the next one is computed. -/
def runningShares (share : Int → Int) (minus : Int → Int → Int) : Int → Nat → List Int
  | _, 0 => []
  | P, n + 1 => share P :: runningShares share minus (minus P (share P)) n

/-- The job that an outcome carries. -/
def Outcome.state {σ : Type} : Outcome σ → σ
  | .done s => s
  | .weightError s => s
  | .divByZero s => s

/-! ### Go's `int` -/

theorem wrap_eq_self {x : Int} (h1 : -9223372036854775808 ≤ x) (h2 : x ≤ 9223372036854775807) :
    wrap x = x := by
  unfold wrap
  omega

theorem wrap_bounds (x : Int) :
    -9223372036854775808 ≤ wrap x ∧ wrap x ≤ 9223372036854775807 := by
  unfold wrap
  omega

theorem wrap_wrap (x : Int) : wrap (wrap x) = wrap x := by
  unfold wrap
  omega

theorem wrap_add_wrap (a b : Int) : wrap (wrap a + b) = wrap (a + b) := by
  unfold wrap
  omega

theorem wrap_add_wrap_right (a b : Int) : wrap (a + wrap b) = wrap (a + b) := by
  unfold wrap
  omega

theorem wrap_sub_wrap (a b : Int) : wrap (wrap a - b) = wrap (a - b) := by
  unfold wrap
  omega

theorem intAdd_eq {a b : Int} (h1 : -9223372036854775808 ≤ a + b)
    (h2 : a + b ≤ 9223372036854775807) : intAdd a b = a + b :=
  wrap_eq_self h1 h2

theorem intSub_eq {a b : Int} (h1 : -9223372036854775808 ≤ a - b)
    (h2 : a - b ≤ 9223372036854775807) : intSub a b = a - b :=
  wrap_eq_self h1 h2

theorem intMul_eq {a b : Int} (h1 : -9223372036854775808 ≤ a * b)
    (h2 : a * b ≤ 9223372036854775807) : intMul a b = a * b :=
  wrap_eq_self h1 h2

/-- Go's quotient of a non-negative dividend by a positive divisor is the floor. -/
theorem intDiv_eq {a b : Int} (ha : 0 ≤ a) (ha2 : a ≤ 9223372036854775807) (hb : 0 < b) :
    intDiv a b = a / b := by
  unfold intDiv
  rw [Int.tdiv_eq_ediv ha (le_of_lt hb)]
  have h0 : 0 ≤ a / b := Int.ediv_nonneg ha (le_of_lt hb)
  have h1 : a / b ≤ a := Int.ediv_le_self b ha
  exact wrap_eq_self (by omega) (by omega)

/-! ### Outcomes and loops -/

theorem Outcome.map_eq_done {σ τ : Type} {f : σ → τ} {o : Outcome σ} {t : τ} :
    o.map f = .done t ↔ ∃ s, o = .done s ∧ f s = t := by
  cases o <;> simp [Outcome.map]

theorem Outcome.map_eq_weightError {σ τ : Type} {f : σ → τ} {o : Outcome σ} {t : τ} :
    o.map f = .weightError t ↔ ∃ s, o = .weightError s ∧ f s = t := by
  cases o <;> simp [Outcome.map]

theorem Outcome.map_eq_divByZero {σ τ : Type} {f : σ → τ} {o : Outcome σ} {t : τ} :
    o.map f = .divByZero t ↔ ∃ s, o = .divByZero s ∧ f s = t := by
  cases o <;> simp [Outcome.map]

theorem forEach_nil {π α : Type} (body : π → α → Outcome (π × α)) (p : π) :
    forEach body [] p = .done (p, []) := rfl

theorem forEach_cons_done {π α : Type} {body : π → α → Outcome (π × α)} {x : α}
    {xs : List α} {p : π} {r : π × List α} :
    forEach body (x :: xs) p = .done r ↔
      ∃ p1 x1 p2 xs2, body p x = .done (p1, x1) ∧ forEach body xs p1 = .done (p2, xs2) ∧
        r = (p2, x1 :: xs2) := by
  rw [forEach]
  rcases hb : body p x with ⟨p1, x1⟩ | ⟨p1, x1⟩ | ⟨p1, x1⟩
  · simp only [Outcome.map_eq_done, Outcome.done.injEq, Prod.mk.injEq]
    constructor
    · rintro ⟨⟨p2, xs2⟩, h, rfl⟩
      exact ⟨p1, x1, p2, xs2, ⟨rfl, rfl⟩, h, rfl⟩
    · rintro ⟨q1, y1, p2, xs2, ⟨rfl, rfl⟩, h, rfl⟩
      exact ⟨(p2, xs2), h, rfl⟩
  · simp
  · simp

theorem forEach_cons_weightError {π α : Type} {body : π → α → Outcome (π × α)} {x : α}
    {xs : List α} {p : π} {r : π × List α} :
    forEach body (x :: xs) p = .weightError r ↔
      (∃ p1 x1, body p x = .weightError (p1, x1) ∧ r = (p1, x1 :: xs)) ∨
      (∃ p1 x1 p2 xs2, body p x = .done (p1, x1) ∧
        forEach body xs p1 = .weightError (p2, xs2) ∧ r = (p2, x1 :: xs2)) := by
  rw [forEach]
  rcases hb : body p x with ⟨p1, x1⟩ | ⟨p1, x1⟩ | ⟨p1, x1⟩
  · simp only [Outcome.map_eq_weightError]
    constructor
    · rintro ⟨⟨p2, xs2⟩, h, rfl⟩
      exact Or.inr ⟨p1, x1, p2, xs2, rfl, h, rfl⟩
    · rintro (⟨q1, y1, h, -⟩ | ⟨q1, y1, p2, xs2, h1, h, rfl⟩)
      · cases h
      · cases h1
        exact ⟨(p2, xs2), h, rfl⟩
  · constructor
    · intro h
      cases h
      exact Or.inl ⟨p1, x1, rfl, rfl⟩
    · rintro (⟨q1, y1, h, rfl⟩ | ⟨q1, y1, p2, xs2, h1, -, -⟩)
      · cases h
        rfl
      · cases h1
  · constructor
    · intro h
      cases h
    · rintro (⟨q1, y1, h, -⟩ | ⟨q1, y1, p2, xs2, h1, -, -⟩)
      · cases h
      · cases h1

theorem forEach_cons_divByZero {π α : Type} {body : π → α → Outcome (π × α)} {x : α}
    {xs : List α} {p : π} {r : π × List α} :
    forEach body (x :: xs) p = .divByZero r ↔
      (∃ p1 x1, body p x = .divByZero (p1, x1) ∧ r = (p1, x1 :: xs)) ∨
      (∃ p1 x1 p2 xs2, body p x = .done (p1, x1) ∧
        forEach body xs p1 = .divByZero (p2, xs2) ∧ r = (p2, x1 :: xs2)) := by
  rw [forEach]
  rcases hb : body p x with ⟨p1, x1⟩ | ⟨p1, x1⟩ | ⟨p1, x1⟩
  · simp only [Outcome.map_eq_divByZero]
    constructor
    · rintro ⟨⟨p2, xs2⟩, h, rfl⟩
      exact Or.inr ⟨p1, x1, p2, xs2, rfl, h, rfl⟩
    · rintro (⟨q1, y1, h, -⟩ | ⟨q1, y1, p2, xs2, h1, h, rfl⟩)
      · cases h
      · cases h1
        exact ⟨(p2, xs2), h, rfl⟩
  · constructor
    · intro h
      cases h
    · rintro (⟨q1, y1, h, -⟩ | ⟨q1, y1, p2, xs2, h1, -, -⟩)
      · cases h
      · cases h1
  · constructor
    · intro h
      cases h
      exact Or.inl ⟨p1, x1, rfl, rfl⟩
    · rintro (⟨q1, y1, h, rfl⟩ | ⟨q1, y1, p2, xs2, h1, -, -⟩)
      · cases h
        rfl
      · cases h1

/-! ### The weight-sum check -/

/-- The check of lines 35-36 fails at the first prefix whose sum, reduced to an `int`,
exceeds 100. -/
theorem overBudget_iff_wrap (groups : List GroupConfig) (s : Int) :
    overBudget groups s = true ↔
      ∃ n, n < groups.length ∧
        wrap (s + ((groups.take (n + 1)).map (fun gc => gc.Weight)).sum) > 100 := by
  induction groups generalizing s with
  | nil => simp [overBudget]
  | cons gc rest ih =>
    simp only [overBudget, Bool.or_eq_true, decide_eq_true_eq, ih, intAdd, wrap_add_wrap]
    constructor
    · rintro (h | ⟨n, hn, h⟩)
      · exact ⟨0, by simp, by simpa using h⟩
      · refine ⟨n + 1, by simpa using hn, ?_⟩
        simp only [List.take_succ_cons, List.map_cons, List.sum_cons]
        rw [← add_assoc]
        exact h
    · rintro ⟨n, hn, h⟩
      cases n with
      | zero =>
        left
        simpa using h
      | succ m =>
        right
        refine ⟨m, by simpa using hn, ?_⟩
        simp only [List.take_succ_cons, List.map_cons, List.sum_cons] at h
        rw [← add_assoc] at h
        exact h

theorem sum_take_bounds (l : List Int) (hl : ∀ x ∈ l, 0 ≤ x) (n : Nat) :
    0 ≤ (l.take n).sum ∧ (l.take n).sum ≤ l.sum := by
  induction l generalizing n with
  | nil => simp
  | cons x xs ih =>
    have hx : 0 ≤ x := hl x (List.mem_cons_self _ _)
    have hxs : ∀ y ∈ xs, 0 ≤ y := fun y hy => hl y (List.mem_cons_of_mem _ hy)
    cases n with
    | zero =>
      have := List.sum_nonneg hxs
      simp only [List.take_zero, List.sum_nil, List.sum_cons]
      omega
    | succ m =>
      obtain ⟨h1, h2⟩ := ih hxs m
      simp only [List.take_succ_cons, List.sum_cons]
      omega

theorem weights_nonneg {groups : List GroupConfig} (hw : ∀ gc ∈ groups, 0 ≤ gc.Weight) :
    ∀ x ∈ groups.map (fun gc => gc.Weight), 0 ≤ x := by
  intro x hx
  obtain ⟨gc, h, rfl⟩ := List.mem_map.mp hx
  exact hw gc h

/-- Weights whose sum is above 100 and fits in an `int` fail the check. -/
theorem overBudget_of_sum_gt (groups : List GroupConfig)
    (h : (groups.map (fun gc => gc.Weight)).sum > 100)
    (hmax : (groups.map (fun gc => gc.Weight)).sum ≤ 9223372036854775807) :
    overBudget groups 0 = true := by
  rw [overBudget_iff_wrap]
  cases hg : groups with
  | nil =>
    rw [hg] at h
    simp at h
  | cons gc rest =>
    rw [← hg]
    refine ⟨groups.length - 1, by rw [hg]; simp, ?_⟩
    have ht : groups.take (groups.length - 1 + 1) = groups := by
      apply List.take_of_length_le
      omega
    rw [ht, zero_add, wrap_eq_self (by omega) hmax]
    exact h

/-- Non-negative weights whose sum is at most 100 pass the check. -/
theorem overBudget_false_of_nonneg (groups : List GroupConfig)
    (hw : ∀ gc ∈ groups, 0 ≤ gc.Weight)
    (h : (groups.map (fun gc => gc.Weight)).sum ≤ 100) :
    overBudget groups 0 = false := by
  cases hb : overBudget groups 0 with
  | false => rfl
  | true =>
    obtain ⟨n, -, hn⟩ := (overBudget_iff_wrap groups 0).mp hb
    have hb2 := sum_take_bounds _ (weights_nonneg hw) (n + 1)
    rw [List.map_take, zero_add, wrap_eq_self (by omega) (by omega)] at hn
    omega

theorem scanWeights_overBudget (name : String) (len : Int) (hlen : len ≠ 0)
    (groups : List GroupConfig) (s : Int) (p : Pool) (t : Task)
    (h : overBudget groups s = true) :
    ∃ p1 t1, scanWeights name len groups s p t = .weightError (p1, t1) ∧ t1.Name = t.Name := by
  induction groups generalizing s p t with
  | nil => simp [overBudget] at h
  | cons gc rest ih =>
    simp only [overBudget, Bool.or_eq_true, decide_eq_true_eq] at h
    rw [scanWeights]
    by_cases h1 : intAdd s gc.Weight > 100
    · exact ⟨p, t, by simp [h1], rfl⟩
    · have h2 : overBudget rest (intAdd s gc.Weight) = true := h.resolve_left h1
      simp only [h1, if_false, hlen]
      by_cases hn : gc.Name = name
      · simp only [hn, if_true]
        obtain ⟨p1, t1, e, hn1⟩ := ih (intAdd s gc.Weight) _ _ h2
        exact ⟨p1, t1, e, hn1⟩
      · simp only [hn, if_false]
        exact ih (intAdd s gc.Weight) p t h2

theorem scanWeights_withinBudget (name : String) (len : Int) (hlen : len ≠ 0)
    (groups : List GroupConfig) (s : Int) (p : Pool) (t : Task)
    (h : overBudget groups s = false) :
    ∃ r, scanWeights name len groups s p t = .done r := by
  induction groups generalizing s p t with
  | nil => exact ⟨(p, t), rfl⟩
  | cons gc rest ih =>
    simp only [overBudget, Bool.or_eq_false_iff, decide_eq_false_iff_not] at h
    rw [scanWeights]
    simp only [h.1, if_false, hlen]
    by_cases hn : gc.Name = name
    · simp only [hn, if_true]
      exact ih _ _ _ h.2
    · simp only [hn, if_false]
      exact ih _ _ _ h.2

theorem scanWeights_weightError_overBudget {name : String} {len : Int}
    {groups : List GroupConfig} {s : Int} {p : Pool} {t : Task} {r : Pool × Task}
    (h : scanWeights name len groups s p t = .weightError r) :
    overBudget groups s = true := by
  induction groups generalizing s p t with
  | nil => simp [scanWeights] at h
  | cons gc rest ih =>
    rw [scanWeights] at h
    simp only [overBudget, Bool.or_eq_true, decide_eq_true_eq]
    by_cases h1 : intAdd s gc.Weight > 100
    · exact Or.inl h1
    · right
      simp only [h1, if_false] at h
      by_cases hn : gc.Name = name
      · simp only [hn, if_true] at h
        by_cases hl : len = 0
        · simp [hl] at h
        · simp only [hl, if_false] at h
          exact ih h
      · simp only [hn, if_false] at h
        exact ih h

theorem forEach_ne_weightError {π α : Type} {body : π → α → Outcome (π × α)}
    (hbody : ∀ p x r, body p x ≠ .weightError r) (xs : List α) (p : π) (r : π × List α) :
    forEach body xs p ≠ .weightError r := by
  induction xs generalizing p r with
  | nil => simp [forEach]
  | cons x xs ih =>
    intro h
    rcases forEach_cons_weightError.mp h with ⟨p1, x1, h1, -⟩ | ⟨p1, x1, p2, xs2, -, h2, -⟩
    · exact hbody _ _ _ h1
    · exact ih _ _ h2

theorem forEach_ne_divByZero {π α : Type} {body : π → α → Outcome (π × α)}
    (hbody : ∀ p x r, body p x ≠ .divByZero r) (xs : List α) (p : π) (r : π × List α) :
    forEach body xs p ≠ .divByZero r := by
  induction xs generalizing p r with
  | nil => simp [forEach]
  | cons x xs ih =>
    intro h
    rcases forEach_cons_divByZero.mp h with ⟨p1, x1, h1, -⟩ | ⟨p1, x1, p2, xs2, -, h2, -⟩
    · exact hbody _ _ _ h1
    · exact ih _ _ h2

@[simp] theorem resolveCount_Name (g : TaskGroup) : (resolveCount g).Name = g.Name := by
  unfold resolveCount; cases g.Count <;> rfl

@[simp] theorem resolveCount_Tasks (g : TaskGroup) : (resolveCount g).Tasks = g.Tasks := by
  unfold resolveCount; cases g.Count <;> rfl

theorem scanWeights_ne_divByZero (name : String) (len : Int) (hlen : len ≠ 0)
    (groups : List GroupConfig) (s : Int) (p : Pool) (t : Task) (r : Pool × Task) :
    scanWeights name len groups s p t ≠ .divByZero r := by
  intro h
  cases hb : overBudget groups s with
  | true =>
    obtain ⟨p1, t1, e, -⟩ := scanWeights_overBudget name len hlen groups s p t hb
    rw [e] at h; cases h
  | false =>
    obtain ⟨r1, e⟩ := scanWeights_withinBudget name len hlen groups s p t hb
    rw [e] at h; cases h

/-- The task loop of phase 1 stops at its first task when the table is over budget. -/
theorem phase1Tasks_overBudget (config : Config) (g : TaskGroup)
    (hlen : (g.Tasks.length : Int) ≠ 0) (h : overBudget config.Groups 0 = true)
    (x : Task) (xs : List Task) (p : Pool) :
    ∃ p1 x1, forEach (phase1Task config g) (x :: xs) p = .weightError (p1, x1 :: xs) ∧
      x1.Name = x.Name := by
  obtain ⟨p1, x1, e, hn⟩ := scanWeights_overBudget g.Name _ hlen config.Groups 0 p x h
  exact ⟨p1, x1, forEach_cons_weightError.mpr (Or.inl ⟨p1, x1, e, rfl⟩), hn⟩

theorem phase1Tasks_withinBudget (config : Config) (g : TaskGroup)
    (hlen : (g.Tasks.length : Int) ≠ 0) (h : overBudget config.Groups 0 = false)
    (xs : List Task) (p : Pool) :
    ∃ r, forEach (phase1Task config g) xs p = .done r := by
  induction xs generalizing p with
  | nil => exact ⟨_, rfl⟩
  | cons x xs ih =>
    obtain ⟨⟨p1, x1⟩, e⟩ := scanWeights_withinBudget g.Name _ hlen config.Groups 0 p x h
    obtain ⟨⟨p2, xs2⟩, e2⟩ := ih p1
    exact ⟨_, forEach_cons_done.mpr ⟨p1, x1, p2, xs2, e, e2, rfl⟩⟩

theorem phase1Tasks_weightError (config : Config) (g : TaskGroup) (xs : List Task) (p : Pool)
    (r : Pool × List Task) (h : forEach (phase1Task config g) xs p = .weightError r) :
    overBudget config.Groups 0 = true := by
  induction xs generalizing p r with
  | nil => simp [forEach] at h
  | cons x xs ih =>
    rcases forEach_cons_weightError.mp h with ⟨p1, x1, h1, -⟩ | ⟨p1, x1, p2, xs2, -, h2, -⟩
    · exact scanWeights_weightError_overBudget h1
    · exact ih _ _ h2

theorem phase1Tasks_ne_divByZero (config : Config) (g : TaskGroup)
    (hlen : (g.Tasks.length : Int) ≠ 0) (xs : List Task) (p : Pool) (r : Pool × List Task) :
    forEach (phase1Task config g) xs p ≠ .divByZero r :=
  forEach_ne_divByZero (fun p x r => scanWeights_ne_divByZero g.Name _ hlen config.Groups 0 p x r)
    xs p r

theorem phase1Group_empty (config : Config) (p : Pool) (g : TaskGroup) (h : g.Tasks = []) :
    phase1Group config p g = .done (p, resolveCount g) := by
  have h2 : (resolveCount g).Tasks = [] := by simp [h]
  unfold phase1Group
  simp only [h2, forEach_nil, Outcome.map]
  rw [← h2]

theorem phase1Group_ne_divByZero (config : Config) (p : Pool) (g : TaskGroup)
    (r : Pool × TaskGroup) : phase1Group config p g ≠ .divByZero r := by
  intro h
  cases ht : g.Tasks with
  | nil => rw [phase1Group_empty config p g ht] at h; cases h
  | cons x xs =>
    unfold phase1Group at h
    obtain ⟨r1, h1, -⟩ := Outcome.map_eq_divByZero.mp h
    refine phase1Tasks_ne_divByZero config (resolveCount g) ?_ _ _ _ h1
    simp [ht]
    omega

theorem phase1Group_overBudget (config : Config) (p : Pool) (g : TaskGroup)
    (h : overBudget config.Groups 0 = true) (x : Task) (xs : List Task)
    (ht : g.Tasks = x :: xs) :
    ∃ p1 g1 x1, phase1Group config p g = .weightError (p1, g1) ∧ g1.Tasks = x1 :: xs ∧
      x1.Name = x.Name := by
  have hlen : ((resolveCount g).Tasks.length : Int) ≠ 0 := by simp [ht]; omega
  obtain ⟨p1, x1, e, hn⟩ := phase1Tasks_overBudget config (resolveCount g) hlen h x xs p
  refine ⟨p1, { resolveCount g with Tasks := x1 :: xs }, x1, ?_, rfl, hn⟩
  unfold phase1Group
  simp only [resolveCount_Tasks, ht] at e ⊢
  rw [e]
  rfl

theorem phase1Group_withinBudget (config : Config) (p : Pool) (g : TaskGroup)
    (h : overBudget config.Groups 0 = false) :
    ∃ r, phase1Group config p g = .done r := by
  cases ht : g.Tasks with
  | nil => exact ⟨_, phase1Group_empty config p g ht⟩
  | cons x xs =>
    have hlen : ((resolveCount g).Tasks.length : Int) ≠ 0 := by simp [ht]; omega
    obtain ⟨r, e⟩ := phase1Tasks_withinBudget config (resolveCount g) hlen h
      (resolveCount g).Tasks p
    unfold phase1Group
    exact ⟨_, Outcome.map_eq_done.mpr ⟨r, e, rfl⟩⟩

theorem phase1Group_weightError (config : Config) (p : Pool) (g : TaskGroup)
    (r : Pool × TaskGroup) (h : phase1Group config p g = .weightError r) :
    overBudget config.Groups 0 = true := by
  unfold phase1Group at h
  obtain ⟨r1, h1, -⟩ := Outcome.map_eq_weightError.mp h
  exact phase1Tasks_weightError config _ _ _ _ h1

theorem phase1_ne_divByZero (config : Config) (groups : List TaskGroup) (p : Pool)
    (r : Pool × List TaskGroup) : phase1 config groups p ≠ .divByZero r :=
  forEach_ne_divByZero (fun p g r => phase1Group_ne_divByZero config p g r) groups p r

theorem phase1_withinBudget (config : Config) (groups : List TaskGroup) (p : Pool)
    (h : overBudget config.Groups 0 = false) :
    ∃ r, phase1 config groups p = .done r := by
  induction groups generalizing p with
  | nil => exact ⟨_, rfl⟩
  | cons g gs ih =>
    obtain ⟨⟨p1, g1⟩, e⟩ := phase1Group_withinBudget config p g h
    obtain ⟨⟨p2, gs2⟩, e2⟩ := ih p1
    exact ⟨_, forEach_cons_done.mpr ⟨p1, g1, p2, gs2, e, e2, rfl⟩⟩

theorem phase1_weightError (config : Config) (groups : List TaskGroup) (p : Pool)
    (r : Pool × List TaskGroup) (h : phase1 config groups p = .weightError r) :
    overBudget config.Groups 0 = true ∧ ∃ g ∈ groups, g.Tasks ≠ [] := by
  induction groups generalizing p r with
  | nil => simp [phase1, forEach] at h
  | cons g gs ih =>
    rcases forEach_cons_weightError.mp h with ⟨p1, g1, h1, -⟩ | ⟨p1, g1, p2, gs2, -, h2, -⟩
    · refine ⟨phase1Group_weightError config p g _ h1, g, List.mem_cons_self _ _, ?_⟩
      intro ht
      rw [phase1Group_empty config p g ht] at h1
      cases h1
    · obtain ⟨hb, g2, hg2, ht⟩ := ih p1 _ h2
      exact ⟨hb, g2, List.mem_cons_of_mem _ hg2, ht⟩

/-- When the table is over budget, phase 1 returns the error at the first listed task of the
job: every other task is as it was. -/
theorem phase1_overBudget (config : Config) (groups : List TaskGroup) (p : Pool)
    (h : overBudget config.Groups 0 = true) (hex : ∃ g ∈ groups, g.Tasks ≠ []) :
    ∃ p1 groups1 t t1 rest, phase1 config groups p = .weightError (p1, groups1) ∧
      groups.flatMap (fun g => g.Tasks) = t :: rest ∧
      groups1.flatMap (fun g => g.Tasks) = t1 :: rest ∧ t1.Name = t.Name := by
  induction groups generalizing p with
  | nil => simp at hex
  | cons g gs ih =>
    cases ht : g.Tasks with
    | nil =>
      have hex2 : ∃ g2 ∈ gs, g2.Tasks ≠ [] := by
        obtain ⟨g2, hg2, hne⟩ := hex
        rcases List.mem_cons.mp hg2 with rfl | hg2
        · exact absurd ht hne
        · exact ⟨g2, hg2, hne⟩
      obtain ⟨p1, gs1, t, t1, rest, e, e1, e2, hn⟩ := ih p hex2
      refine ⟨p1, resolveCount g :: gs1, t, t1, rest, ?_, ?_, ?_, hn⟩
      · exact forEach_cons_weightError.mpr
          (Or.inr ⟨p, resolveCount g, p1, gs1, phase1Group_empty config p g ht, e, rfl⟩)
      · simp [List.flatMap_cons, ht, e1]
      · simp [List.flatMap_cons, ht, e2]
    | cons x xs =>
      obtain ⟨p1, g1, x1, e, e1, hn⟩ := phase1Group_overBudget config p g h x xs ht
      refine ⟨p1, g1 :: gs, x, x1, xs ++ gs.flatMap (fun g => g.Tasks), ?_, ?_, ?_, hn⟩
      · exact forEach_cons_weightError.mpr (Or.inl ⟨p1, g1, e, rfl⟩)
      · simp [List.flatMap_cons, ht]
      · simp [List.flatMap_cons, e1]

/-! ### Phase 2 in closed form -/

theorem phase2Tasks_weighted (config : Config) (name : String) (p : Pool)
    (hw : weighted config name = true) (ts : List Task) (found : Bool) :
    ∃ f, forEach (phase2Task config name p) ts found = .done (f, ts) := by
  induction ts generalizing found with
  | nil => exact ⟨found, rfl⟩
  | cons t ts ih =>
    obtain ⟨f, e⟩ := ih (found || true)
    refine ⟨f, forEach_cons_done.mpr ⟨found || true, t, f, ts, ?_, e, rfl⟩⟩
    unfold weighted at hw
    simp [phase2Task, hw]

theorem phase2Tasks_unweighted (config : Config) (name : String) (p : Pool)
    (hw : weighted config name = false) (hp : p.weightlessTasks ≠ 0) (ts : List Task) :
    forEach (phase2Task config name p) ts false = .done (false, ts.map (evenShare p)) := by
  induction ts with
  | nil => rfl
  | cons t ts ih =>
    refine forEach_cons_done.mpr ⟨false, evenShare p t, false, ts.map (evenShare p), ?_, ih, rfl⟩
    unfold weighted at hw
    simp [phase2Task, hw, hp, evenShare]

theorem phase2Tasks_unweighted_zero (config : Config) (name : String) (p : Pool)
    (hw : weighted config name = false) (hp : p.weightlessTasks = 0) (t : Task)
    (ts : List Task) :
    forEach (phase2Task config name p) (t :: ts) false = .divByZero (false, t :: ts) := by
  refine forEach_cons_divByZero.mpr (Or.inl ⟨false, t, ?_, rfl⟩)
  unfold weighted at hw
  simp [phase2Task, hw, hp]

theorem phase2Group_weighted (config : Config) (p : Pool) (g : TaskGroup)
    (hw : weighted config g.Name = true) :
    phase2Group config p () g = .done ((), finish config p g) := by
  obtain ⟨f, e⟩ := phase2Tasks_weighted config (resolveCount g).Name p (by simpa using hw)
    (resolveCount g).Tasks false
  unfold phase2Group
  simp only [e, Outcome.map, finish, hw, if_true]

theorem phase2Group_unweighted (config : Config) (p : Pool) (g : TaskGroup)
    (hw : weighted config g.Name = false) (hp : p.weightlessTasks ≠ 0 ∨ g.Tasks = []) :
    phase2Group config p () g = .done ((), finish config p g) := by
  unfold phase2Group
  simp only
  rcases hp with hp | hp
  · rw [phase2Tasks_unweighted config (resolveCount g).Name p (by simpa using hw) hp]
    simp [Outcome.map, finish, hw]
  · simp [hp, forEach_nil, Outcome.map, finish, hw]

theorem phase2Group_unweighted_zero (config : Config) (p : Pool) (g : TaskGroup)
    (hw : weighted config g.Name = false) (hp : p.weightlessTasks = 0) (hne : g.Tasks ≠ []) :
    phase2Group config p () g = .divByZero ((), resolveCount g) := by
  unfold phase2Group
  simp only
  cases ht : g.Tasks with
  | nil => exact absurd ht hne
  | cons t ts =>
    have ht2 : (resolveCount g).Tasks = t :: ts := by simp [ht]
    simp only [ht2]
    rw [phase2Tasks_unweighted_zero config (resolveCount g).Name p (by simpa using hw) hp]
    simp only [Outcome.map]
    rw [← ht2]

/-- The three ways the body of the group loop of phase 2 can end. -/
theorem phase2Group_cases (config : Config) (p : Pool) (g : TaskGroup) :
    phase2Group config p () g = .done ((), finish config p g) ∨
      (phase2Group config p () g = .divByZero ((), resolveCount g) ∧
        weighted config g.Name = false ∧ p.weightlessTasks = 0 ∧ g.Tasks ≠ []) := by
  cases hw : weighted config g.Name with
  | true => exact Or.inl (phase2Group_weighted config p g hw)
  | false =>
    by_cases hp : p.weightlessTasks = 0
    · by_cases hne : g.Tasks = []
      · exact Or.inl (phase2Group_unweighted config p g hw (Or.inr hne))
      · exact Or.inr ⟨phase2Group_unweighted_zero config p g hw hp hne, rfl, hp, hne⟩
    · exact Or.inl (phase2Group_unweighted config p g hw (Or.inl hp))

theorem phase2_ne_weightError (config : Config) (p : Pool) (groups : List TaskGroup)
    (r : List TaskGroup) : phase2 config p groups ≠ .weightError r := by
  intro h
  unfold phase2 at h
  obtain ⟨r1, h1, -⟩ := Outcome.map_eq_weightError.mp h
  refine forEach_ne_weightError ?_ _ _ _ h1
  intro u g r2 h2
  rcases phase2Group_cases config p g with e | ⟨e, -⟩ <;> rw [e] at h2 <;> cases h2

theorem phase2_loop_done (config : Config) (p : Pool) (groups : List TaskGroup)
    (r : Unit × List TaskGroup) (h : forEach (phase2Group config p) groups () = .done r) :
    r.2 = groups.map (finish config p) := by
  induction groups generalizing r with
  | nil => simp [forEach] at h; subst h; rfl
  | cons g gs ih =>
    obtain ⟨u1, g1, u2, gs2, h1, h2, rfl⟩ := forEach_cons_done.mp h
    have e2 := ih _ h2
    simp only at e2
    rcases phase2Group_cases config p g with e | ⟨e, -⟩
    · rw [e] at h1
      cases h1
      simp [e2]
    · rw [e] at h1
      cases h1

theorem phase2_done (config : Config) (p : Pool) (groups r : List TaskGroup)
    (h : phase2 config p groups = .done r) : r = groups.map (finish config p) := by
  unfold phase2 at h
  obtain ⟨r1, h1, rfl⟩ := Outcome.map_eq_done.mp h
  exact phase2_loop_done config p groups r1 h1

theorem phase2_loop_divByZero (config : Config) (p : Pool) (groups : List TaskGroup)
    (r : Unit × List TaskGroup) (h : forEach (phase2Group config p) groups () = .divByZero r) :
    p.weightlessTasks = 0 ∧ ∃ g ∈ groups, weighted config g.Name = false ∧ g.Tasks ≠ [] := by
  induction groups generalizing r with
  | nil => simp [forEach] at h
  | cons g gs ih =>
    rcases forEach_cons_divByZero.mp h with ⟨u1, g1, h1, -⟩ | ⟨u1, g1, u2, gs2, -, h2, -⟩
    · rcases phase2Group_cases config p g with e | ⟨-, hw, hp, hne⟩
      · rw [e] at h1
        cases h1
      · exact ⟨hp, g, List.mem_cons_self _ _, hw, hne⟩
    · obtain ⟨hp, g2, hg2, hw, hne⟩ := ih _ h2
      exact ⟨hp, g2, List.mem_cons_of_mem _ hg2, hw, hne⟩

theorem phase2_divByZero (config : Config) (p : Pool) (groups r : List TaskGroup)
    (h : phase2 config p groups = .divByZero r) :
    p.weightlessTasks = 0 ∧ ∃ g ∈ groups, weighted config g.Name = false ∧ g.Tasks ≠ [] := by
  unfold phase2 at h
  obtain ⟨r1, h1, -⟩ := Outcome.map_eq_divByZero.mp h
  exact phase2_loop_divByZero config p groups r1 h1

theorem phase2_eq_done (config : Config) (p : Pool) (groups : List TaskGroup)
    (hp : p.weightlessTasks ≠ 0 ∨ ∀ g ∈ groups, weighted config g.Name = false → g.Tasks = []) :
    phase2 config p groups = .done (groups.map (finish config p)) := by
  cases h : phase2 config p groups with
  | done r => rw [phase2_done config p groups r h]
  | weightError r => exact absurd h (phase2_ne_weightError config p groups r)
  | divByZero r =>
    obtain ⟨h0, g, hg, hw, hne⟩ := phase2_divByZero config p groups r h
    rcases hp with hp | hp
    · exact absurd h0 hp
    · exact absurd (hp g hg hw) hne

/-! ### `Allocate` by cases -/

theorem Allocate_weightError {E M : Int} {config : Config} {job job1 : Job}
    (h : Allocate E M config job = .weightError job1) :
    ∃ p1, phase1 config job.TaskGroups ⟨E, M, absoluteTasks job⟩ =
      .weightError (p1, job1.TaskGroups) := by
  unfold Allocate at h
  simp only at h
  split at h
  · rename_i p groups e
    obtain ⟨r, h1, -⟩ := Outcome.map_eq_weightError.mp h
    exact absurd h1 (phase2_ne_weightError config p groups r)
  · rename_i p groups e
    cases h
    exact ⟨p, e⟩
  · cases h

theorem Allocate_done {E M : Int} {config : Config} {job job1 : Job}
    (h : Allocate E M config job = .done job1) :
    ∃ p1 groups1, phase1 config job.TaskGroups ⟨E, M, absoluteTasks job⟩ = .done (p1, groups1) ∧
      phase2 config p1 groups1 = .done job1.TaskGroups ∧
      job1.TaskGroups = groups1.map (finish config p1) := by
  unfold Allocate at h
  simp only at h
  split at h
  · rename_i p groups e
    obtain ⟨r, h1, h2⟩ := Outcome.map_eq_done.mp h
    subst h2
    exact ⟨p, groups, e, h1, phase2_done config p groups r h1⟩
  · cases h
  · cases h

theorem Allocate_divByZero {E M : Int} {config : Config} {job job1 : Job}
    (h : Allocate E M config job = .divByZero job1) :
    ∃ p1 groups1, phase1 config job.TaskGroups ⟨E, M, absoluteTasks job⟩ = .done (p1, groups1) ∧
      p1.weightlessTasks = 0 ∧ ∃ g ∈ groups1, weighted config g.Name = false ∧ g.Tasks ≠ [] := by
  unfold Allocate at h
  simp only at h
  split at h
  · rename_i p groups e
    obtain ⟨r, h1, -⟩ := Outcome.map_eq_divByZero.mp h
    obtain ⟨h0, hex⟩ := phase2_divByZero config p groups r h1
    exact ⟨p, groups, e, h0, hex⟩
  · cases h
  · rename_i p groups e
    exact absurd e (phase1_ne_divByZero config _ _ _)

/-! ### Arithmetic of the shares -/

/-- For a pool in `[0, maxCapacity]` and a weight in `[0, 100]` nothing wraps: the share
that the code assigns is the floor, it is non-negative and it is at most the pool. -/
theorem goShare_bounds (P w len : Int) (hP : 0 ≤ P) (hPc : P ≤ maxCapacity) (hw : 0 ≤ w)
    (hw1 : w ≤ 100) (hlen : 0 < len) :
    goShare w len P = floorShare w len P ∧ 0 ≤ goShare w len P ∧ goShare w len P ≤ P := by
  unfold maxCapacity at hPc
  have h1 : 0 ≤ P * w := Int.mul_nonneg hP hw
  have h1b : P * w ≤ 9223372036854775807 := by nlinarith
  have h3 : 0 ≤ P * w / 100 := Int.ediv_nonneg h1 (by decide)
  have h3b : P * w / 100 ≤ P * w := Int.ediv_le_self 100 h1
  have h4 : P * w / 100 ≤ P := by
    apply Int.ediv_le_of_le_mul (by decide)
    nlinarith
  have e : goShare w len P = P * w / 100 / len := by
    unfold goShare
    rw [intMul_eq (by omega) h1b, intDiv_eq h1 h1b (by decide),
      intDiv_eq h3 (by omega) hlen]
  rw [e]
  exact ⟨rfl, Int.ediv_nonneg h3 (le_of_lt hlen), le_trans (Int.ediv_le_self len h3) h4⟩

/-- The even share of a non-negative pool among at least `u` tasks is non-negative, and
`u` of them fit in the pool. -/
theorem evenShare_bounds (P wl u : Int) (hP : 0 ≤ P) (hPc : P ≤ 9223372036854775807)
    (hu : 0 ≤ u) (huw : u ≤ wl) :
    0 ≤ intDiv P wl ∧ u * intDiv P wl ≤ P := by
  have hwl : 0 ≤ wl := le_trans hu huw
  rcases eq_or_lt_of_le hwl with h | h
  · have hu0 : u = 0 := by omega
    subst h
    rw [hu0]
    have hz : intDiv P 0 = 0 := by
      unfold intDiv
      rw [Int.tdiv_zero]
      rfl
    rw [hz]
    omega
  · rw [intDiv_eq hP hPc h]
    have h0 : 0 ≤ P / wl := Int.ediv_nonneg hP hwl
    refine ⟨h0, ?_⟩
    calc u * (P / wl) ≤ wl * (P / wl) := Int.mul_le_mul_of_nonneg_right huw h0
      _ ≤ P := Int.mul_ediv_self_le (ne_of_gt h)

/-- When the pool and the weight are non-negative and their product fits in an `int`, the
share that the code computes is the floor. -/
theorem goShare_eq_floor (P w len : Int) (hP : 0 ≤ P) (hw : 0 ≤ w)
    (hfit : P * w ≤ 9223372036854775807) (hlen : 0 < len) :
    intDiv (intDiv (intMul P w) 100) len = P * w / 100 / len := by
  have h1 : 0 ≤ P * w := Int.mul_nonneg hP hw
  have h3 : 0 ≤ P * w / 100 := Int.ediv_nonneg h1 (by decide)
  have h3b : P * w / 100 ≤ P * w := Int.ediv_le_self 100 h1
  rw [intMul_eq (by omega) hfit, intDiv_eq h1 hfit (by decide), intDiv_eq h3 (by omega) hlen]

/-! ### One task in phase 1 -/

theorem scanWeights_unweighted {name : String} {len : Int} {groups : List GroupConfig}
    (hno : ∀ gc ∈ groups, gc.Name ≠ name) {s : Int} {p : Pool} {t : Task} {p1 : Pool}
    {t1 : Task} (h : scanWeights name len groups s p t = .done (p1, t1)) :
    p1 = p ∧ t1 = t := by
  induction groups generalizing s with
  | nil =>
    simp only [scanWeights, Outcome.done.injEq, Prod.mk.injEq] at h
    exact ⟨h.1.symm, h.2.symm⟩
  | cons gc rest ih =>
    have hn : gc.Name ≠ name := hno gc (List.mem_cons_self _ _)
    rw [scanWeights] at h
    simp only [hn, if_false] at h
    split at h
    · cases h
    · exact ih (fun gc2 h2 => hno gc2 (List.mem_cons_of_mem _ h2)) h

theorem scanWeights_done_name {name : String} {len : Int} {groups : List GroupConfig}
    {s : Int} {p : Pool} {t : Task} {p1 : Pool} {t1 : Task}
    (h : scanWeights name len groups s p t = .done (p1, t1)) : t1.Name = t.Name := by
  induction groups generalizing s p t with
  | nil =>
    simp only [scanWeights, Outcome.done.injEq, Prod.mk.injEq] at h
    rw [h.2]
  | cons gc rest ih =>
    rw [scanWeights] at h
    simp only at h
    split at h
    · cases h
    · split at h
      · split at h
        · cases h
        · exact (ih h).trans rfl
      · exact ih h

/-- `weightlessTasks` drops by one, in Go's arithmetic, for every entry of the name. -/
theorem scanWeights_done_weightless {name : String} {len : Int} {groups : List GroupConfig}
    {s : Int} {p : Pool} (hp : wrap p.weightlessTasks = p.weightlessTasks) {t : Task}
    {p1 : Pool} {t1 : Task}
    (h : scanWeights name len groups s p t = .done (p1, t1)) :
    p1.weightlessTasks = wrap (p.weightlessTasks -
      ((groups.filter (fun gc => decide (gc.Name = name))).length : Int)) := by
  induction groups generalizing s p t with
  | nil =>
    simp only [scanWeights, Outcome.done.injEq, Prod.mk.injEq] at h
    simp [← h.1, hp]
  | cons gc rest ih =>
    rw [scanWeights] at h
    simp only at h
    split at h
    · cases h
    · by_cases hn : gc.Name = name
      · simp only [hn, if_true] at h
        split at h
        · cases h
        · have := ih (by simp only [intSub, wrap_wrap]) h
          simp only [intSub, wrap_sub_wrap] at this
          simp only [List.filter_cons, hn, decide_True, if_true, List.length_cons]
          rw [this]
          congr 1
          push_cast
          ring
      · simp only [hn, if_false] at h
        have := ih hp h
        simpa [List.filter_cons, hn] using this

/-- From a pool in `[0, maxCapacity]`, weights in `[0, 100]` and a running sum in
`[0, 100]`, the pool stays non-negative and never grows; a task of a weighted group ends
with non-negative values that the pool has paid for. -/
theorem scanWeights_done_bounds {name : String} {len : Int} (hlen : 0 < len)
    {groups : List GroupConfig} (hw : ∀ gc ∈ groups, 0 ≤ gc.Weight ∧ gc.Weight ≤ 100)
    {s : Int} (hs : 0 ≤ s) (hs1 : s ≤ 100) {p : Pool}
    (hc : 0 ≤ p.availableCPU) (hcc : p.availableCPU ≤ maxCapacity)
    (hm : 0 ≤ p.availableMemory) (hmc : p.availableMemory ≤ maxCapacity)
    {t : Task} {p1 : Pool} {t1 : Task}
    (h : scanWeights name len groups s p t = .done (p1, t1)) :
    (0 ≤ p1.availableCPU ∧ p1.availableCPU ≤ p.availableCPU) ∧
    (0 ≤ p1.availableMemory ∧ p1.availableMemory ≤ p.availableMemory) ∧
    ((∃ gc ∈ groups, gc.Name = name) →
      (0 ≤ t1.CPU ∧ t1.CPU ≤ p.availableCPU - p1.availableCPU) ∧
      (0 ≤ t1.MemoryMB ∧ t1.MemoryMB ≤ p.availableMemory - p1.availableMemory)) := by
  induction groups generalizing s p t with
  | nil =>
    simp only [scanWeights, Outcome.done.injEq, Prod.mk.injEq] at h
    obtain ⟨rfl, rfl⟩ := h
    simp [hc, hm]
  | cons gc rest ih =>
    obtain ⟨hw0, hw1⟩ := hw gc (List.mem_cons_self _ _)
    have hwr : ∀ gc2 ∈ rest, 0 ≤ gc2.Weight ∧ gc2.Weight ≤ 100 :=
      fun gc2 h2 => hw gc2 (List.mem_cons_of_mem _ h2)
    have hadd : intAdd s gc.Weight = s + gc.Weight := intAdd_eq (by omega) (by omega)
    rw [scanWeights] at h
    simp only [hadd] at h
    split at h
    · cases h
    · rename_i hle
      have hs2 : 0 ≤ s + gc.Weight := by omega
      have hs3 : s + gc.Weight ≤ 100 := by omega
      by_cases hn : gc.Name = name
      · simp only [hn, if_true, ne_of_gt hlen, if_false] at h
        obtain ⟨-, ac0, ac1⟩ := goShare_bounds p.availableCPU gc.Weight len hc hcc hw0 hw1 hlen
        obtain ⟨-, am0, am1⟩ :=
          goShare_bounds p.availableMemory gc.Weight len hm hmc hw0 hw1 hlen
        unfold goShare at ac0 ac1 am0 am1
        unfold maxCapacity at hcc hmc
        have ec : intSub p.availableCPU
            (intDiv (intDiv (intMul p.availableCPU gc.Weight) 100) len) =
            p.availableCPU - intDiv (intDiv (intMul p.availableCPU gc.Weight) 100) len :=
          intSub_eq (by omega) (by omega)
        have em : intSub p.availableMemory
            (intDiv (intDiv (intMul p.availableMemory gc.Weight) 100) len) =
            p.availableMemory - intDiv (intDiv (intMul p.availableMemory gc.Weight) 100) len :=
          intSub_eq (by omega) (by omega)
        rw [ec, em] at h
        obtain ⟨⟨c0, c1⟩, ⟨m0, m1⟩, hx⟩ :=
          ih hwr hs2 hs3 (by simp only; omega) (by simp only [maxCapacity]; omega)
            (by simp only; omega) (by simp only [maxCapacity]; omega) h
        simp only at c1 m1 hx
        refine ⟨⟨c0, by omega⟩, ⟨m0, by omega⟩, fun _ => ?_⟩
        by_cases hex : ∃ gc2 ∈ rest, gc2.Name = name
        · obtain ⟨⟨x0, x1⟩, ⟨y0, y1⟩⟩ := hx hex
          exact ⟨⟨x0, by omega⟩, ⟨y0, by omega⟩⟩
        · have hno : ∀ gc2 ∈ rest, gc2.Name ≠ name := fun gc2 h2 h3 => hex ⟨gc2, h2, h3⟩
          obtain ⟨rfl, rfl⟩ := scanWeights_unweighted hno h
          simp only
          exact ⟨⟨ac0, by omega⟩, ⟨am0, by omega⟩⟩
      · simp only [hn, if_false] at h
        obtain ⟨hc1, hm1, hx⟩ := ih hwr hs2 hs3 hc hcc hm hmc h
        refine ⟨hc1, hm1, fun hex => hx ?_⟩
        obtain ⟨gc2, h2, h3⟩ := hex
        rcases List.mem_cons.mp h2 with rfl | h2
        · exact absurd h3 hn
        · exact ⟨gc2, h2, h3⟩

/-- The scan does not read the task: from another task it ends the same way, with the same
pool and, when an entry carries the name of the group, the same values written. -/
theorem scanWeights_congr {name : String} {len : Int} {groups : List GroupConfig}
    {s : Int} {p : Pool} {t : Task} {p1 : Pool} {t1 : Task}
    (h : scanWeights name len groups s p t = .done (p1, t1)) (u : Task) (hu : u.Name = t.Name) :
    ∃ u1, scanWeights name len groups s p u = .done (p1, u1) ∧ u1.Name = t1.Name ∧
      ((∃ gc ∈ groups, gc.Name = name) → u1 = t1) := by
  induction groups generalizing s p t u with
  | nil =>
    simp only [scanWeights, Outcome.done.injEq, Prod.mk.injEq] at h
    obtain ⟨rfl, rfl⟩ := h
    exact ⟨u, rfl, hu, by simp⟩
  | cons gc rest ih =>
    rw [scanWeights] at h ⊢
    simp only at h ⊢
    split at h
    · cases h
    · rename_i hle
      simp only [hle, if_false]
      by_cases hn : gc.Name = name
      · simp only [hn, if_true] at h ⊢
        split at h
        · cases h
        · rename_i hl
          simp only [hl, if_false]
          obtain ⟨u1, e, hn1, hx⟩ := ih h
            { u with
                MemoryMB := intDiv (intDiv (intMul p.availableMemory gc.Weight) 100) len,
                CPU := intDiv (intDiv (intMul p.availableCPU gc.Weight) 100) len }
            (by simpa using hu)
          refine ⟨u1, e, hn1, fun _ => ?_⟩
          by_cases hex : ∃ gc2 ∈ rest, gc2.Name = name
          · exact hx hex
          · have hno : ∀ gc2 ∈ rest, gc2.Name ≠ name := fun gc2 h2 h3 => hex ⟨gc2, h2, h3⟩
            obtain ⟨-, rfl⟩ := scanWeights_unweighted hno h
            obtain ⟨-, rfl⟩ := scanWeights_unweighted hno e
            simp [hu]
      · simp only [hn, if_false] at h ⊢
        obtain ⟨u1, e, hn1, hx⟩ := ih h u hu
        refine ⟨u1, e, hn1, fun hex => hx ?_⟩
        obtain ⟨gc2, h2, h3⟩ := hex
        rcases List.mem_cons.mp h2 with rfl | h2
        · exact absurd h3 hn
        · exact ⟨gc2, h2, h3⟩

/-! ### The task loop of phase 1 -/

theorem weighted_eq_true_iff (config : Config) (name : String) :
    weighted config name = true ↔ ∃ gc ∈ config.Groups, gc.Name = name := by
  simp [weighted]

theorem weighted_eq_false_iff (config : Config) (name : String) :
    weighted config name = false ↔ ∀ gc ∈ config.Groups, gc.Name ≠ name := by
  simp [weighted]

theorem phase1Tasks_done_names (config : Config) (g : TaskGroup) (ts : List Task) (p : Pool)
    (p1 : Pool) (ts1 : List Task) (h : forEach (phase1Task config g) ts p = .done (p1, ts1)) :
    List.Forall₂ (fun a b : Task => a.Name = b.Name) ts ts1 := by
  induction ts generalizing p ts1 with
  | nil =>
    simp only [forEach, Outcome.done.injEq, Prod.mk.injEq] at h
    rw [← h.2]
    exact List.Forall₂.nil
  | cons t ts ih =>
    obtain ⟨q1, x1, q2, xs2, hb, hr, e⟩ := forEach_cons_done.mp h
    cases e
    exact List.Forall₂.cons (scanWeights_done_name hb).symm (ih _ _ hr)

theorem phase1Tasks_done_weightless (config : Config) (g : TaskGroup) (ts : List Task)
    (p : Pool) (hp : wrap p.weightlessTasks = p.weightlessTasks) (p1 : Pool) (ts1 : List Task)
    (h : forEach (phase1Task config g) ts p = .done (p1, ts1)) :
    p1.weightlessTasks = wrap (p.weightlessTasks - (ts.length : Int) *
      ((config.Groups.filter (fun gc => decide (gc.Name = g.Name))).length : Int)) := by
  induction ts generalizing p ts1 with
  | nil =>
    simp only [forEach, Outcome.done.injEq, Prod.mk.injEq] at h
    simp [← h.1, hp]
  | cons t ts ih =>
    obtain ⟨q1, x1, q2, xs2, hb, hr, e⟩ := forEach_cons_done.mp h
    cases e
    have h1 := scanWeights_done_weightless hp hb
    have h2 := ih _ (by rw [h1, wrap_wrap]) _ hr
    simp only [List.length_cons]
    rw [h2, h1, wrap_sub_wrap]
    congr 1
    push_cast
    ring

theorem phase1Tasks_unweighted (config : Config) (g : TaskGroup)
    (hw : weighted config g.Name = false) (ts : List Task) (p : Pool)
    (p1 : Pool) (ts1 : List Task) (h : forEach (phase1Task config g) ts p = .done (p1, ts1)) :
    p1 = p ∧ ts1 = ts := by
  induction ts generalizing p ts1 with
  | nil =>
    simp only [forEach, Outcome.done.injEq, Prod.mk.injEq] at h
    exact ⟨h.1.symm, h.2.symm⟩
  | cons t ts ih =>
    obtain ⟨q1, x1, q2, xs2, hb, hr, e⟩ := forEach_cons_done.mp h
    cases e
    obtain ⟨rfl, rfl⟩ := scanWeights_unweighted ((weighted_eq_false_iff _ _).mp hw) hb
    obtain ⟨rfl, rfl⟩ := ih _ _ hr
    exact ⟨rfl, rfl⟩

theorem phase1Tasks_done_bounds (config : Config) (g : TaskGroup)
    (hlen : 0 < (g.Tasks.length : Int))
    (hw : ∀ gc ∈ config.Groups, 0 ≤ gc.Weight ∧ gc.Weight ≤ 100)
    (ts : List Task) (p : Pool)
    (hc : 0 ≤ p.availableCPU) (hcc : p.availableCPU ≤ maxCapacity)
    (hm : 0 ≤ p.availableMemory) (hmc : p.availableMemory ≤ maxCapacity)
    (p1 : Pool) (ts1 : List Task) (h : forEach (phase1Task config g) ts p = .done (p1, ts1)) :
    (0 ≤ p1.availableCPU ∧ p1.availableCPU ≤ p.availableCPU) ∧
    (0 ≤ p1.availableMemory ∧ p1.availableMemory ≤ p.availableMemory) ∧
    (weighted config g.Name = true →
      (∀ t ∈ ts1, 0 ≤ t.CPU ∧ 0 ≤ t.MemoryMB) ∧
      (ts1.map (fun t => t.CPU)).sum ≤ p.availableCPU - p1.availableCPU ∧
      (ts1.map (fun t => t.MemoryMB)).sum ≤ p.availableMemory - p1.availableMemory) := by
  induction ts generalizing p ts1 with
  | nil =>
    simp only [forEach, Outcome.done.injEq, Prod.mk.injEq] at h
    obtain ⟨rfl, rfl⟩ := h
    simp [hc, hm]
  | cons t ts ih =>
    obtain ⟨q1, x1, q2, xs2, hb, hr, e⟩ := forEach_cons_done.mp h
    cases e
    obtain ⟨⟨c0, c1⟩, ⟨m0, m1⟩, hx⟩ :=
      scanWeights_done_bounds hlen hw (le_refl 0) (by decide) hc hcc hm hmc hb
    obtain ⟨⟨d0, d1⟩, ⟨n0, n1⟩, hy⟩ := ih q1 c0 (le_trans c1 hcc) m0 (le_trans m1 hmc) _ hr
    refine ⟨⟨d0, by omega⟩, ⟨n0, by omega⟩, fun hwt => ?_⟩
    obtain ⟨⟨x0, x1'⟩, ⟨y0, y1⟩⟩ := hx ((weighted_eq_true_iff _ _).mp hwt)
    obtain ⟨hall, hs1, hs2⟩ := hy hwt
    refine ⟨?_, ?_, ?_⟩
    · intro t2 ht2
      rcases List.mem_cons.mp ht2 with rfl | ht2
      · exact ⟨x0, y0⟩
      · exact hall t2 ht2
    · simp only [List.map_cons, List.sum_cons]
      omega
    · simp only [List.map_cons, List.sum_cons]
      omega

theorem phase1Tasks_congr (config : Config) (g : TaskGroup) (ts : List Task) (p : Pool)
    (p1 : Pool) (ts1 : List Task) (h : forEach (phase1Task config g) ts p = .done (p1, ts1))
    (us : List Task) (hu : List.Forall₂ (fun a b : Task => a.Name = b.Name) ts us) :
    ∃ us1, forEach (phase1Task config g) us p = .done (p1, us1) ∧
      List.Forall₂ (fun a b : Task => a.Name = b.Name ∧ (weighted config g.Name = true → a = b))
        ts1 us1 := by
  induction hu generalizing p ts1 with
  | nil =>
    simp only [forEach, Outcome.done.injEq, Prod.mk.injEq] at h
    obtain ⟨rfl, rfl⟩ := h
    exact ⟨[], rfl, List.Forall₂.nil⟩
  | @cons t u ts us htu _ ih =>
    obtain ⟨q1, x1, q2, xs2, hb, hr, e⟩ := forEach_cons_done.mp h
    cases e
    obtain ⟨u1, eb, hn, hx⟩ := scanWeights_congr hb u htu.symm
    obtain ⟨us1, er, hf⟩ := ih _ _ hr
    refine ⟨u1 :: us1, forEach_cons_done.mpr ⟨q1, u1, p1, us1, eb, er, rfl⟩, ?_⟩
    refine List.Forall₂.cons ⟨hn.symm, fun hwt => ?_⟩ hf
    exact (hx ((weighted_eq_true_iff _ _).mp hwt)).symm

/-! ### Phase 1 that runs to its end -/

theorem resolveCount_Count (g : TaskGroup) :
    (resolveCount g).Count = some (g.Count.getD 1) := by
  unfold resolveCount; cases h : g.Count <;> simp [h]

theorem wrap_tasksInGroup (g : TaskGroup) (a : Int) :
    wrap (a + tasksInGroup g) = wrap (a + (g.Tasks.length : Int) * g.Count.getD 1) := by
  unfold tasksInGroup
  cases h : g.Count with
  | none => simp
  | some c => simp only [intMul, Option.getD_some, wrap_add_wrap_right]

theorem foldl_absoluteTasks (groups : List TaskGroup) (acc : Int) (hacc : wrap acc = acc) :
    groups.foldl (fun absoluteTasks group => intAdd absoluteTasks (tasksInGroup group)) acc =
      wrap (acc + taskCount groups) := by
  induction groups generalizing acc with
  | nil => simp [taskCount, hacc]
  | cons g gs ih =>
    simp only [List.foldl_cons]
    rw [ih _ (by simp only [intAdd, wrap_wrap])]
    simp only [intAdd, wrap_add_wrap, taskCount, List.map_cons, List.sum_cons]
    have e : acc + tasksInGroup g +
        (gs.map (fun g => (g.Tasks.length : Int) * g.Count.getD 1)).sum =
        acc + (gs.map (fun g => (g.Tasks.length : Int) * g.Count.getD 1)).sum +
          tasksInGroup g := by ring
    rw [e, wrap_tasksInGroup]
    congr 1
    ring

/-- The count of lines 11-19 is the number of task instances reduced to an `int`. -/
theorem absoluteTasks_eq (job : Job) :
    absoluteTasks job = wrap (taskCount job.TaskGroups) := by
  unfold absoluteTasks
  rw [foldl_absoluteTasks _ 0 (by decide), zero_add]

theorem wrap_absoluteTasks (job : Job) : wrap (absoluteTasks job) = absoluteTasks job := by
  rw [absoluteTasks_eq, wrap_wrap]

theorem phase1Group_done_inv {config : Config} {p : Pool} {g : TaskGroup} {p1 : Pool}
    {g1 : TaskGroup} (h : phase1Group config p g = .done (p1, g1)) :
    ∃ ts1, forEach (phase1Task config (resolveCount g)) g.Tasks p = .done (p1, ts1) ∧
      g1 = { Name := g.Name, Count := (resolveCount g).Count, Tasks := ts1 } := by
  unfold phase1Group at h
  obtain ⟨⟨q, ts1⟩, h1, h2⟩ := Outcome.map_eq_done.mp h
  simp only [resolveCount_Tasks, resolveCount_Name, Prod.mk.injEq] at h1 h2
  obtain ⟨rfl, rfl⟩ := h2
  exact ⟨ts1, h1, rfl⟩

theorem phase1Group_done_intro {config : Config} {p : Pool} {g : TaskGroup} {p1 : Pool}
    {ts1 : List Task}
    (h : forEach (phase1Task config (resolveCount g)) g.Tasks p = .done (p1, ts1)) :
    phase1Group config p g =
      .done (p1, { Name := g.Name, Count := (resolveCount g).Count, Tasks := ts1 }) := by
  unfold phase1Group
  simp only [resolveCount_Tasks, resolveCount_Name]
  rw [h]
  rfl

theorem phase1_done_shape (config : Config) (groups : List TaskGroup) (p p1 : Pool)
    (groups1 : List TaskGroup) (h : phase1 config groups p = .done (p1, groups1)) :
    List.Forall₂ sameShape groups groups1 := by
  induction groups generalizing p groups1 with
  | nil =>
    simp only [phase1, forEach, Outcome.done.injEq, Prod.mk.injEq] at h
    rw [← h.2]
    exact List.Forall₂.nil
  | cons g gs ih =>
    obtain ⟨q1, g1, q2, gs2, hb, hr, e⟩ := forEach_cons_done.mp h
    cases e
    obtain ⟨ts1, ht, rfl⟩ := phase1Group_done_inv hb
    refine List.Forall₂.cons ⟨rfl, ?_, phase1Tasks_done_names _ _ _ _ _ _ ht⟩ (ih _ _ hr)
    simp [resolveCount_Count]

theorem phase1_done_weightless (config : Config) (groups : List TaskGroup) (p p1 : Pool)
    (hp : wrap p.weightlessTasks = p.weightlessTasks)
    (groups1 : List TaskGroup) (h : phase1 config groups p = .done (p1, groups1)) :
    p1.weightlessTasks = wrap (p.weightlessTasks - weightedHits config groups) := by
  induction groups generalizing p groups1 with
  | nil =>
    simp only [phase1, forEach, Outcome.done.injEq, Prod.mk.injEq] at h
    simp [← h.1, weightedHits, hp]
  | cons g gs ih =>
    obtain ⟨q1, g1, q2, gs2, hb, hr, e⟩ := forEach_cons_done.mp h
    cases e
    obtain ⟨ts1, ht, rfl⟩ := phase1Group_done_inv hb
    have h1 := phase1Tasks_done_weightless _ _ _ _ hp _ _ ht
    have h2 := ih _ (by rw [h1, wrap_wrap]) _ hr
    simp only [resolveCount_Name] at h1
    simp only [weightedHits, List.map_cons, List.sum_cons] at h2 ⊢
    rw [h2, h1, wrap_sub_wrap]
    congr 1
    ring

/-- The body of the group loop keeps a pool in `[0, maxCapacity]` non-negative and never
lets it grow; the tasks of a weighted group end with non-negative values that the pool has
paid for. -/
theorem phase1Group_done_bounds (config : Config)
    (hw : ∀ gc ∈ config.Groups, 0 ≤ gc.Weight ∧ gc.Weight ≤ 100)
    (p : Pool) (g : TaskGroup)
    (hc : 0 ≤ p.availableCPU) (hcc : p.availableCPU ≤ maxCapacity)
    (hm : 0 ≤ p.availableMemory) (hmc : p.availableMemory ≤ maxCapacity)
    (p1 : Pool) (ts1 : List Task)
    (ht : forEach (phase1Task config (resolveCount g)) g.Tasks p = .done (p1, ts1)) :
    (0 ≤ p1.availableCPU ∧ p1.availableCPU ≤ p.availableCPU) ∧
      (0 ≤ p1.availableMemory ∧ p1.availableMemory ≤ p.availableMemory) ∧
      (weighted config g.Name = true →
        (∀ t ∈ ts1, 0 ≤ t.CPU ∧ 0 ≤ t.MemoryMB) ∧
        (ts1.map (fun t => t.CPU)).sum ≤ p.availableCPU - p1.availableCPU ∧
        (ts1.map (fun t => t.MemoryMB)).sum ≤ p.availableMemory - p1.availableMemory) := by
  cases hts : g.Tasks with
  | nil =>
    rw [hts] at ht
    simp only [forEach, Outcome.done.injEq, Prod.mk.injEq] at ht
    obtain ⟨rfl, rfl⟩ := ht
    simp [hc, hm]
  | cons t ts =>
    have hlen : 0 < ((resolveCount g).Tasks.length : Int) := by
      rw [resolveCount_Tasks, hts, List.length_cons]
      push_cast
      omega
    simpa using phase1Tasks_done_bounds config (resolveCount g) hlen hw g.Tasks p hc hcc hm hmc
      p1 ts1 ht

theorem phase1_done_bounds (config : Config)
    (hw : ∀ gc ∈ config.Groups, 0 ≤ gc.Weight ∧ gc.Weight ≤ 100)
    (groups : List TaskGroup) (p : Pool)
    (hc : 0 ≤ p.availableCPU) (hcc : p.availableCPU ≤ maxCapacity)
    (hm : 0 ≤ p.availableMemory) (hmc : p.availableMemory ≤ maxCapacity)
    (p1 : Pool) (groups1 : List TaskGroup)
    (h : phase1 config groups p = .done (p1, groups1)) :
    0 ≤ p1.availableCPU ∧ 0 ≤ p1.availableMemory ∧
    weightedCPU config groups1 ≤ p.availableCPU - p1.availableCPU ∧
    weightedMemory config groups1 ≤ p.availableMemory - p1.availableMemory ∧
    ∀ g1 ∈ groups1, weighted config g1.Name = true →
      ∀ t ∈ g1.Tasks, 0 ≤ t.CPU ∧ 0 ≤ t.MemoryMB := by
  induction groups generalizing p groups1 with
  | nil =>
    simp only [phase1, forEach, Outcome.done.injEq, Prod.mk.injEq] at h
    obtain ⟨rfl, rfl⟩ := h
    simp [hc, hm, weightedCPU, weightedMemory]
  | cons g gs ih =>
    obtain ⟨q1, g1, q2, gs2, hb, hr, e⟩ := forEach_cons_done.mp h
    cases e
    obtain ⟨ts1, ht, rfl⟩ := phase1Group_done_inv hb
    obtain ⟨⟨c0, c1⟩, ⟨m0, m1⟩, hx⟩ :=
      phase1Group_done_bounds config hw p g hc hcc hm hmc q1 ts1 ht
    obtain ⟨d0, n0, hs1, hs2, hall⟩ :=
      ih q1 c0 (le_trans c1 hcc) m0 (le_trans m1 hmc) _ hr
    refine ⟨d0, n0, ?_, ?_, ?_⟩
    · simp only [weightedCPU, List.map_cons, List.sum_cons] at hs1 ⊢
      split
      · rename_i hwt
        have := (hx hwt).2.1
        omega
      · omega
    · simp only [weightedMemory, List.map_cons, List.sum_cons] at hs2 ⊢
      split
      · rename_i hwt
        have := (hx hwt).2.2
        omega
      · omega
    · intro g2 hg2 hwt
      rcases List.mem_cons.mp hg2 with rfl | hg2
      · exact (hx hwt).1
      · exact hall g2 hg2 hwt

theorem phase1_congr (config : Config) (groupsA groupsB : List TaskGroup)
    (hAB : List.Forall₂ sameShape groupsA groupsB) (p p1 : Pool) (groupsA1 : List TaskGroup)
    (h : phase1 config groupsA p = .done (p1, groupsA1)) :
    ∃ groupsB1, phase1 config groupsB p = .done (p1, groupsB1) ∧
      List.Forall₂ (agreeWeighted config) groupsA1 groupsB1 := by
  induction hAB generalizing p groupsA1 with
  | nil =>
    simp only [phase1, forEach, Outcome.done.injEq, Prod.mk.injEq] at h
    obtain ⟨rfl, rfl⟩ := h
    exact ⟨[], rfl, List.Forall₂.nil⟩
  | @cons gA gB gsA gsB hg _ ih =>
    obtain ⟨q1, g1, q2, gs2, hb, hr, e⟩ := forEach_cons_done.mp h
    cases e
    obtain ⟨ts1, ht, rfl⟩ := phase1Group_done_inv hb
    obtain ⟨hname, hcount, htasks⟩ := hg
    have hbody : phase1Task config (resolveCount gB) = phase1Task config (resolveCount gA) := by
      funext q t
      simp [phase1Task, hname, htasks.length_eq]
    obtain ⟨us1, eu, hf⟩ := phase1Tasks_congr config (resolveCount gA) gA.Tasks p q1 ts1 ht
      gB.Tasks htasks
    rw [← hbody] at eu
    obtain ⟨gsB1, er, hfr⟩ := ih _ _ hr
    refine ⟨_ :: gsB1, forEach_cons_done.mpr ⟨q1, _, p1, gsB1, phase1Group_done_intro eu, er, rfl⟩,
      List.Forall₂.cons ⟨hname, hcount, ?_⟩ hfr⟩
    simpa using hf

/-! ### Counting the weightless tasks -/

theorem hits_le_one (groups : List GroupConfig) (name : String)
    (hnd : (groups.map (fun gc => gc.Name)).Nodup) :
    ((groups.filter (fun gc => decide (gc.Name = name))).length : Int) ≤ 1 := by
  induction groups with
  | nil => simp
  | cons gc rest ih =>
    simp only [List.map_cons, List.nodup_cons] at hnd
    have h1 := ih hnd.2
    by_cases hn : gc.Name = name
    · have hno : rest.filter (fun gc2 => decide (gc2.Name = name)) = [] := by
        apply List.filter_eq_nil_iff.mpr
        intro gc2 h2
        simp only [decide_eq_true_eq]
        intro h3
        apply hnd.1
        rw [hn, ← h3]
        exact List.mem_map.mpr ⟨gc2, h2, rfl⟩
      simp [List.filter_cons, hn, hno]
    · simpa [List.filter_cons, hn] using h1

theorem hits_eq_zero (config : Config) (name : String) (hw : weighted config name = false) :
    ((config.Groups.filter (fun gc => decide (gc.Name = name))).length : Int) = 0 := by
  have hno := (weighted_eq_false_iff _ _).mp hw
  have : config.Groups.filter (fun gc => decide (gc.Name = name)) = [] := by
    apply List.filter_eq_nil_iff.mpr
    intro gc h
    simpa using hno gc h
  simp [this]

theorem unweightedTasks_nonneg (config : Config) (groups : List TaskGroup) :
    0 ≤ unweightedTasks config groups := by
  unfold unweightedTasks
  apply List.sum_nonneg
  intro x hx
  obtain ⟨g, -, rfl⟩ := List.mem_map.mp hx
  split
  · exact le_refl 0
  · exact Int.ofNat_nonneg _

theorem unweightedTasks_pos (config : Config) (groups : List TaskGroup) (g : TaskGroup)
    (hg : g ∈ groups) (hw : weighted config g.Name = false) (hne : g.Tasks ≠ []) :
    1 ≤ unweightedTasks config groups := by
  induction groups with
  | nil => simp at hg
  | cons g2 gs ih =>
    simp only [unweightedTasks, List.map_cons, List.sum_cons]
    have h0 := unweightedTasks_nonneg config gs
    unfold unweightedTasks at h0 ih
    rcases List.mem_cons.mp hg with rfl | hg
    · simp only [hw]
      have : 1 ≤ (g.Tasks.length : Int) := by
        cases ht : g.Tasks with
        | nil => exact absurd ht hne
        | cons t ts => simp only [List.length_cons]; push_cast; omega
      simp only [Bool.false_eq_true, if_false]
      omega
    · have := ih hg
      split
      · omega
      · have : 0 ≤ (g2.Tasks.length : Int) := Int.ofNat_nonneg _
        omega

theorem unweightedTasks_shape (config : Config) (groups groups1 : List TaskGroup)
    (h : List.Forall₂ sameShape groups groups1) :
    unweightedTasks config groups1 = unweightedTasks config groups := by
  induction h with
  | nil => rfl
  | @cons g g1 gs gs1 hg _ ih =>
    obtain ⟨hname, -, htasks⟩ := hg
    simp only [unweightedTasks, List.map_cons, List.sum_cons] at ih ⊢
    rw [ih, hname, htasks.length_eq]

theorem taskCount_shape (groups groups1 : List TaskGroup)
    (h : List.Forall₂ sameShape groups groups1) :
    taskCount groups1 = taskCount groups := by
  induction h with
  | nil => rfl
  | @cons g g1 gs gs1 hg _ ih =>
    obtain ⟨-, hcount, htasks⟩ := hg
    simp only [taskCount, List.map_cons, List.sum_cons] at ih ⊢
    rw [ih, htasks.length_eq]
    simp only [resolveCount_Count, Option.some.injEq] at hcount
    rw [hcount]

theorem absoluteTasks_shape (groups groups1 : List TaskGroup)
    (h : List.Forall₂ sameShape groups groups1) :
    absoluteTasks ⟨groups1⟩ = absoluteTasks ⟨groups⟩ := by
  rw [absoluteTasks_eq, absoluteTasks_eq, taskCount_shape groups groups1 h]

theorem weightedHits_nonneg (config : Config) (groups : List TaskGroup) :
    0 ≤ weightedHits config groups := by
  unfold weightedHits
  apply List.sum_nonneg
  intro x hx
  obtain ⟨g, -, rfl⟩ := List.mem_map.mp hx
  exact Int.mul_nonneg (Int.ofNat_nonneg _) (Int.ofNat_nonneg _)

/-- With pairwise distinct names in the weight table and counts that are absent or at least
1, the number of task instances minus the decrements of phase 1 is at least the number of
listed tasks of the groups without a weight. -/
theorem weightless_ge_unweighted (config : Config) (groups : List TaskGroup)
    (hnames : (config.Groups.map (fun gc => gc.Name)).Nodup)
    (hcount : ∀ g ∈ groups, 1 ≤ g.Count.getD 1) :
    unweightedTasks config groups ≤ taskCount groups - weightedHits config groups := by
  induction groups with
  | nil => simp [unweightedTasks, taskCount, weightedHits]
  | cons g gs ih =>
    have h1 := ih (fun g2 h2 => hcount g2 (List.mem_cons_of_mem _ h2))
    simp only [unweightedTasks, taskCount, weightedHits, List.map_cons, List.sum_cons]
      at h1 ⊢
    have hlen : 0 ≤ (g.Tasks.length : Int) := Int.ofNat_nonneg _
    have hc : 1 ≤ g.Count.getD 1 := hcount g (List.mem_cons_self _ _)
    have hmul : (g.Tasks.length : Int) ≤ (g.Tasks.length : Int) * g.Count.getD 1 := by
      nlinarith
    cases hwt : weighted config g.Name with
    | false =>
      rw [hits_eq_zero config g.Name hwt]
      simp only [Bool.false_eq_true, if_false]
      omega
    | true =>
      have hh := hits_le_one config.Groups g.Name hnames
      have hh0 : 0 ≤ ((config.Groups.filter (fun gc => decide (gc.Name = g.Name))).length : Int) :=
        Int.ofNat_nonneg _
      have : (g.Tasks.length : Int) *
          ((config.Groups.filter (fun gc => decide (gc.Name = g.Name))).length : Int) ≤
          (g.Tasks.length : Int) := by nlinarith
      simp only [if_true]
      omega

/-- With pairwise distinct names, counts that are absent or at least 1 and a number of
task instances that fits in an `int`, `weightlessTasks` after phase 1 is at least the
number of listed tasks of the groups without a weight. -/
theorem weightless_after_phase1 {E M : Int} {config : Config} {job : Job} {p1 : Pool}
    {groups1 : List TaskGroup}
    (hnames : (config.Groups.map (fun gc => gc.Name)).Nodup)
    (hcount : ∀ g ∈ job.TaskGroups, 1 ≤ g.Count.getD 1)
    (htasks : taskCount job.TaskGroups ≤ 9223372036854775807)
    (e1 : phase1 config job.TaskGroups ⟨E, M, absoluteTasks job⟩ = .done (p1, groups1)) :
    unweightedTasks config groups1 ≤ p1.weightlessTasks := by
  have hwl := phase1_done_weightless config _ _ _ (wrap_absoluteTasks job) _ e1
  have hshape := phase1_done_shape config _ _ _ _ e1
  have hu := weightless_ge_unweighted config job.TaskGroups hnames hcount
  rw [← unweightedTasks_shape config _ _ hshape] at hu
  have hu0 := unweightedTasks_nonneg config groups1
  have hh0 := weightedHits_nonneg config job.TaskGroups
  simp only at hwl
  rw [hwl, absoluteTasks_eq, wrap_sub_wrap, wrap_eq_self (by omega) (by omega)]
  exact hu

/-! ### The job after both phases -/

theorem sum_map_evenShare_CPU (p : Pool) (ts : List Task) :
    ((ts.map (evenShare p)).map (fun t => t.CPU)).sum =
      (ts.length : Int) * intDiv p.availableCPU p.weightlessTasks := by
  induction ts with
  | nil => simp
  | cons t ts ih =>
    simp only [List.map_cons, List.sum_cons, List.length_cons, ih]
    simp only [evenShare]
    push_cast
    ring

theorem sum_map_evenShare_Memory (p : Pool) (ts : List Task) :
    ((ts.map (evenShare p)).map (fun t => t.MemoryMB)).sum =
      (ts.length : Int) * intDiv p.availableMemory p.weightlessTasks := by
  induction ts with
  | nil => simp
  | cons t ts ih =>
    simp only [List.map_cons, List.sum_cons, List.length_cons, ih]
    simp only [evenShare]
    push_cast
    ring

theorem totalCPU_finish (config : Config) (p : Pool) (groups : List TaskGroup) :
    Job.totalCPU ⟨groups.map (finish config p)⟩ =
      weightedCPU config groups +
        unweightedTasks config groups * intDiv p.availableCPU p.weightlessTasks := by
  induction groups with
  | nil => simp [Job.totalCPU, Job.allTasks, weightedCPU, unweightedTasks]
  | cons g gs ih =>
    simp only [Job.totalCPU, Job.allTasks, weightedCPU, unweightedTasks, List.map_cons,
      List.flatMap_cons, List.map_append, List.sum_append, List.sum_cons] at ih ⊢
    rw [ih]
    cases hwt : weighted config g.Name with
    | false =>
      simp only [finish, hwt, Bool.false_eq_true, if_false, sum_map_evenShare_CPU]
      ring
    | true =>
      simp only [finish, hwt, if_true, resolveCount_Tasks]
      ring

theorem totalMemory_finish (config : Config) (p : Pool) (groups : List TaskGroup) :
    Job.totalMemory ⟨groups.map (finish config p)⟩ =
      weightedMemory config groups +
        unweightedTasks config groups * intDiv p.availableMemory p.weightlessTasks := by
  induction groups with
  | nil => simp [Job.totalMemory, Job.allTasks, weightedMemory, unweightedTasks]
  | cons g gs ih =>
    simp only [Job.totalMemory, Job.allTasks, weightedMemory, unweightedTasks, List.map_cons,
      List.flatMap_cons, List.map_append, List.sum_append, List.sum_cons] at ih ⊢
    rw [ih]
    cases hwt : weighted config g.Name with
    | false =>
      simp only [finish, hwt, Bool.false_eq_true, if_false, sum_map_evenShare_Memory]
      ring
    | true =>
      simp only [finish, hwt, if_true, resolveCount_Tasks]
      ring

/-- Each of non-negative weights that sum to at most 100 is at most 100. -/
theorem weights_le_100 {groups : List GroupConfig} (hw : ∀ gc ∈ groups, 0 ≤ gc.Weight)
    (hsum : (groups.map (fun gc => gc.Weight)).sum ≤ 100) :
    ∀ gc ∈ groups, 0 ≤ gc.Weight ∧ gc.Weight ≤ 100 := by
  intro gc hgc
  have h1 : gc.Weight ≤ (groups.map (fun gc => gc.Weight)).sum :=
    List.single_le_sum (weights_nonneg hw) _ (List.mem_map.mpr ⟨gc, hgc, rfl⟩)
  exact ⟨hw gc hgc, by omega⟩

/-- What a successful run knows about the pool between the phases, for capacities in
`[0, maxCapacity]`, a weight table with pairwise distinct names and weights in `[0, 100]`,
counts that are absent or at least 1 and a number of task instances that fits in an
`int`. -/
theorem Allocate_done_pool {E M : Int} {config : Config} {job job1 : Job}
    (hE : 0 ≤ E) (hEc : E ≤ maxCapacity) (hM : 0 ≤ M) (hMc : M ≤ maxCapacity)
    (hw : ∀ gc ∈ config.Groups, 0 ≤ gc.Weight ∧ gc.Weight ≤ 100)
    (hnames : (config.Groups.map (fun gc => gc.Name)).Nodup)
    (hcount : ∀ g ∈ job.TaskGroups, 1 ≤ g.Count.getD 1)
    (htasks : taskCount job.TaskGroups ≤ 9223372036854775807)
    (h : Allocate E M config job = .done job1) :
    ∃ p1 groups1, job1.TaskGroups = groups1.map (finish config p1) ∧
      (0 ≤ p1.availableCPU ∧ p1.availableCPU ≤ E) ∧
      (0 ≤ p1.availableMemory ∧ p1.availableMemory ≤ M) ∧
      weightedCPU config groups1 ≤ E - p1.availableCPU ∧
      weightedMemory config groups1 ≤ M - p1.availableMemory ∧
      unweightedTasks config groups1 ≤ p1.weightlessTasks ∧
      ∀ g1 ∈ groups1, weighted config g1.Name = true →
        ∀ t ∈ g1.Tasks, 0 ≤ t.CPU ∧ 0 ≤ t.MemoryMB := by
  obtain ⟨p1, groups1, e1, -, e3⟩ := Allocate_done h
  obtain ⟨c0, m0, hc, hm, hall⟩ :=
    phase1_done_bounds config hw job.TaskGroups _ hE hEc hM hMc _ _ e1
  have hu := weightless_after_phase1 hnames hcount htasks e1
  have hwc := phase1_done_bounds config hw job.TaskGroups _ hE hEc hM hMc _ _ e1
  simp only at hc hm
  have hwc0 : 0 ≤ weightedCPU config groups1 := by
    unfold weightedCPU
    apply List.sum_nonneg
    intro x hx
    obtain ⟨g, hg, rfl⟩ := List.mem_map.mp hx
    split
    · rename_i hwt
      apply List.sum_nonneg
      intro y hy
      obtain ⟨t, ht, rfl⟩ := List.mem_map.mp hy
      exact (hall g hg hwt t ht).1
    · exact le_refl 0
  have hwm0 : 0 ≤ weightedMemory config groups1 := by
    unfold weightedMemory
    apply List.sum_nonneg
    intro x hx
    obtain ⟨g, hg, rfl⟩ := List.mem_map.mp hx
    split
    · rename_i hwt
      apply List.sum_nonneg
      intro y hy
      obtain ⟨t, ht, rfl⟩ := List.mem_map.mp hy
      exact (hall g hg hwt t ht).2
    · exact le_refl 0
  exact ⟨p1, groups1, e3, ⟨c0, by omega⟩, ⟨m0, by omega⟩, hc, hm, hu, hall⟩

/-! ### Independence of the prior values -/

theorem forall₂_eq_iff_map_eq {α β : Type} (f : α → β) (l1 l2 : List α) :
    List.Forall₂ (fun a b => f a = f b) l1 l2 ↔ l1.map f = l2.map f := by
  rw [← List.forall₂_eq_eq_eq, List.forall₂_map_left_iff, List.forall₂_map_right_iff]

theorem sameShape_iff_skeleton (g1 g2 : TaskGroup) :
    sameShape g1 g2 ↔ skeleton g1 = skeleton g2 := by
  simp only [sameShape, skeleton, Prod.mk.injEq]
  rw [forall₂_eq_iff_map_eq (fun t : Task => t.Name)]

theorem forall₂_sameShape_iff (groups1 groups2 : List TaskGroup) :
    List.Forall₂ sameShape groups1 groups2 ↔ groups1.map skeleton = groups2.map skeleton := by
  rw [← forall₂_eq_iff_map_eq skeleton]
  constructor <;> intro h <;> refine h.imp (fun a b hab => ?_)
  · exact (sameShape_iff_skeleton a b).mp hab
  · exact (sameShape_iff_skeleton a b).mpr hab

theorem skeleton_finish (config : Config) (p : Pool) (g : TaskGroup) :
    skeleton (finish config p g) = skeleton g := by
  unfold finish
  split
  · simp [skeleton, resolveCount_Count]
  · simp [skeleton, resolveCount_Count, evenShare, Function.comp_def]

theorem skeleton_zeroed (job : Job) :
    job.zeroed.TaskGroups.map skeleton = job.TaskGroups.map skeleton := by
  simp only [Job.zeroed, List.map_map]
  apply List.map_congr_left
  intro g _
  simp [skeleton, resolveCount_Count, Function.comp_def]

theorem finish_agree (config : Config) (p : Pool) (g1 g2 : TaskGroup)
    (h : agreeWeighted config g1 g2) : finish config p g1 = finish config p g2 := by
  obtain ⟨hname, hcount, htasks⟩ := h
  obtain ⟨n1, c1, ts1⟩ := g1
  obtain ⟨n2, c2, ts2⟩ := g2
  simp only at hname hcount htasks
  subst hname hcount
  cases hwt : weighted config n1 with
  | true =>
    have hts : ts1 = ts2 := by
      rw [← List.forall₂_eq_eq_eq]
      exact htasks.imp (fun a b hab => hab.2 hwt)
    rw [hts]
  | false =>
    have hts : ts1.map (evenShare p) = ts2.map (evenShare p) := by
      rw [← forall₂_eq_iff_map_eq (evenShare p)]
      refine htasks.imp (fun a b hab => ?_)
      simp [evenShare, hab.1]
    simp only [finish, hwt, Bool.false_eq_true, if_false, resolveCount_Name, resolveCount_Count,
      hts]

theorem phase2_loop_congr (config : Config) (p : Pool) (groupsA groupsB : List TaskGroup)
    (hAB : List.Forall₂ (agreeWeighted config) groupsA groupsB) (r : Unit × List TaskGroup)
    (h : forEach (phase2Group config p) groupsA () = .done r) :
    forEach (phase2Group config p) groupsB () = .done r := by
  induction hAB generalizing r with
  | nil => exact h
  | @cons gA gB gsA gsB hg _ ih =>
    obtain ⟨u1, g1, u2, gs2, hb, hr, e⟩ := forEach_cons_done.mp h
    cases e
    refine forEach_cons_done.mpr ⟨(), g1, u2, gs2, ?_, ih _ hr, rfl⟩
    have hA : g1 = finish config p gA := by
      rcases phase2Group_cases config p gA with e | ⟨e, -⟩
      · rw [e] at hb
        cases hb
        rfl
      · rw [e] at hb
        cases hb
    rcases phase2Group_cases config p gB with e | ⟨-, hwB, hp, hneB⟩
    · rw [e, hA, finish_agree config p gA gB hg]
    · exfalso
      obtain ⟨hname, -, htasks⟩ := hg
      have hneA : gA.Tasks ≠ [] := by
        intro h0
        have hl := htasks.length_eq
        rw [h0] at hl
        exact hneB (List.length_eq_zero.mp hl.symm)
      rw [phase2Group_unweighted_zero config p gA (by rw [hname]; exact hwB) hp hneA] at hb
      cases hb

theorem Allocate_done_intro {E M : Int} {config : Config} {job : Job} {p1 : Pool}
    {groups1 : List TaskGroup} {r : Unit × List TaskGroup}
    (h1 : phase1 config job.TaskGroups ⟨E, M, absoluteTasks job⟩ = .done (p1, groups1))
    (h2 : forEach (phase2Group config p1) groups1 () = .done r) :
    Allocate E M config job = .done ⟨r.2⟩ := by
  unfold Allocate
  simp only [h1, phase2, h2, Outcome.map]

/-- Two jobs of the same shape end the same way when one of them succeeds. -/
theorem Allocate_congr (E M : Int) (config : Config) (jobA jobB job1 : Job)
    (hAB : jobA.TaskGroups.map skeleton = jobB.TaskGroups.map skeleton)
    (h : Allocate E M config jobA = .done job1) :
    Allocate E M config jobB = .done job1 := by
  have hshape := (forall₂_sameShape_iff _ _).mpr hAB
  unfold Allocate at h
  simp only at h
  split at h
  · rename_i p1 groupsA1 e1
    obtain ⟨r, h2, h3⟩ := Outcome.map_eq_done.mp h
    unfold phase2 at h2
    obtain ⟨r2, h4, h5⟩ := Outcome.map_eq_done.mp h2
    obtain ⟨groupsB1, eB, hagree⟩ := phase1_congr config _ _ hshape _ _ _ e1
    have hab : absoluteTasks jobB = absoluteTasks jobA := absoluteTasks_shape _ _ hshape
    rw [← hab] at eB
    have := Allocate_done_intro eB (phase2_loop_congr config p1 _ _ hagree r2 h4)
    rw [this, h5, h3]
  · cases h
  · cases h

theorem skeleton_output {E M : Int} {config : Config} {job job1 : Job}
    (h : Allocate E M config job = .done job1) :
    job.TaskGroups.map skeleton = job1.TaskGroups.map skeleton := by
  obtain ⟨p1, groups1, e1, -, e3⟩ := Allocate_done h
  have h1 := (forall₂_sameShape_iff _ _).mp (phase1_done_shape config _ _ _ _ e1)
  rw [h1, e3, List.map_map]
  apply List.map_congr_left
  intro g _
  simp [skeleton_finish]

/-! ### Shared consequences of a successful run -/

theorem finish_Name (config : Config) (p : Pool) (g : TaskGroup) :
    (finish config p g).Name = g.Name := by
  unfold finish
  split <;> simp

theorem finish_Count (config : Config) (p : Pool) (g : TaskGroup) :
    (finish config p g).Count = some (g.Count.getD 1) := by
  unfold finish
  split <;> simp [resolveCount_Count]

theorem finish_taskNames (config : Config) (p : Pool) (g : TaskGroup) :
    (finish config p g).Tasks.map (fun t => t.Name) = g.Tasks.map (fun t => t.Name) := by
  unfold finish
  split
  · simp
  · simp [evenShare, Function.comp_def]

/-- After a successful run every task of a group without a matching weight entry carries
the even share of the pool that phase 1 left. -/
theorem Allocate_done_unweighted {E M : Int} {config : Config} {job job1 : Job}
    (h : Allocate E M config job = .done job1) :
    ∃ p1 : Pool, ∀ g ∈ job1.TaskGroups, (∀ gc ∈ config.Groups, gc.Name ≠ g.Name) →
      ∀ t ∈ g.Tasks, t.CPU = intDiv p1.availableCPU p1.weightlessTasks ∧
        t.MemoryMB = intDiv p1.availableMemory p1.weightlessTasks := by
  obtain ⟨p1, groups1, -, -, e3⟩ := Allocate_done h
  refine ⟨p1, ?_⟩
  intro g hg hno t ht
  rw [e3] at hg
  obtain ⟨g1, -, rfl⟩ := List.mem_map.mp hg
  rw [finish_Name] at hno
  have hwt := (weighted_eq_false_iff config g1.Name).mpr hno
  simp only [finish, hwt, Bool.false_eq_true, if_false] at ht
  obtain ⟨t0, -, rfl⟩ := List.mem_map.mp ht
  exact ⟨rfl, rfl⟩

theorem phase1_done_frame (config : Config) (groups : List TaskGroup) (p p1 : Pool)
    (groups1 : List TaskGroup) (h : phase1 config groups p = .done (p1, groups1)) :
    groups1.map (fun g => (g.Name, g.Count, g.Tasks.map (fun t => t.Name))) =
      groups.map (fun g => (g.Name, some (g.Count.getD 1), g.Tasks.map (fun t => t.Name))) := by
  induction groups generalizing p groups1 with
  | nil =>
    simp only [phase1, forEach, Outcome.done.injEq, Prod.mk.injEq] at h
    rw [← h.2]
    rfl
  | cons g gs ih =>
    obtain ⟨q1, g1, q2, gs2, hb, hr, e⟩ := forEach_cons_done.mp h
    cases e
    obtain ⟨ts1, ht, rfl⟩ := phase1Group_done_inv hb
    have hn := (forall₂_eq_iff_map_eq (fun t : Task => t.Name) _ _).mp
      (phase1Tasks_done_names _ _ _ _ _ _ ht)
    simp only [List.map_cons, ih _ _ hr, resolveCount_Count, hn]

/-- The frame of a successful run: names, order and task lists stay, every count is
present afterwards and an absent count has become 1. -/
theorem Allocate_done_frame {E M : Int} {config : Config} {job job1 : Job}
    (h : Allocate E M config job = .done job1) :
    job1.TaskGroups.map (fun g => (g.Name, g.Count, g.Tasks.map (fun t => t.Name))) =
      job.TaskGroups.map
        (fun g => (g.Name, some (g.Count.getD 1), g.Tasks.map (fun t => t.Name))) := by
  obtain ⟨p1, groups1, e1, -, e3⟩ := Allocate_done h
  rw [← phase1_done_frame config _ _ _ _ e1, e3, List.map_map]
  apply List.map_congr_left
  intro g hg
  have hc : g.Count = some (g.Count.getD 1) := by
    have hf := phase1_done_frame config _ _ _ _ e1
    have hm : (g.Name, g.Count, g.Tasks.map (fun t => t.Name)) ∈
        groups1.map (fun g => (g.Name, g.Count, g.Tasks.map (fun t => t.Name))) :=
      List.mem_map.mpr ⟨g, hg, rfl⟩
    rw [hf] at hm
    obtain ⟨g0, -, e0⟩ := List.mem_map.mp hm
    simp only [Prod.mk.injEq] at e0
    rw [← e0.2.1]
    simp
  simp only [Function.comp_def, finish_Name, finish_Count, finish_taskNames]
  rw [← hc]

/-- When every prefix sum of the weights fits in an `int`, the check fails exactly when
some prefix sum exceeds 100. -/
theorem overBudget_iff_prefix (groups : List GroupConfig)
    (hfit : ∀ n, n < groups.length →
      -9223372036854775808 ≤ ((groups.take (n + 1)).map (fun gc => gc.Weight)).sum ∧
        ((groups.take (n + 1)).map (fun gc => gc.Weight)).sum ≤ 9223372036854775807) :
    overBudget groups 0 = true ↔
      ∃ n, ((groups.take n).map (fun gc => gc.Weight)).sum > 100 := by
  rw [overBudget_iff_wrap]
  constructor
  · rintro ⟨n, hn, h⟩
    rw [Int.zero_add, wrap_eq_self (hfit n hn).1 (hfit n hn).2] at h
    exact ⟨n + 1, h⟩
  · rintro ⟨n, h⟩
    cases n with
    | zero => simp at h
    | succ m =>
      by_cases hm : m < groups.length
      · refine ⟨m, hm, ?_⟩
        rw [Int.zero_add, wrap_eq_self (hfit m hm).1 (hfit m hm).2]
        exact h
      · have hlen : 0 < groups.length := by
          rcases Nat.eq_zero_or_pos groups.length with h0 | h0
          · rw [List.length_eq_zero.mp h0] at h
            simp at h
          · exact h0
        have e1 : groups.take (m + 1) = groups := List.take_of_length_le (by omega)
        have e2 : groups.take (groups.length - 1 + 1) = groups :=
          List.take_of_length_le (by omega)
        refine ⟨groups.length - 1, by omega, ?_⟩
        have hf := hfit (groups.length - 1) (by omega)
        rw [Int.zero_add, wrap_eq_self hf.1 hf.2, e2]
        rw [e1] at h
        exact h

/-- With pairwise distinct names in the weight table, counts that are absent or at least 1
and a number of task instances that fits in an `int`, no division is executed with a zero
divisor. -/
theorem Allocate_ne_divByZero {E M : Int} {config : Config} {job : Job}
    (hnames : (config.Groups.map (fun gc => gc.Name)).Nodup)
    (hcount : ∀ g ∈ job.TaskGroups, 1 ≤ g.Count.getD 1)
    (htasks : taskCount job.TaskGroups ≤ 9223372036854775807) (job1 : Job) :
    Allocate E M config job ≠ .divByZero job1 := by
  intro h
  obtain ⟨p1, groups1, e1, h0, g, hg, hwt, hne⟩ := Allocate_divByZero h
  have hu := weightless_after_phase1 hnames hcount htasks e1
  have hpos := unweightedTasks_pos config groups1 g hg hwt hne
  omega

/-- The values of a successful run from a well-formed input in range: every task is
non-negative and the totals stay within the capacities. -/
theorem Allocate_done_values {E M : Int} {config : Config} {job job1 : Job}
    (hE : 0 ≤ E) (hEc : E ≤ maxCapacity) (hM : 0 ≤ M) (hMc : M ≤ maxCapacity)
    (hw : ∀ gc ∈ config.Groups, 0 ≤ gc.Weight ∧ gc.Weight ≤ 100)
    (hnames : (config.Groups.map (fun gc => gc.Name)).Nodup)
    (hcount : ∀ g ∈ job.TaskGroups, 1 ≤ g.Count.getD 1)
    (htasks : taskCount job.TaskGroups ≤ 9223372036854775807)
    (h : Allocate E M config job = .done job1) :
    (∀ t ∈ job1.allTasks, 0 ≤ t.CPU ∧ 0 ≤ t.MemoryMB) ∧
      job1.totalCPU ≤ E ∧ job1.totalMemory ≤ M := by
  obtain ⟨p1, groups1, e, ⟨c0, c1⟩, ⟨m0, m1⟩, hc, hm, hu, hall⟩ :=
    Allocate_done_pool hE hEc hM hMc hw hnames hcount htasks h
  have hu0 := unweightedTasks_nonneg config groups1
  have hcap : maxCapacity ≤ 9223372036854775807 := by decide
  have h1 := evenShare_bounds p1.availableCPU p1.weightlessTasks _ c0 (by omega) hu0 hu
  have h2 := evenShare_bounds p1.availableMemory p1.weightlessTasks _ m0 (by omega) hu0 hu
  refine ⟨?_, ?_⟩
  · intro t ht
    simp only [Job.allTasks, e, List.mem_flatMap, List.mem_map] at ht
    obtain ⟨g, ⟨g1, hg1, rfl⟩, htg⟩ := ht
    cases hwt : weighted config g1.Name with
    | true =>
      simp only [finish, hwt, if_true, resolveCount_Tasks] at htg
      exact hall g1 hg1 hwt t htg
    | false =>
      simp only [finish, hwt, Bool.false_eq_true, if_false] at htg
      obtain ⟨t0, -, rfl⟩ := List.mem_map.mp htg
      exact ⟨h1.1, h2.1⟩
  · obtain ⟨groups⟩ := job1
    simp only at e
    subst e
    rw [totalCPU_finish, totalMemory_finish]
    constructor <;> omega

/-! ### Elements of a finished loop -/

/-- Every element of the result of a loop that ran to its end is what the body made of the
element at its place, from a loop state that satisfies every invariant of the body. -/
theorem forEach_done_mem {π α : Type} {body : π → α → Outcome (π × α)} (I : π → Prop)
    (hI : ∀ p x p1 x1, I p → body p x = .done (p1, x1) → I p1)
    (xs : List α) (p : π) (hp : I p) (p1 : π) (ys : List α)
    (h : forEach body xs p = .done (p1, ys)) :
    I p1 ∧ ∀ y ∈ ys, ∃ x ∈ xs, ∃ pa pb, I pa ∧ body pa x = .done (pb, y) := by
  induction xs generalizing p ys with
  | nil =>
    simp only [forEach, Outcome.done.injEq, Prod.mk.injEq] at h
    obtain ⟨rfl, rfl⟩ := h
    exact ⟨hp, by simp⟩
  | cons x xs ih =>
    obtain ⟨q1, x1, q2, xs2, hb, hr, e⟩ := forEach_cons_done.mp h
    cases e
    obtain ⟨h1, h2⟩ := ih q1 (hI p x q1 x1 hp hb) xs2 hr
    refine ⟨h1, ?_⟩
    intro y hy
    rcases List.mem_cons.mp hy with rfl | hy
    · exact ⟨x, List.mem_cons_self _ _, p, q1, hp, hb⟩
    · obtain ⟨x2, hx2, pa, pb, ha, hbody⟩ := h2 y hy
      exact ⟨x2, List.mem_cons_of_mem _ hx2, pa, pb, ha, hbody⟩

theorem forEach_done_length {π α : Type} {body : π → α → Outcome (π × α)}
    (xs : List α) (p : π) (p1 : π) (ys : List α)
    (h : forEach body xs p = .done (p1, ys)) : ys.length = xs.length := by
  induction xs generalizing p ys with
  | nil =>
    simp only [forEach, Outcome.done.injEq, Prod.mk.injEq] at h
    rw [← h.2]
  | cons x xs ih =>
    obtain ⟨q1, x1, q2, xs2, hb, hr, e⟩ := forEach_cons_done.mp h
    cases e
    simp [ih _ _ hr]

/-! ### The first pass of `main.go` -/

theorem main_scanWeights_unmatched {infra : Main.InfrastructureConfig} {name : String}
    {len : Int} {groups : List GroupConfig} (hno : ∀ gc ∈ groups, gc.Name ≠ name) {s : Int}
    {p : Pool} {t : Task} {p1 : Pool} {t1 : Task}
    (h : Main.scanWeights infra name len groups s p t = .done (p1, t1)) :
    p1 = p ∧ t1 = t := by
  induction groups generalizing s with
  | nil =>
    simp only [Main.scanWeights, Outcome.done.injEq, Prod.mk.injEq] at h
    exact ⟨h.1.symm, h.2.symm⟩
  | cons gc rest ih =>
    have hn : gc.Name ≠ name := hno gc (List.mem_cons_self _ _)
    rw [Main.scanWeights] at h
    simp only [hn, if_false] at h
    split at h
    · cases h
    · exact ih (fun gc2 h2 => hno gc2 (List.mem_cons_of_mem _ h2)) h

/-- With exactly one entry of the name, the task ends with the share of the configured
totals that belongs to that entry. -/
theorem main_scanWeights_single {infra : Main.InfrastructureConfig} {name : String}
    {len : Int} {groups : List GroupConfig} {gc : GroupConfig}
    (hone : groups.filter (fun e => decide (e.Name = name)) = [gc]) {s : Int}
    {p : Pool} {t : Task} {p1 : Pool} {t1 : Task}
    (h : Main.scanWeights infra name len groups s p t = .done (p1, t1)) :
    t1.CPU = intDiv (intDiv (intMul infra.CPU gc.Weight) 100) len ∧
      t1.MemoryMB = intDiv (intDiv (intMul infra.Memory gc.Weight) 100) len := by
  induction groups generalizing s p t with
  | nil => simp at hone
  | cons e rest ih =>
    rw [Main.scanWeights] at h
    simp only at h
    split at h
    · cases h
    · by_cases hn : e.Name = name
      · simp only [hn, if_true] at h
        split at h
        · cases h
        · simp only [List.filter_cons, hn, decide_True, if_true, List.cons.injEq] at hone
          obtain ⟨rfl, hrest⟩ := hone
          have hno : ∀ gc2 ∈ rest, gc2.Name ≠ name := by
            intro gc2 h2 h3
            have := List.filter_eq_nil_iff.mp hrest gc2 h2
            simp [h3] at this
          obtain ⟨-, rfl⟩ := main_scanWeights_unmatched hno h
          exact ⟨rfl, rfl⟩
      · simp only [hn, if_false] at h
        simp only [List.filter_cons, hn, decide_False] at hone
        exact ih hone h

theorem main_run_done {config : Main.Config} {job job1 : Job}
    (h : Main.run config job = .done job1) :
    ∃ p0 p1 groups1, Main.phase1 config job.TaskGroups p0 = .done (p1, groups1) ∧
      job1.TaskGroups = groups1.map (finish { Groups := config.Groups } p1) := by
  unfold Main.run at h
  simp only at h
  split at h
  · rename_i p groups e
    obtain ⟨r, h1, h2⟩ := Outcome.map_eq_done.mp h
    subst h2
    exact ⟨_, p, groups, e, phase2_done _ p groups r h1⟩
  · cases h
  · cases h

/-- After a successful run of the action, every task of a group whose name exactly one
weight entry carries has the share of the configured totals of that entry. -/
theorem main_run_single (config : Main.Config) {job job1 : Job}
    (h : Main.run config job = .done job1) (gc : GroupConfig) :
    ∀ g ∈ job1.TaskGroups,
      config.Groups.filter (fun e => decide (e.Name = g.Name)) = [gc] →
      ∀ t ∈ g.Tasks,
        t.CPU = intDiv (intDiv (intMul config.Infrastructure.CPU gc.Weight) 100)
          (g.Tasks.length : Int) ∧
        t.MemoryMB = intDiv (intDiv (intMul config.Infrastructure.Memory gc.Weight) 100)
          (g.Tasks.length : Int) := by
  obtain ⟨p0, p1, groups1, e1, e2⟩ := main_run_done h
  intro g hg hone t ht
  rw [e2] at hg
  obtain ⟨g1, hg1, rfl⟩ := List.mem_map.mp hg
  rw [finish_Name] at hone
  have hwt : weighted { Groups := config.Groups } g1.Name = true := by
    rw [weighted_eq_true_iff]
    have hm : gc ∈ config.Groups.filter (fun e => decide (e.Name = g1.Name)) := by
      rw [hone]
      exact List.mem_singleton_self _
    obtain ⟨hmem, hname⟩ := List.mem_filter.mp hm
    exact ⟨gc, hmem, by simpa using hname⟩
  simp only [finish, hwt, if_true, resolveCount_Tasks] at ht ⊢
  obtain ⟨-, hmem⟩ := forEach_done_mem (fun _ => True) (fun _ _ _ _ _ _ => trivial)
    job.TaskGroups p0 trivial p1 groups1 e1
  obtain ⟨g0, -, pa, pb, -, hbody⟩ := hmem g1 hg1
  unfold Main.phase1Group at hbody
  obtain ⟨⟨q, ts1⟩, hloop, hmk⟩ := Outcome.map_eq_done.mp hbody
  simp only [resolveCount_Tasks, resolveCount_Name, Prod.mk.injEq] at hloop hmk
  obtain ⟨-, rfl⟩ := hmk
  simp only at ht hone ⊢
  have hlen := forEach_done_length _ _ _ _ hloop
  obtain ⟨-, htm⟩ := forEach_done_mem (fun _ => True) (fun _ _ _ _ _ _ => trivial)
    g0.Tasks pa trivial q ts1 hloop
  obtain ⟨t0, -, qa, qb, -, hscan⟩ := htm t ht
  unfold Main.phase1Task at hscan
  simp only [resolveCount_Tasks, resolveCount_Name] at hscan
  rw [hlen]
  exact main_scanWeights_single hone hscan

theorem main_defaultSafetyMargin_fields (config : Main.Config) :
    (Main.defaultSafetyMargin config).Infrastructure.SafetyMargin =
        (if config.Infrastructure.SafetyMargin = 0 then 3
          else config.Infrastructure.SafetyMargin) ∧
      (Main.defaultSafetyMargin config).Infrastructure.CPU = config.Infrastructure.CPU ∧
      (Main.defaultSafetyMargin config).Infrastructure.Memory = config.Infrastructure.Memory ∧
      (Main.defaultSafetyMargin config).Groups = config.Groups := by
  unfold Main.defaultSafetyMargin
  split <;> simp_all

/-! ### A group with exactly one weight entry -/

theorem scanWeights_single {name : String} {len : Int} {groups : List GroupConfig}
    {gc : GroupConfig} (hone : groups.filter (fun e => decide (e.Name = name)) = [gc])
    {s : Int} {p : Pool} {t : Task} {p1 : Pool} {t1 : Task}
    (h : scanWeights name len groups s p t = .done (p1, t1)) :
    (t1.CPU = goShare gc.Weight len p.availableCPU ∧
      p1.availableCPU = intSub p.availableCPU t1.CPU) ∧
    (t1.MemoryMB = goShare gc.Weight len p.availableMemory ∧
      p1.availableMemory = intSub p.availableMemory t1.MemoryMB) := by
  induction groups generalizing s with
  | nil => simp at hone
  | cons e rest ih =>
    rw [scanWeights] at h
    simp only at h
    split at h
    · cases h
    · by_cases hn : e.Name = name
      · simp only [hn, if_true] at h
        split at h
        · cases h
        · simp only [List.filter_cons, hn, decide_True, if_true, List.cons.injEq] at hone
          obtain ⟨rfl, hrest⟩ := hone
          have hno : ∀ gc2 ∈ rest, gc2.Name ≠ name := by
            intro gc2 h2 h3
            have := List.filter_eq_nil_iff.mp hrest gc2 h2
            simp [h3] at this
          obtain ⟨rfl, rfl⟩ := scanWeights_unweighted hno h
          exact ⟨⟨rfl, rfl⟩, ⟨rfl, rfl⟩⟩
      · simp only [hn, if_false] at h
        simp only [List.filter_cons, hn, decide_False] at hone
        exact ih hone h

/-- The task loop of a group with exactly one weight entry assigns the running shares, and
the pool it leaves is the pool it found with the assigned values subtracted one after the
other. -/
theorem phase1Tasks_single (config : Config) (g : TaskGroup) (gc : GroupConfig)
    (hone : config.Groups.filter (fun e => decide (e.Name = g.Name)) = [gc])
    (ts : List Task) (p p1 : Pool) (ts1 : List Task)
    (h : forEach (phase1Task config g) ts p = .done (p1, ts1)) :
    (ts1.map (fun t => t.CPU) =
        runningShares (goShare gc.Weight (g.Tasks.length : Int)) intSub p.availableCPU
          ts.length ∧
      p1.availableCPU = (ts1.map (fun t => t.CPU)).foldl intSub p.availableCPU) ∧
    (ts1.map (fun t => t.MemoryMB) =
        runningShares (goShare gc.Weight (g.Tasks.length : Int)) intSub p.availableMemory
          ts.length ∧
      p1.availableMemory = (ts1.map (fun t => t.MemoryMB)).foldl intSub p.availableMemory) := by
  induction ts generalizing p ts1 with
  | nil =>
    simp only [forEach, Outcome.done.injEq, Prod.mk.injEq] at h
    obtain ⟨rfl, rfl⟩ := h
    simp [runningShares]
  | cons t ts ih =>
    obtain ⟨q1, x1, q2, xs2, hb, hr, e⟩ := forEach_cons_done.mp h
    cases e
    obtain ⟨⟨c1, c2⟩, ⟨m1, m2⟩⟩ := scanWeights_single hone hb
    obtain ⟨⟨d1, d2⟩, ⟨n1, n2⟩⟩ := ih q1 xs2 hr
    simp only [List.map_cons, List.foldl_cons, List.length_cons, runningShares]
    rw [c2, c1] at d1
    rw [m2, m1] at n1
    refine ⟨⟨?_, ?_⟩, ⟨?_, ?_⟩⟩
    · rw [d1, c1]
    · rw [d2, c2]
    · rw [n1, m1]
    · rw [n2, m2]

/-- From a pool `P` in `[0, B]` with `B` at most `maxCapacity` and for a weight in
`[0, 100]` nothing wraps: the running shares of the code are the running floors, every share
is in `[0, floor(floor(B * w / 100) / len)]`, a later share is never larger than an earlier
one, and subtracting the shares one after the other leaves the pool minus their sum, which
is not negative. -/
theorem runningShares_floor (w len : Int) (hw : 0 ≤ w) (hw1 : w ≤ 100) (hlen : 0 < len)
    (B P : Int) (hP : 0 ≤ P) (hPB : P ≤ B) (hB : B ≤ maxCapacity) (n : Nat) :
    runningShares (goShare w len) intSub P n =
        runningShares (floorShare w len) (fun a b => a - b) P n ∧
      (∀ x ∈ runningShares (goShare w len) intSub P n, 0 ≤ x ∧ x ≤ floorShare w len B) ∧
      (runningShares (goShare w len) intSub P n).Pairwise (fun a b => b ≤ a) ∧
      (runningShares (goShare w len) intSub P n).foldl intSub P =
        P - (runningShares (goShare w len) intSub P n).sum ∧
      0 ≤ P - (runningShares (goShare w len) intSub P n).sum := by
  induction n generalizing B P with
  | zero => simp [runningShares, hP]
  | succ n ih =>
    obtain ⟨he, hb0, hb1⟩ := goShare_bounds P w len hP (le_trans hPB hB) hw hw1 hlen
    have hcap : maxCapacity ≤ 9223372036854775807 := by decide
    have hsub : intSub P (goShare w len P) = P - goShare w len P :=
      intSub_eq (by omega) (by omega)
    have hmono : floorShare w len P ≤ floorShare w len B := by
      unfold floorShare
      apply Int.ediv_le_ediv hlen
      apply Int.ediv_le_ediv (by decide)
      exact Int.mul_le_mul_of_nonneg_right hPB hw
    simp only [runningShares, List.mem_cons, List.pairwise_cons, List.foldl_cons, List.sum_cons]
    rw [hsub]
    obtain ⟨h1, h2, h3, h4, h5⟩ := ih P (P - goShare w len P) (by omega) (by omega)
      (le_trans hPB hB)
    obtain ⟨-, h6, -⟩ := ih B (P - goShare w len P) (by omega) (by omega) hB
    refine ⟨?_, ?_, ⟨?_, h3⟩, ?_, ?_⟩
    · rw [h1, he]
    · rintro x (rfl | hx)
      · exact ⟨hb0, by rw [he]; exact hmono⟩
      · exact h6 x hx
    · intro x hx
      rw [he]
      exact (h2 x hx).2
    · rw [h4]
      omega
    · omega

theorem sum_le_length_mul (l : List Int) (c : Int) (h : ∀ x ∈ l, x ≤ c) :
    l.sum ≤ (l.length : Int) * c := by
  induction l with
  | nil => simp
  | cons x xs ih =>
    have h1 := h x (List.mem_cons_self _ _)
    have h2 := ih (fun y hy => h y (List.mem_cons_of_mem _ hy))
    simp only [List.sum_cons, List.length_cons]
    push_cast
    linarith

theorem runningShares_length (share : Int → Int) (minus : Int → Int → Int) (P : Int)
    (n : Nat) : (runningShares share minus P n).length = n := by
  induction n generalizing P with
  | zero => rfl
  | succ n ih => simp [runningShares, ih]

/-- The running shares of a weight of `w` percent, from a pool in `[0, B]`, sum to at most
`floor(B * w / 100)`. -/
theorem runningShares_sum_le (w len : Int) (hw : 0 ≤ w) (hw1 : w ≤ 100) (B P : Int)
    (hP : 0 ≤ P) (hPB : P ≤ B) (hB : B ≤ maxCapacity) (n : Nat) (hn : (n : Int) = len) :
    (runningShares (goShare w len) intSub P n).sum ≤ B * w / 100 := by
  cases n with
  | zero =>
    simp only [runningShares, List.sum_nil]
    exact Int.ediv_nonneg (Int.mul_nonneg (le_trans hP hPB) hw) (by decide)
  | succ m =>
    have hlen : 0 < len := by
      rw [← hn]
      push_cast
      omega
    obtain ⟨-, hb, -⟩ := runningShares_floor w len hw hw1 hlen B P hP hPB hB (m + 1)
    have hs := sum_le_length_mul _ _ (fun x hx => (hb x hx).2)
    rw [runningShares_length, hn] at hs
    exact le_trans hs (Int.mul_ediv_self_le (ne_of_gt hlen))

/-- Every group that a phase 1 which ran to its end leaves is what the task loop made of a
group of the job, from a pool within the capacities. -/
theorem phase1_done_group {E M : Int} {config : Config} {groups groups1 : List TaskGroup}
    {wl : Int} {p1 : Pool}
    (hE : 0 ≤ E) (hEc : E ≤ maxCapacity) (hM : 0 ≤ M) (hMc : M ≤ maxCapacity)
    (hw : ∀ e ∈ config.Groups, 0 ≤ e.Weight ∧ e.Weight ≤ 100)
    (e1 : phase1 config groups ⟨E, M, wl⟩ = .done (p1, groups1)) :
    ∀ g1 ∈ groups1, ∃ g0 ∈ groups, ∃ pa pb ts1,
      ((0 ≤ pa.availableCPU ∧ pa.availableCPU ≤ E) ∧
        (0 ≤ pa.availableMemory ∧ pa.availableMemory ≤ M)) ∧
      forEach (phase1Task config (resolveCount g0)) g0.Tasks pa = .done (pb, ts1) ∧
      g1 = { Name := g0.Name, Count := (resolveCount g0).Count, Tasks := ts1 } := by
  intro g1 hg1
  unfold phase1 at e1
  obtain ⟨-, hmem⟩ := forEach_done_mem
    (fun p : Pool => (0 ≤ p.availableCPU ∧ p.availableCPU ≤ E) ∧
      (0 ≤ p.availableMemory ∧ p.availableMemory ≤ M))
    (by
      intro p x q x1 hp hb
      obtain ⟨ts1, ht, -⟩ := phase1Group_done_inv hb
      obtain ⟨h1, h2, -⟩ := phase1Group_done_bounds config hw p x hp.1.1
        (le_trans hp.1.2 hEc) hp.2.1 (le_trans hp.2.2 hMc) q ts1 ht
      exact ⟨⟨h1.1, le_trans h1.2 hp.1.2⟩, ⟨h2.1, le_trans h2.2 hp.2.2⟩⟩)
    groups _ ⟨⟨hE, le_refl E⟩, ⟨hM, le_refl M⟩⟩ p1 groups1 e1
  obtain ⟨g0, hg0, pa, pb, hI, hbody⟩ := hmem g1 hg1
  obtain ⟨ts1, hloop, rfl⟩ := phase1Group_done_inv hbody
  exact ⟨g0, hg0, pa, pb, ts1, hI, hloop, rfl⟩

theorem weighted_of_filter {config : Config} {name : String} {gc : GroupConfig}
    (hone : config.Groups.filter (fun e => decide (e.Name = name)) = [gc]) :
    gc ∈ config.Groups ∧ gc.Name = name ∧ weighted config name = true := by
  have hm : gc ∈ config.Groups.filter (fun e => decide (e.Name = name)) := by
    rw [hone]
    exact List.mem_singleton_self _
  obtain ⟨hmem, hname⟩ := List.mem_filter.mp hm
  have hn : gc.Name = name := by simpa using hname
  exact ⟨hmem, hn, (weighted_eq_true_iff _ _).mpr ⟨gc, hmem, hn⟩⟩

/-- After a phase 1 that ran to its end from capacities in `[0, maxCapacity]` and weights
in `[0, 100]`, the values of a group whose name exactly one entry of `w` percent carries sum
to at most `floor(E * w / 100)` and `floor(M * w / 100)`. -/
theorem phase1_done_budget {E M : Int} {config : Config} {groups groups1 : List TaskGroup}
    {wl : Int} {p1 : Pool} {gc : GroupConfig}
    (hE : 0 ≤ E) (hEc : E ≤ maxCapacity) (hM : 0 ≤ M) (hMc : M ≤ maxCapacity)
    (hw : ∀ e ∈ config.Groups, 0 ≤ e.Weight ∧ e.Weight ≤ 100)
    (e1 : phase1 config groups ⟨E, M, wl⟩ = .done (p1, groups1)) :
    ∀ g1 ∈ groups1, config.Groups.filter (fun e => decide (e.Name = g1.Name)) = [gc] →
      (g1.Tasks.map (fun t => t.CPU)).sum ≤ E * gc.Weight / 100 ∧
        (g1.Tasks.map (fun t => t.MemoryMB)).sum ≤ M * gc.Weight / 100 := by
  intro g1 hg1 hone
  obtain ⟨g0, -, pa, pb, ts1, ⟨⟨c0, c1⟩, ⟨m0, m1⟩⟩, hloop, rfl⟩ :=
    phase1_done_group hE hEc hM hMc hw e1 g1 hg1
  simp only at hone ⊢
  obtain ⟨hmem, -, -⟩ := weighted_of_filter hone
  obtain ⟨hw0, hw1⟩ := hw gc hmem
  have hone2 : config.Groups.filter (fun e => decide (e.Name = (resolveCount g0).Name)) = [gc] := by
    simpa using hone
  obtain ⟨⟨hc, -⟩, ⟨hm, -⟩⟩ := phase1Tasks_single config (resolveCount g0) gc hone2 _ _ _ _ hloop
  rw [hc, hm]
  simp only [resolveCount_Tasks]
  exact ⟨runningShares_sum_le _ _ hw0 hw1 E _ c0 c1 hEc _ rfl,
    runningShares_sum_le _ _ hw0 hw1 M _ m0 m1 hMc _ rfl⟩

/-! ### The run at a given group and task -/

theorem forEach_append_done {π α : Type} {body : π → α → Outcome (π × α)}
    (xs zs : List α) (p pf : π) (out : List α)
    (h : forEach body (xs ++ zs) p = .done (pf, out)) :
    ∃ pa o1 o2, forEach body xs p = .done (pa, o1) ∧ forEach body zs pa = .done (pf, o2) ∧
      out = o1 ++ o2 ∧ o1.length = xs.length := by
  induction xs generalizing p out with
  | nil => exact ⟨p, [], out, rfl, h, rfl, rfl⟩
  | cons x xs ih =>
    rw [List.cons_append] at h
    obtain ⟨q1, x1, q2, xs2, hb, hr, e⟩ := forEach_cons_done.mp h
    cases e
    obtain ⟨pa, o1, o2, h1, h2, rfl, hl⟩ := ih q1 xs2 hr
    exact ⟨pa, x1 :: o1, o2, forEach_cons_done.mpr ⟨q1, x1, pa, o1, hb, h1, rfl⟩, h2, rfl,
      by simp [hl]⟩

/-- The element that a finished loop leaves at the place of `x` in `xs ++ x :: zs`. -/
theorem forEach_done_at {π α : Type} {body : π → α → Outcome (π × α)}
    (xs : List α) (x : α) (zs : List α) (p pf : π) (out : List α)
    (h : forEach body (xs ++ x :: zs) p = .done (pf, out)) :
    ∃ pa o1 pb x1, forEach body xs p = .done (pa, o1) ∧ body pa x = .done (pb, x1) ∧
      out[xs.length]? = some x1 := by
  obtain ⟨pa, o1, o2, h1, h2, rfl, hl⟩ := forEach_append_done xs (x :: zs) p pf out h
  obtain ⟨pb, x1, q2, xs2, hb, -, e⟩ := forEach_cons_done.mp h2
  cases e
  refine ⟨pa, o1, pb, x1, h1, hb, ?_⟩
  rw [← hl, List.getElem?_append_right (le_refl _)]
  simp

/-- The group that a successful run leaves at the place of a group with a weight entry:
the tasks are those that the task loop of phase 1 produced from the pool that the groups
before it left. -/
theorem Allocate_done_at {E M : Int} {config : Config} {job job1 : Job}
    (h : Allocate E M config job = .done job1) (pre : List TaskGroup) (g : TaskGroup)
    (post : List TaskGroup) (hjob : job.TaskGroups = pre ++ g :: post)
    (hwt : weighted config g.Name = true) :
    ∃ pa pb r1 g1 g2 ts1,
      phase1 config pre ⟨E, M, absoluteTasks job⟩ = .done (pa, r1) ∧
      phase1Group config pa g = .done (pb, g2) ∧
      forEach (phase1Task config (resolveCount g)) g.Tasks pa = .done (pb, ts1) ∧
      job1.TaskGroups[pre.length]? = some g1 ∧ g1.Tasks = ts1 := by
  obtain ⟨p1, groups1, e1, -, e3⟩ := Allocate_done h
  unfold phase1 at e1
  rw [hjob] at e1
  obtain ⟨pa, o1, pb, g2, h1, hb, hat⟩ := forEach_done_at pre g post _ p1 groups1 e1
  obtain ⟨ts1, hloop, rfl⟩ := phase1Group_done_inv hb
  refine ⟨pa, pb, o1,
    finish config p1 { Name := g.Name, Count := (resolveCount g).Count, Tasks := ts1 },
    _, ts1, h1, hb, hloop, ?_, ?_⟩
  · rw [e3, List.getElem?_map, hat]
    rfl
  · simp [finish, hwt]

theorem scanWeights_last {name : String} {len : Int} (cpre : List GroupConfig)
    (gc : GroupConfig) (cpost : List GroupConfig) (hname : gc.Name = name)
    (hlast : ∀ e ∈ cpost, e.Name ≠ name) {s : Int} {p : Pool} {t : Task} {p1 : Pool}
    {t1 : Task} (h : scanWeights name len (cpre ++ gc :: cpost) s p t = .done (p1, t1)) :
    ∃ q t2, scanWeights name len cpre s p t = .done (q, t2) ∧
      t1.CPU = intDiv (intDiv (intMul q.availableCPU gc.Weight) 100) len ∧
      t1.MemoryMB = intDiv (intDiv (intMul q.availableMemory gc.Weight) 100) len := by
  induction cpre generalizing s p t with
  | nil =>
    refine ⟨p, t, rfl, ?_⟩
    rw [List.nil_append, scanWeights] at h
    simp only [hname, if_true] at h
    split at h
    · cases h
    · split at h
      · cases h
      · obtain ⟨-, rfl⟩ := scanWeights_unweighted hlast h
        exact ⟨rfl, rfl⟩
  | cons e rest ih =>
    rw [List.cons_append, scanWeights] at h
    rw [scanWeights]
    simp only at h ⊢
    split at h
    · cases h
    · rename_i hle
      simp only [hle, if_false]
      split at h
      · rename_i hn
        simp only [hn, if_true]
        split at h
        · cases h
        · rename_i hl
          simp only [hl, if_false]
          exact ih h
      · rename_i hn
        simp only [hn, if_false]
        exact ih h

/-! ### The job that a run leaves -/

/-- A phase 1 over groups that list no task runs to its end. -/
theorem phase1_no_tasks (config : Config) (groups : List TaskGroup) (p : Pool)
    (hno : ∀ g ∈ groups, g.Tasks = []) :
    phase1 config groups p = .done (p, groups.map resolveCount) := by
  induction groups with
  | nil => rfl
  | cons g gs ih =>
    refine forEach_cons_done.mpr ⟨p, resolveCount g, p, gs.map resolveCount,
      phase1Group_empty config p g (hno g (List.mem_cons_self _ _)),
      ih (fun g2 h2 => hno g2 (List.mem_cons_of_mem _ h2)), rfl⟩

/-- A run over a job in which no group lists a task returns without error. -/
theorem Allocate_no_tasks (E M : Int) (config : Config) (job : Job)
    (hno : ∀ g ∈ job.TaskGroups, g.Tasks = []) :
    ∃ job1, Allocate E M config job = .done job1 := by
  have h1 := phase1_no_tasks config job.TaskGroups ⟨E, M, absoluteTasks job⟩ hno
  have h2 := phase2_eq_done config ⟨E, M, absoluteTasks job⟩ (job.TaskGroups.map resolveCount)
    (Or.inr (by
      intro g hg _
      obtain ⟨g0, hg0, rfl⟩ := List.mem_map.mp hg
      rw [resolveCount_Tasks]
      exact hno g0 hg0))
  unfold phase2 at h2
  obtain ⟨r, h3, -⟩ := Outcome.map_eq_done.mp h2
  exact ⟨_, Allocate_done_intro h1 h3⟩

/-- Every element of the state that a loop leaves when it stops at a division by zero is
an element that the loop has not reached, or what the body made of an element. -/
theorem forEach_divByZero_mem {π α : Type} {body : π → α → Outcome (π × α)}
    (xs : List α) (p : π) (r : π × List α) (h : forEach body xs p = .divByZero r) :
    ∀ y ∈ r.2, y ∈ xs ∨ ∃ x ∈ xs, ∃ pa q,
      body pa x = .done (q, y) ∨ body pa x = .divByZero (q, y) := by
  induction xs generalizing p r with
  | nil => simp [forEach] at h
  | cons x xs ih =>
    intro y hy
    rcases forEach_cons_divByZero.mp h with ⟨p1, x1, h1, rfl⟩ | ⟨p1, x1, p2, xs2, h1, h2, rfl⟩
    · rcases List.mem_cons.mp hy with rfl | hy
      · exact Or.inr ⟨x, List.mem_cons_self _ _, p, p1, Or.inr h1⟩
      · exact Or.inl (List.mem_cons_of_mem _ hy)
    · rcases List.mem_cons.mp hy with rfl | hy
      · exact Or.inr ⟨x, List.mem_cons_self _ _, p, p1, Or.inl h1⟩
      · rcases ih p1 _ h2 y hy with hm | ⟨x2, hx2, pa, q, hb⟩
        · exact Or.inl (List.mem_cons_of_mem _ hm)
        · exact Or.inr ⟨x2, List.mem_cons_of_mem _ hx2, pa, q, hb⟩

/-- Whatever the end of phase 2, a group with a matching weight entry has the tasks that
phase 1 left. -/
theorem phase2_state_weighted (config : Config) (p : Pool) (groups : List TaskGroup)
    (g : TaskGroup) (hg : g ∈ (phase2 config p groups).state)
    (hwt : weighted config g.Name = true) :
    ∃ g1 ∈ groups, g1.Name = g.Name ∧ g1.Tasks = g.Tasks := by
  cases h : phase2 config p groups with
  | weightError r => exact absurd h (phase2_ne_weightError config p groups r)
  | done r =>
    rw [h] at hg
    simp only [Outcome.state] at hg
    rw [phase2_done config p groups r h] at hg
    obtain ⟨g1, hg1, rfl⟩ := List.mem_map.mp hg
    rw [finish_Name] at hwt
    exact ⟨g1, hg1, (finish_Name config p g1).symm, by simp [finish, hwt]⟩
  | divByZero r =>
    rw [h] at hg
    simp only [Outcome.state] at hg
    unfold phase2 at h
    obtain ⟨r1, h1, rfl⟩ := Outcome.map_eq_divByZero.mp h
    rcases forEach_divByZero_mem groups () r1 h1 g hg with hm | ⟨x, hx, pa, q, hb⟩
    · exact ⟨g, hm, rfl, rfl⟩
    · rcases phase2Group_cases config p x with e | ⟨e, hw0, -, -⟩
      · rw [e] at hb
        rcases hb with hb | hb
        · cases hb
          rw [finish_Name] at hwt
          exact ⟨x, hx, (finish_Name config p x).symm, by simp [finish, hwt]⟩
        · cases hb
      · rw [e] at hb
        rcases hb with hb | hb
        · cases hb
        · cases hb
          rw [resolveCount_Name] at hwt
          rw [hw0] at hwt
          cases hwt

/-- The job that a run leaves when phase 1 ran to its end. -/
theorem Allocate_state {E M : Int} {config : Config} {job : Job} {p1 : Pool}
    {groups1 : List TaskGroup}
    (e1 : phase1 config job.TaskGroups ⟨E, M, absoluteTasks job⟩ = .done (p1, groups1)) :
    (Allocate E M config job).state.TaskGroups = (phase2 config p1 groups1).state := by
  unfold Allocate
  simp only [e1]
  cases phase2 config p1 groups1 <;> rfl

/-- With pairwise distinct names in the weight table every listed task of a group with a
weight is decremented once: the decrements of phase 1 are the listed tasks of the groups
with a weight. -/
theorem weightedHits_nodup (config : Config) (groups : List TaskGroup)
    (hnames : (config.Groups.map (fun gc => gc.Name)).Nodup) :
    weightedHits config groups = weightedTasks config groups := by
  induction groups with
  | nil => simp [weightedHits, weightedTasks]
  | cons g gs ih =>
    simp only [weightedHits, weightedTasks, List.map_cons, List.sum_cons] at ih ⊢
    rw [ih]
    cases hwt : weighted config g.Name with
    | false =>
      rw [hits_eq_zero config g.Name hwt]
      simp
    | true =>
      have hh := hits_le_one config.Groups g.Name hnames
      have hpos : 0 < (config.Groups.filter (fun gc => decide (gc.Name = g.Name))).length := by
        obtain ⟨gc, hgc, hn⟩ := (weighted_eq_true_iff config g.Name).mp hwt
        exact List.length_pos_of_mem (List.mem_filter.mpr ⟨hgc, by simpa using hn⟩)
      have h1 : (config.Groups.filter (fun gc => decide (gc.Name = g.Name))).length = 1 := by
        omega
      rw [h1]
      simp

/-! ## The claims -/

/-- C1 (the code at the failing input): with capacities 1000 and the weight table
`[{a, 1}, {a, 1}]`, the group `a` of one task and the group `b` of three tasks, the run
returns without error; `weightlessTasks` has been decremented twice for the one task of
`a`, so the rest, 981, is divided by 2 and every task of `b` is assigned 490.  The assigned
CPU and memory values sum to 1479, more than 1000. -/
theorem total_exceeds_capacity :
    Allocate 1000 1000 ⟨[⟨"a", 1⟩, ⟨"a", 1⟩]⟩
        ⟨[⟨"a", none, [⟨"a1", 0, 0⟩]⟩,
          ⟨"b", none, [⟨"b1", 0, 0⟩, ⟨"b2", 0, 0⟩, ⟨"b3", 0, 0⟩]⟩]⟩ =
      .done ⟨[⟨"a", some 1, [⟨"a1", 9, 9⟩]⟩,
        ⟨"b", some 1, [⟨"b1", 490, 490⟩, ⟨"b2", 490, 490⟩, ⟨"b3", 490, 490⟩]⟩]⟩ ∧
    Job.totalCPU ⟨[⟨"a", some 1, [⟨"a1", 9, 9⟩]⟩,
        ⟨"b", some 1, [⟨"b1", 490, 490⟩, ⟨"b2", 490, 490⟩, ⟨"b3", 490, 490⟩]⟩]⟩ = 1479 ∧
    Job.totalMemory ⟨[⟨"a", some 1, [⟨"a1", 9, 9⟩]⟩,
        ⟨"b", some 1, [⟨"b1", 490, 490⟩, ⟨"b2", 490, 490⟩, ⟨"b3", 490, 490⟩]⟩]⟩ = 1479 := by
  decide

/-- C2 (the code at the failing input): with capacities 1000, the weight table `[{api, 60}]`
and one group `api` of two tasks, the two tasks of the group are assigned different amounts,
300 and 210, because the pool is reduced after every task; `floor(1000 * 60 / 100 / 2)` is
300. -/
theorem weighted_group_shares_differ :
    Allocate 1000 1000 ⟨[⟨"api", 60⟩]⟩ ⟨[⟨"api", none, [⟨"t1", 0, 0⟩, ⟨"t2", 0, 0⟩]⟩]⟩ =
      .done ⟨[⟨"api", some 1, [⟨"t1", 300, 300⟩, ⟨"t2", 210, 210⟩]⟩]⟩ := by
  decide

/-- C3 (the code at the scenario): with capacities 1000, margin 0, the weight table
`[{api, 60}]` and the groups `api` (2 tasks) and `worker` (3 tasks), the run returns no
error, the `api` tasks are assigned 300 and 210 and every `worker` task 163; the scenario
expects 300, 300 and 133. -/
theorem scenario_api_worker :
    Allocate 1000 1000 ⟨[⟨"api", 60⟩]⟩
        ⟨[⟨"api", none, [⟨"a1", 0, 0⟩, ⟨"a2", 0, 0⟩]⟩,
          ⟨"worker", none, [⟨"w1", 0, 0⟩, ⟨"w2", 0, 0⟩, ⟨"w3", 0, 0⟩]⟩]⟩ =
      .done ⟨[⟨"api", some 1, [⟨"a1", 300, 300⟩, ⟨"a2", 210, 210⟩]⟩,
          ⟨"worker", some 1, [⟨"w1", 163, 163⟩, ⟨"w2", 163, 163⟩, ⟨"w3", 163, 163⟩]⟩]⟩ := by
  decide

/-- C4 (counterexample): the weight table `[{api, 101}]` sums to more than 100, and
`Allocate` returns no error for the job without groups and for a job whose only group lists
no task.  The weights of `[{x, 100}, {y, 9223372036854775807}]` are non-negative and sum to
more than 100, and `Allocate` returns no error for a job with one task: the running sum of
line 35 wraps to a negative value at the second entry. -/
theorem over_budget_no_error_without_tasks :
    ((([⟨"api", 101⟩] : List GroupConfig).map (fun gc => gc.Weight)).sum > 100 ∧
      Allocate 1000 1000 ⟨[⟨"api", 101⟩]⟩ ⟨[]⟩ = .done ⟨[]⟩ ∧
      Allocate 1000 1000 ⟨[⟨"api", 101⟩]⟩ ⟨[⟨"api", none, []⟩]⟩ =
        .done ⟨[⟨"api", some 1, []⟩]⟩) ∧
    ((∀ gc ∈ [(⟨"x", 100⟩ : GroupConfig), ⟨"y", 9223372036854775807⟩], 0 ≤ gc.Weight) ∧
      (([⟨"x", 100⟩, ⟨"y", 9223372036854775807⟩] : List GroupConfig).map
        (fun gc => gc.Weight)).sum > 100 ∧
      Allocate 1000 1000 ⟨[⟨"x", 100⟩, ⟨"y", 9223372036854775807⟩]⟩
          ⟨[⟨"g", none, [⟨"t", 0, 0⟩]⟩]⟩ =
        .done ⟨[⟨"g", some 1, [⟨"t", 1000, 1000⟩]⟩]⟩) := by
  decide

/-- C4 (amended): for every weight table whose weights sum to more than 100 and to at most
`2^63 - 1`, so that the sum fits in an `int`, `Allocate` returns the error for every job in
which some group lists at least one task, and returns without error for every job in which
no group lists a task.  The weights need not be non-negative for this. -/
theorem over_budget_errors (E M : Int) (config : Config) (job : Job)
    (hsum : (config.Groups.map (fun gc => gc.Weight)).sum > 100)
    (hfit : (config.Groups.map (fun gc => gc.Weight)).sum ≤ 9223372036854775807) :
    ((∃ g ∈ job.TaskGroups, g.Tasks ≠ []) →
      ∃ job1, Allocate E M config job = .weightError job1) ∧
    ((∀ g ∈ job.TaskGroups, g.Tasks = []) →
      ∃ job1, Allocate E M config job = .done job1) := by
  refine ⟨fun htask => ?_, fun hno => Allocate_no_tasks E M config job hno⟩
  have hb : overBudget config.Groups 0 = true := overBudget_of_sum_gt config.Groups hsum hfit
  obtain ⟨p1, groups1, -, -, -, e, -⟩ :=
    phase1_overBudget config job.TaskGroups ⟨E, M, absoluteTasks job⟩ hb htask
  refine ⟨⟨groups1⟩, ?_⟩
  unfold Allocate
  simp only [e]

/-- C4 (witness): a table that sums to 101, with a job of one task and with a job whose
group lists no task. -/
theorem over_budget_errors_witness :
    (([⟨"api", 60⟩, ⟨"b", 41⟩] : List GroupConfig).map (fun gc => gc.Weight)).sum > 100 ∧
      (([⟨"api", 60⟩, ⟨"b", 41⟩] : List GroupConfig).map (fun gc => gc.Weight)).sum ≤
        9223372036854775807 ∧
      (∃ job1, Allocate 1000 1000 ⟨[⟨"api", 60⟩, ⟨"b", 41⟩]⟩
        ⟨[⟨"worker", none, [⟨"w1", 0, 0⟩]⟩]⟩ = .weightError job1) ∧
      (∃ job1, Allocate 1000 1000 ⟨[⟨"api", 60⟩, ⟨"b", 41⟩]⟩
        ⟨[⟨"worker", none, []⟩]⟩ = .done job1) :=
  ⟨by decide, by decide,
    (over_budget_errors 1000 1000 ⟨[⟨"api", 60⟩, ⟨"b", 41⟩]⟩
      ⟨[⟨"worker", none, [⟨"w1", 0, 0⟩]⟩]⟩ (by decide) (by decide)).1 (by decide),
    (over_budget_errors 1000 1000 ⟨[⟨"api", 60⟩, ⟨"b", 41⟩]⟩
      ⟨[⟨"worker", none, []⟩]⟩ (by decide) (by decide)).2 (by decide)⟩

/-- C5 (counterexample): with the weight table `[{api, 60}, {b, 41}]` and a job whose first
group is `api`, `Allocate` returns the error after it has written 600 to the CPU and the
memory of the first task. -/
theorem error_after_write :
    Allocate 1000 1000 ⟨[⟨"api", 60⟩, ⟨"b", 41⟩]⟩ ⟨[⟨"api", none, [⟨"t1", 0, 0⟩]⟩]⟩ =
      .weightError ⟨[⟨"api", some 1, [⟨"t1", 600, 600⟩]⟩]⟩ := by
  decide

/-- C5 (amended): whenever `Allocate` returns the weight-sum error, the job lists at least
one task, and every task other than the first listed task of the job is as it was before
the call; the first listed task keeps its name. -/
theorem error_leaves_later_tasks (E M : Int) (config : Config) (job job1 : Job)
    (h : Allocate E M config job = .weightError job1) :
    ∃ t t1 rest, job.allTasks = t :: rest ∧ job1.allTasks = t1 :: rest ∧ t1.Name = t.Name := by
  obtain ⟨p1, e⟩ := Allocate_weightError h
  obtain ⟨hb, hex⟩ := phase1_weightError config _ _ _ e
  obtain ⟨p2, groups2, t, t1, rest, e2, ht, ht1, hn⟩ :=
    phase1_overBudget config job.TaskGroups ⟨E, M, absoluteTasks job⟩ hb hex
  rw [e] at e2
  cases e2
  exact ⟨t, t1, rest, ht, ht1, hn⟩

/-- C5 (witness). -/
theorem error_leaves_later_tasks_witness :
    Allocate 1000 1000 ⟨[⟨"api", 60⟩, ⟨"b", 41⟩]⟩
        ⟨[⟨"api", none, [⟨"t1", 7, 7⟩, ⟨"t2", 8, 8⟩]⟩]⟩ =
      .weightError ⟨[⟨"api", some 1, [⟨"t1", 300, 300⟩, ⟨"t2", 8, 8⟩]⟩]⟩ ∧
    ∃ t t1 rest,
      Job.allTasks ⟨[⟨"api", none, [⟨"t1", 7, 7⟩, ⟨"t2", 8, 8⟩]⟩]⟩ = t :: rest ∧
      Job.allTasks ⟨[⟨"api", some 1, [⟨"t1", 300, 300⟩, ⟨"t2", 8, 8⟩]⟩]⟩ = t1 :: rest ∧
      t1.Name = t.Name :=
  ⟨by decide,
    error_leaves_later_tasks 1000 1000 ⟨[⟨"api", 60⟩, ⟨"b", 41⟩]⟩
      ⟨[⟨"api", none, [⟨"t1", 7, 7⟩, ⟨"t2", 8, 8⟩]⟩]⟩
      ⟨[⟨"api", some 1, [⟨"t1", 300, 300⟩, ⟨"t2", 8, 8⟩]⟩]⟩ (by decide)⟩

/-- C6: for every weight table with non-negative weights whose total is at most 100 and for
every job, `Allocate` does not return the weight-sum error. -/
theorem within_budget_no_error (E M : Int) (config : Config) (job : Job)
    (hw : ∀ gc ∈ config.Groups, 0 ≤ gc.Weight)
    (hsum : (config.Groups.map (fun gc => gc.Weight)).sum ≤ 100) :
    ∀ job1, Allocate E M config job ≠ .weightError job1 := by
  intro job1 h
  obtain ⟨p1, e⟩ := Allocate_weightError h
  obtain ⟨hb, -⟩ := phase1_weightError config _ _ _ e
  rw [overBudget_false_of_nonneg config.Groups hw hsum] at hb
  cases hb

/-- C6 (witness): a table that sums to exactly 100 and a group of three tasks. -/
theorem within_budget_no_error_witness :
    (∀ gc ∈ [(⟨"api", 60⟩ : GroupConfig), ⟨"worker", 40⟩], 0 ≤ gc.Weight) ∧
      (([⟨"api", 60⟩, ⟨"worker", 40⟩] : List GroupConfig).map (fun gc => gc.Weight)).sum ≤ 100 ∧
      ∀ job1, Allocate 1000 1000 ⟨[⟨"api", 60⟩, ⟨"worker", 40⟩]⟩
        ⟨[⟨"api", none, [⟨"a1", 0, 0⟩, ⟨"a2", 0, 0⟩, ⟨"a3", 0, 0⟩]⟩]⟩ ≠ .weightError job1 :=
  ⟨by decide, by decide,
    within_budget_no_error 1000 1000 ⟨[⟨"api", 60⟩, ⟨"worker", 40⟩]⟩
      ⟨[⟨"api", none, [⟨"a1", 0, 0⟩, ⟨"a2", 0, 0⟩, ⟨"a3", 0, 0⟩]⟩]⟩ (by decide) (by decide)⟩

/-- C7 (counterexample): for the job whose only group has count 5, one listed task and no
matching weight, the task is assigned 1000 / 5 = 200 from capacities 1000, not the whole
remaining capacity: `weightlessTasks` is 5 here, not 1.  With the count
6148914691236517206 on three listed tasks the product of line 16 wraps to 2, and every task
is assigned 1000 / 2 = 500. -/
theorem count_multiplies_weightless :
    Allocate 1000 1000 ⟨[]⟩ ⟨[⟨"g", some 5, [⟨"t", 0, 0⟩]⟩]⟩ =
      .done ⟨[⟨"g", some 5, [⟨"t", 200, 200⟩]⟩]⟩ ∧
    absoluteTasks ⟨[⟨"g", some 6148914691236517206,
      [⟨"t1", 0, 0⟩, ⟨"t2", 0, 0⟩, ⟨"t3", 0, 0⟩]⟩]⟩ = 2 ∧
    Allocate 1000 1000 ⟨[]⟩
        ⟨[⟨"g", some 6148914691236517206, [⟨"t1", 0, 0⟩, ⟨"t2", 0, 0⟩, ⟨"t3", 0, 0⟩]⟩]⟩ =
      .done ⟨[⟨"g", some 6148914691236517206,
        [⟨"t1", 500, 500⟩, ⟨"t2", 500, 500⟩, ⟨"t3", 500, 500⟩]⟩]⟩ := by
  decide

/-- C7 (amended): on every run that returns without error, every task of a group with no
matching weight entry is assigned the pool left by phase 1 divided by `weightlessTasks` with
Go's integer division.  `absoluteTasks` is the number of task instances, in which every
group counts its listed tasks multiplied by its count (an absent count as 1), reduced to an
`int`; `weightlessTasks` is that number minus one for every execution of line 46, reduced
to an `int`.  With pairwise distinct names in the weight table the executions of line 46
are the listed tasks of the groups with a weight. -/
theorem weightless_share (E M : Int) (config : Config) (job job1 : Job)
    (h : Allocate E M config job = .done job1) :
    ∃ p groups, phase1 config job.TaskGroups ⟨E, M, absoluteTasks job⟩ = .done (p, groups) ∧
      absoluteTasks job = wrap (taskCount job.TaskGroups) ∧
      p.weightlessTasks = wrap (taskCount job.TaskGroups - weightedHits config job.TaskGroups) ∧
      ((config.Groups.map (fun gc => gc.Name)).Nodup →
        p.weightlessTasks =
          wrap (taskCount job.TaskGroups - weightedTasks config job.TaskGroups)) ∧
      ∀ g ∈ job1.TaskGroups, (∀ gc ∈ config.Groups, gc.Name ≠ g.Name) →
        ∀ t ∈ g.Tasks, t.CPU = intDiv p.availableCPU p.weightlessTasks ∧
          t.MemoryMB = intDiv p.availableMemory p.weightlessTasks := by
  obtain ⟨p1, groups1, e1, -, e3⟩ := Allocate_done h
  have hwl : p1.weightlessTasks =
      wrap (taskCount job.TaskGroups - weightedHits config job.TaskGroups) := by
    have h1 := phase1_done_weightless config _ _ _ (wrap_absoluteTasks job) _ e1
    simp only at h1
    rw [h1, absoluteTasks_eq, wrap_sub_wrap]
  refine ⟨p1, groups1, e1, absoluteTasks_eq job, hwl, ?_, ?_⟩
  · intro hnames
    rw [hwl, weightedHits_nodup config _ hnames]
  · intro g hg hno t ht
    rw [e3] at hg
    obtain ⟨g1, -, rfl⟩ := List.mem_map.mp hg
    rw [finish_Name] at hno
    have hwt := (weighted_eq_false_iff config g1.Name).mpr hno
    simp only [finish, hwt, Bool.false_eq_true, if_false] at ht
    obtain ⟨t0, -, rfl⟩ := List.mem_map.mp ht
    exact ⟨rfl, rfl⟩

/-- C7 (witness): a group of count 2 with a weight and a group of count 3 without one. -/
theorem weightless_share_witness :
    Allocate 1000 1000 ⟨[⟨"api", 50⟩]⟩
        ⟨[⟨"api", some 2, [⟨"a1", 0, 0⟩]⟩, ⟨"worker", some 3, [⟨"w1", 0, 0⟩]⟩]⟩ =
      .done ⟨[⟨"api", some 2, [⟨"a1", 500, 500⟩]⟩,
        ⟨"worker", some 3, [⟨"w1", 125, 125⟩]⟩]⟩ ∧
    ∃ p groups, phase1 ⟨[⟨"api", 50⟩]⟩
        [⟨"api", some 2, [⟨"a1", 0, 0⟩]⟩, ⟨"worker", some 3, [⟨"w1", 0, 0⟩]⟩]
        ⟨1000, 1000, absoluteTasks ⟨[⟨"api", some 2, [⟨"a1", 0, 0⟩]⟩,
          ⟨"worker", some 3, [⟨"w1", 0, 0⟩]⟩]⟩⟩ = .done (p, groups) ∧
      absoluteTasks ⟨[⟨"api", some 2, [⟨"a1", 0, 0⟩]⟩, ⟨"worker", some 3, [⟨"w1", 0, 0⟩]⟩]⟩ =
        wrap (taskCount
          [⟨"api", some 2, [⟨"a1", 0, 0⟩]⟩, ⟨"worker", some 3, [⟨"w1", 0, 0⟩]⟩]) ∧
      p.weightlessTasks =
        wrap (taskCount
            [⟨"api", some 2, [⟨"a1", 0, 0⟩]⟩, ⟨"worker", some 3, [⟨"w1", 0, 0⟩]⟩] -
          weightedHits ⟨[⟨"api", 50⟩]⟩
            [⟨"api", some 2, [⟨"a1", 0, 0⟩]⟩, ⟨"worker", some 3, [⟨"w1", 0, 0⟩]⟩]) ∧
      ((([⟨"api", 50⟩] : List GroupConfig).map (fun gc => gc.Name)).Nodup →
        p.weightlessTasks =
          wrap (taskCount
              [⟨"api", some 2, [⟨"a1", 0, 0⟩]⟩, ⟨"worker", some 3, [⟨"w1", 0, 0⟩]⟩] -
            weightedTasks ⟨[⟨"api", 50⟩]⟩
              [⟨"api", some 2, [⟨"a1", 0, 0⟩]⟩, ⟨"worker", some 3, [⟨"w1", 0, 0⟩]⟩])) ∧
      ∀ g ∈ [(⟨"api", some 2, [⟨"a1", 500, 500⟩]⟩ : TaskGroup),
          ⟨"worker", some 3, [⟨"w1", 125, 125⟩]⟩],
        (∀ gc ∈ [(⟨"api", 50⟩ : GroupConfig)], gc.Name ≠ g.Name) →
        ∀ t ∈ g.Tasks, t.CPU = intDiv p.availableCPU p.weightlessTasks ∧
          t.MemoryMB = intDiv p.availableMemory p.weightlessTasks :=
  ⟨by decide,
    weightless_share 1000 1000 ⟨[⟨"api", 50⟩]⟩
      ⟨[⟨"api", some 2, [⟨"a1", 0, 0⟩]⟩, ⟨"worker", some 3, [⟨"w1", 0, 0⟩]⟩]⟩
      ⟨[⟨"api", some 2, [⟨"a1", 500, 500⟩]⟩, ⟨"worker", some 3, [⟨"w1", 125, 125⟩]⟩]⟩
      (by decide)⟩

/-- C8 (the code at the failing input): with capacities 1000, the weight table
`[{a, 10}, {a, 10}]` (sum 20) and the groups `a` and `b` of one task each,
`weightlessTasks` is decremented twice for the one task of `a` and is 0 when line 67
divides by it for the task of `b`: the run panics with a division by zero. -/
theorem division_by_zero_reached :
    Allocate 1000 1000 ⟨[⟨"a", 10⟩, ⟨"a", 10⟩]⟩
        ⟨[⟨"a", none, [⟨"a1", 0, 0⟩]⟩, ⟨"b", none, [⟨"b1", 0, 0⟩]⟩]⟩ =
      .divByZero ⟨[⟨"a", some 1, [⟨"a1", 90, 90⟩]⟩, ⟨"b", some 1, [⟨"b1", 0, 0⟩]⟩]⟩ := by
  decide

/-- C9 (the code at the failing input): with capacities 1000, the weight table
`[{a, 1}, {a, 1}, {a, 1}]` (sum 3) and the groups `a` and `b` of one task each,
`weightlessTasks` is decremented three times for the one task of `a` and is -1 in phase 2:
the task of `b` is assigned 972 / -1 = -972. -/
theorem negative_assignment :
    Allocate 1000 1000 ⟨[⟨"a", 1⟩, ⟨"a", 1⟩, ⟨"a", 1⟩]⟩
        ⟨[⟨"a", none, [⟨"a1", 0, 0⟩]⟩, ⟨"b", none, [⟨"b1", 0, 0⟩]⟩]⟩ =
      .done ⟨[⟨"a", some 1, [⟨"a1", 9, 9⟩]⟩, ⟨"b", some 1, [⟨"b1", -972, -972⟩]⟩]⟩ := by
  decide

/-- C10: on every run that returns without error, the result does not depend on the values
the tasks carried before the call: every job that agrees with the given one once all
requests are zeroed yields the same result, in particular the zeroed job itself, and a second
run on the result returns the result unchanged. -/
theorem overwrites_prior_values (E M : Int) (config : Config) (job job1 : Job)
    (h : Allocate E M config job = .done job1) :
    (∀ job2 : Job, job2.zeroed = job.zeroed → Allocate E M config job2 = .done job1) ∧
    Allocate E M config job.zeroed = .done job1 ∧
    Allocate E M config job1 = .done job1 := by
  refine ⟨fun job2 h2 => ?_, ?_, ?_⟩
  · refine Allocate_congr E M config job job2 job1 ?_ h
    rw [← skeleton_zeroed job, ← skeleton_zeroed job2, h2]
  · exact Allocate_congr E M config job job.zeroed job1 (skeleton_zeroed job).symm h
  · exact Allocate_congr E M config job job1 job1 (skeleton_output h) h

/-- C10 (witness): the scenario job with prior requests 7, 8 and 9. -/
theorem overwrites_prior_values_witness :
    Allocate 1000 1000 ⟨[⟨"api", 60⟩]⟩
        (Job.zeroed ⟨[⟨"api", none, [⟨"a1", 7, 7⟩]⟩, ⟨"worker", some 2, [⟨"w1", 8, 9⟩]⟩]⟩) =
      .done ⟨[⟨"api", some 1, [⟨"a1", 600, 600⟩]⟩, ⟨"worker", some 2, [⟨"w1", 200, 200⟩]⟩]⟩ ∧
    Allocate 1000 1000 ⟨[⟨"api", 60⟩]⟩
        ⟨[⟨"api", some 1, [⟨"a1", 600, 600⟩]⟩, ⟨"worker", some 2, [⟨"w1", 200, 200⟩]⟩]⟩ =
      .done ⟨[⟨"api", some 1, [⟨"a1", 600, 600⟩]⟩, ⟨"worker", some 2, [⟨"w1", 200, 200⟩]⟩]⟩ :=
  (overwrites_prior_values 1000 1000 ⟨[⟨"api", 60⟩]⟩
    ⟨[⟨"api", none, [⟨"a1", 7, 7⟩]⟩, ⟨"worker", some 2, [⟨"w1", 8, 9⟩]⟩]⟩
    ⟨[⟨"api", some 1, [⟨"a1", 600, 600⟩]⟩, ⟨"worker", some 2, [⟨"w1", 200, 200⟩]⟩]⟩
    (by decide)).2

/-- C11: on every run that returns without error, any two tasks that belong to groups with
no matching weight entry, in the same group or in different groups, are assigned the same
CPU value and the same memory value. -/
theorem unweighted_equal_share (E M : Int) (config : Config) (job job1 : Job)
    (h : Allocate E M config job = .done job1) :
    ∀ g ∈ job1.TaskGroups, ∀ g2 ∈ job1.TaskGroups,
      (∀ gc ∈ config.Groups, gc.Name ≠ g.Name) → (∀ gc ∈ config.Groups, gc.Name ≠ g2.Name) →
      ∀ t ∈ g.Tasks, ∀ t2 ∈ g2.Tasks, t.CPU = t2.CPU ∧ t.MemoryMB = t2.MemoryMB := by
  obtain ⟨p1, hp⟩ := Allocate_done_unweighted h
  intro g hg g2 hg2 hno hno2 t ht t2 ht2
  obtain ⟨c1, m1⟩ := hp g hg hno t ht
  obtain ⟨c2, m2⟩ := hp g2 hg2 hno2 t2 ht2
  exact ⟨c1.trans c2.symm, m1.trans m2.symm⟩

/-- C11 (witness): two groups without a weight, of two tasks and of one task, beside a
weighted group. -/
theorem unweighted_equal_share_witness :
    Allocate 1000 1000 ⟨[⟨"api", 40⟩]⟩
        ⟨[⟨"web", none, [⟨"w1", 1, 2⟩, ⟨"w2", 3, 4⟩]⟩, ⟨"api", none, [⟨"a1", 0, 0⟩]⟩,
          ⟨"db", none, [⟨"d1", 5, 6⟩]⟩]⟩ =
      .done ⟨[⟨"web", some 1, [⟨"w1", 200, 200⟩, ⟨"w2", 200, 200⟩]⟩,
          ⟨"api", some 1, [⟨"a1", 400, 400⟩]⟩, ⟨"db", some 1, [⟨"d1", 200, 200⟩]⟩]⟩ ∧
    ∀ g ∈ [(⟨"web", some 1, [⟨"w1", 200, 200⟩, ⟨"w2", 200, 200⟩]⟩ : TaskGroup),
        ⟨"api", some 1, [⟨"a1", 400, 400⟩]⟩, ⟨"db", some 1, [⟨"d1", 200, 200⟩]⟩],
      ∀ g2 ∈ [(⟨"web", some 1, [⟨"w1", 200, 200⟩, ⟨"w2", 200, 200⟩]⟩ : TaskGroup),
        ⟨"api", some 1, [⟨"a1", 400, 400⟩]⟩, ⟨"db", some 1, [⟨"d1", 200, 200⟩]⟩],
      (∀ gc ∈ [(⟨"api", 40⟩ : GroupConfig)], gc.Name ≠ g.Name) →
      (∀ gc ∈ [(⟨"api", 40⟩ : GroupConfig)], gc.Name ≠ g2.Name) →
      ∀ t ∈ g.Tasks, ∀ t2 ∈ g2.Tasks, t.CPU = t2.CPU ∧ t.MemoryMB = t2.MemoryMB :=
  ⟨by decide,
    unweighted_equal_share 1000 1000 ⟨[⟨"api", 40⟩]⟩
      ⟨[⟨"web", none, [⟨"w1", 1, 2⟩, ⟨"w2", 3, 4⟩]⟩, ⟨"api", none, [⟨"a1", 0, 0⟩]⟩,
        ⟨"db", none, [⟨"d1", 5, 6⟩]⟩]⟩
      ⟨[⟨"web", some 1, [⟨"w1", 200, 200⟩, ⟨"w2", 200, 200⟩]⟩,
        ⟨"api", some 1, [⟨"a1", 400, 400⟩]⟩, ⟨"db", some 1, [⟨"d1", 200, 200⟩]⟩]⟩
      (by decide)⟩

/-- C12 (counterexample): with the weight table `[{a, 50}, {a, 10}]` the task of group `a`
ends with 50, the value written for the second entry from the pool that the first entry
left (500 * 10 / 100); with the first entry alone it ends with 500. -/
theorem later_entry_overwrites :
    Allocate 1000 1000 ⟨[⟨"a", 50⟩, ⟨"a", 10⟩]⟩ ⟨[⟨"a", none, [⟨"a1", 0, 0⟩]⟩]⟩ =
      .done ⟨[⟨"a", some 1, [⟨"a1", 50, 50⟩]⟩]⟩ ∧
    Allocate 1000 1000 ⟨[⟨"a", 50⟩]⟩ ⟨[⟨"a", none, [⟨"a1", 0, 0⟩]⟩]⟩ =
      .done ⟨[⟨"a", some 1, [⟨"a1", 500, 500⟩]⟩]⟩ := by
  decide

/-- C12 (amended): when several entries of the weight table share a group's name, the
resources that a successful run finally assigns to a task of that group are those written
for the last matching entry in table order: its weight applied, in Go's `int` arithmetic
(`q * w / 100 / len`), to the pool as the scan of the entries before it, for this task, has
left it (`q`), divided by the number of listed tasks.  Here `pa` is the pool when the group
is reached and `pt` the pool when the task is reached. -/
theorem last_match_wins (E M : Int) (config : Config) (job job1 : Job)
    (pre : List TaskGroup) (g : TaskGroup) (post : List TaskGroup)
    (tpre : List Task) (t : Task) (tpost : List Task)
    (cpre : List GroupConfig) (gc : GroupConfig) (cpost : List GroupConfig)
    (h : Allocate E M config job = .done job1)
    (hjob : job.TaskGroups = pre ++ g :: post) (htasks : g.Tasks = tpre ++ t :: tpost)
    (hcfg : config.Groups = cpre ++ gc :: cpost) (hname : gc.Name = g.Name)
    (hlast : ∀ e ∈ cpost, e.Name ≠ g.Name) :
    ∃ pa pt q r1 r2 r3 g1 t1,
      phase1 config pre ⟨E, M, absoluteTasks job⟩ = .done (pa, r1) ∧
      forEach (phase1Task config (resolveCount g)) tpre pa = .done (pt, r2) ∧
      scanWeights g.Name (g.Tasks.length : Int) cpre 0 pt t = .done (q, r3) ∧
      job1.TaskGroups[pre.length]? = some g1 ∧ g1.Tasks[tpre.length]? = some t1 ∧
      t1.CPU =
        intDiv (intDiv (intMul q.availableCPU gc.Weight) 100) (g.Tasks.length : Int) ∧
      t1.MemoryMB =
        intDiv (intDiv (intMul q.availableMemory gc.Weight) 100) (g.Tasks.length : Int) := by
  have hwt : weighted config g.Name = true := by
    rw [weighted_eq_true_iff]
    exact ⟨gc, by rw [hcfg]; simp, hname⟩
  obtain ⟨pa, pb, r1, g1, g2, ts1, h1, -, hloop, hat, hts⟩ :=
    Allocate_done_at h pre g post hjob hwt
  rw [htasks] at hloop
  obtain ⟨pt, r2, pc, t1, h2, hbody, hat2⟩ := forEach_done_at tpre t tpost pa pb ts1 hloop
  unfold phase1Task at hbody
  simp only [resolveCount_Name, resolveCount_Tasks] at hbody
  rw [hcfg] at hbody
  obtain ⟨q, r3, h3, hc, hm⟩ := scanWeights_last cpre gc cpost hname hlast hbody
  exact ⟨pa, pt, q, r1, r2, r3, g1, t1, h1, h2, h3, hat, by rw [hts]; exact hat2, hc, hm⟩

/-- C12 (witness): the entry `{a, 10}` after `{a, 50}`, for the second task of the second
group. -/
theorem last_match_wins_witness :
    Allocate 1000 1000 ⟨[⟨"a", 50⟩, ⟨"b", 5⟩, ⟨"a", 10⟩]⟩
        ⟨[⟨"b", none, [⟨"b1", 0, 0⟩]⟩, ⟨"a", none, [⟨"a1", 0, 0⟩, ⟨"a2", 0, 0⟩]⟩]⟩ =
      .done ⟨[⟨"b", some 1, [⟨"b1", 50, 50⟩]⟩,
        ⟨"a", some 1, [⟨"a1", 35, 35⟩, ⟨"a2", 25, 25⟩]⟩]⟩ ∧
    ∃ pa pt q r1 r2 r3 g1 t1,
      phase1 ⟨[⟨"a", 50⟩, ⟨"b", 5⟩, ⟨"a", 10⟩]⟩ [⟨"b", none, [⟨"b1", 0, 0⟩]⟩]
        ⟨1000, 1000, absoluteTasks
          ⟨[⟨"b", none, [⟨"b1", 0, 0⟩]⟩, ⟨"a", none, [⟨"a1", 0, 0⟩, ⟨"a2", 0, 0⟩]⟩]⟩⟩ =
        .done (pa, r1) ∧
      forEach (phase1Task ⟨[⟨"a", 50⟩, ⟨"b", 5⟩, ⟨"a", 10⟩]⟩
        (resolveCount ⟨"a", none, [⟨"a1", 0, 0⟩, ⟨"a2", 0, 0⟩]⟩)) [⟨"a1", 0, 0⟩] pa =
        .done (pt, r2) ∧
      scanWeights "a" 2 [⟨"a", 50⟩, ⟨"b", 5⟩] 0 pt ⟨"a2", 0, 0⟩ = .done (q, r3) ∧
      ([⟨"b", some 1, [⟨"b1", 50, 50⟩]⟩,
        ⟨"a", some 1, [⟨"a1", 35, 35⟩, ⟨"a2", 25, 25⟩]⟩] : List TaskGroup)[1]? = some g1 ∧
      g1.Tasks[1]? = some t1 ∧
      t1.CPU = intDiv (intDiv (intMul q.availableCPU 10) 100) 2 ∧
      t1.MemoryMB = intDiv (intDiv (intMul q.availableMemory 10) 100) 2 :=
  ⟨by decide,
    last_match_wins 1000 1000 ⟨[⟨"a", 50⟩, ⟨"b", 5⟩, ⟨"a", 10⟩]⟩
      ⟨[⟨"b", none, [⟨"b1", 0, 0⟩]⟩, ⟨"a", none, [⟨"a1", 0, 0⟩, ⟨"a2", 0, 0⟩]⟩]⟩
      ⟨[⟨"b", some 1, [⟨"b1", 50, 50⟩]⟩, ⟨"a", some 1, [⟨"a1", 35, 35⟩, ⟨"a2", 25, 25⟩]⟩]⟩
      [⟨"b", none, [⟨"b1", 0, 0⟩]⟩] ⟨"a", none, [⟨"a1", 0, 0⟩, ⟨"a2", 0, 0⟩]⟩ []
      [⟨"a1", 0, 0⟩] ⟨"a2", 0, 0⟩ []
      [⟨"a", 50⟩, ⟨"b", 5⟩] ⟨"a", 10⟩ []
      (by decide) (by decide) (by decide) (by decide) (by decide) (by decide)⟩

/-- C13 (counterexample): with capacities 160000000000000000 and the weight table
`[{x, 60}, {a, 30}]` (non-negative weights, sum 90), the product of line 41 wraps for the
task of `x`, which is assigned -88467440737095516; the pool grows, and the single task of
the group `a`, whose name exactly one entry of 30 percent carries, is assigned
74540232221128654, more than `floor(160000000000000000 * 30 / 100)`, which is
48000000000000000. -/
theorem group_budget_wraps :
    Allocate 160000000000000000 160000000000000000 ⟨[⟨"x", 60⟩, ⟨"a", 30⟩]⟩
        ⟨[⟨"x", none, [⟨"x1", 0, 0⟩]⟩, ⟨"a", none, [⟨"a1", 0, 0⟩]⟩]⟩ =
      .done ⟨[⟨"x", some 1, [⟨"x1", -88467440737095516, -88467440737095516⟩]⟩,
        ⟨"a", some 1, [⟨"a1", 74540232221128654, 74540232221128654⟩]⟩]⟩ ∧
    ([(⟨"x", 60⟩ : GroupConfig), ⟨"a", 30⟩].filter (fun e => decide (e.Name = "a")) =
      [⟨"a", 30⟩]) ∧
    ¬ (([⟨"a1", 74540232221128654, 74540232221128654⟩] : List Task).map
        (fun t => t.CPU)).sum ≤ 160000000000000000 * 30 / 100 := by
  decide

/-- C13 (amended): for capacities `E` and `M` in `[0, maxCapacity]`, where `maxCapacity` is
92233720368547758, the largest value whose hundredfold fits in an `int`, and a weight table
of the data model (non-negative weights that sum to at most 100), in the job as the run
leaves it, however the run ends, the CPU values of the tasks of a group whose name exactly
one weight entry of `w` percent carries sum to at most `floor(E * w / 100)`, and the memory
values to at most `floor(M * w / 100)`. -/
theorem group_budget_bound (E M : Int) (config : Config) (job : Job) (gc : GroupConfig)
    (hE : 0 ≤ E) (hEc : E ≤ maxCapacity) (hM : 0 ≤ M) (hMc : M ≤ maxCapacity)
    (hw : ∀ e ∈ config.Groups, 0 ≤ e.Weight)
    (hsum : (config.Groups.map (fun e => e.Weight)).sum ≤ 100) :
    ∀ g ∈ (Allocate E M config job).state.TaskGroups,
      config.Groups.filter (fun e => decide (e.Name = g.Name)) = [gc] →
      (g.Tasks.map (fun t => t.CPU)).sum ≤ E * gc.Weight / 100 ∧
        (g.Tasks.map (fun t => t.MemoryMB)).sum ≤ M * gc.Weight / 100 := by
  intro g hg hone
  obtain ⟨⟨p1, groups1⟩, e1⟩ := phase1_withinBudget config job.TaskGroups
    ⟨E, M, absoluteTasks job⟩ (overBudget_false_of_nonneg config.Groups hw hsum)
  rw [Allocate_state e1] at hg
  obtain ⟨-, -, hwt⟩ := weighted_of_filter hone
  obtain ⟨g1, hg1, hname, htasks⟩ := phase2_state_weighted config p1 groups1 g hg hwt
  rw [← hname] at hone
  rw [← htasks]
  exact phase1_done_budget hE hEc hM hMc (weights_le_100 hw hsum) e1 g1 hg1 hone

/-- C13 (witness): the `api` group of the scenario, weight 60, is assigned 510 of at most
600. -/
theorem group_budget_bound_witness :
    ((0 : Int) ≤ 1000 ∧ (1000 : Int) ≤ maxCapacity) ∧
    (∀ e ∈ [(⟨"api", 60⟩ : GroupConfig)], 0 ≤ e.Weight) ∧
    (([⟨"api", 60⟩] : List GroupConfig).map (fun e => e.Weight)).sum ≤ 100 ∧
    ([(⟨"api", 60⟩ : GroupConfig)].filter (fun e => decide (e.Name = "api")) = [⟨"api", 60⟩]) ∧
    (([⟨"a1", 300, 300⟩, ⟨"a2", 210, 210⟩] : List Task).map (fun t => t.CPU)).sum ≤
      1000 * 60 / 100 ∧
    (([⟨"a1", 300, 300⟩, ⟨"a2", 210, 210⟩] : List Task).map (fun t => t.MemoryMB)).sum ≤
      1000 * 60 / 100 :=
  ⟨by decide, by decide, by decide, by decide,
    group_budget_bound 1000 1000 ⟨[⟨"api", 60⟩]⟩
      ⟨[⟨"api", none, [⟨"a1", 0, 0⟩, ⟨"a2", 0, 0⟩]⟩,
        ⟨"worker", none, [⟨"w1", 0, 0⟩, ⟨"w2", 0, 0⟩, ⟨"w3", 0, 0⟩]⟩]⟩
      ⟨"api", 60⟩ (by decide) (by decide) (by decide) (by decide) (by decide) (by decide)
      ⟨"api", some 1, [⟨"a1", 300, 300⟩, ⟨"a2", 210, 210⟩]⟩ (by decide) (by decide)⟩

/-- C14 (the code at the failing input): with the total 1000 and the safety margin 3, lines
93-94 of `main.go` give the capacity 1000, and a run with no weight entry assigns the single
task 1000; `1000 * (100 - 3) / 100` is 970. -/
theorem main_capacity_ignores_margin :
    Main.available 1000 3 = 1000 ∧ (1000 : Int) * (100 - 3) / 100 = 970 ∧
      Main.action ⟨⟨1000, 1000, 3⟩, []⟩ ⟨[⟨"g", none, [⟨"t", 0, 0⟩]⟩]⟩ =
        .done ⟨[⟨"g", some 1, [⟨"t", 1000, 1000⟩]⟩]⟩ := by
  decide

/-- C15: the action of `main` runs with the safety margin 3 when the decoded margin is 0 and
with the decoded margin otherwise; the other fields of the configuration are the decoded
ones. -/
theorem main_margin_default (config : Main.Config) (job : Job) :
    Main.action config job =
        Main.run
          { Infrastructure :=
              { Memory := config.Infrastructure.Memory, CPU := config.Infrastructure.CPU,
                SafetyMargin :=
                  if config.Infrastructure.SafetyMargin = 0 then 3
                  else config.Infrastructure.SafetyMargin },
            Groups := config.Groups } job ∧
      (Main.defaultSafetyMargin config).Infrastructure.SafetyMargin =
        (if config.Infrastructure.SafetyMargin = 0 then 3
          else config.Infrastructure.SafetyMargin) := by
  refine ⟨?_, (main_defaultSafetyMargin_fields config).1⟩
  unfold Main.action Main.defaultSafetyMargin
  split
  · rfl
  · rename_i hne
    obtain ⟨⟨m, c, sm⟩, gs⟩ := config
    simp only at hne
    simp [hne]

/-- C16: after every run that returns without error the groups and their tasks are the
same in number, order and names, and every group has a count: 1 where the count was absent,
the previous count where it was present.  The model of a task has no other field than the
name and the two resource values. -/
theorem count_resolution_frame (E M : Int) (config : Config) (job job1 : Job)
    (h : Allocate E M config job = .done job1) :
    job1.TaskGroups.map (fun g => (g.Name, g.Count, g.Tasks.map (fun t => t.Name))) =
      job.TaskGroups.map
        (fun g => (g.Name, some (g.Count.getD 1), g.Tasks.map (fun t => t.Name))) :=
  Allocate_done_frame h

/-- C16 (witness): one absent count and one count of 4. -/
theorem count_resolution_frame_witness :
    Allocate 1000 1000 ⟨[⟨"api", 60⟩]⟩
        ⟨[⟨"api", none, [⟨"a1", 7, 7⟩]⟩, ⟨"worker", some 4, [⟨"w1", 8, 9⟩]⟩]⟩ =
      .done ⟨[⟨"api", some 1, [⟨"a1", 600, 600⟩]⟩, ⟨"worker", some 4, [⟨"w1", 100, 100⟩]⟩]⟩ ∧
    ([⟨"api", some 1, [⟨"a1", 600, 600⟩]⟩, ⟨"worker", some 4, [⟨"w1", 100, 100⟩]⟩] :
        List TaskGroup).map (fun g => (g.Name, g.Count, g.Tasks.map (fun t => t.Name))) =
      ([⟨"api", none, [⟨"a1", 7, 7⟩]⟩, ⟨"worker", some 4, [⟨"w1", 8, 9⟩]⟩] :
        List TaskGroup).map
        (fun g => (g.Name, some (g.Count.getD 1), g.Tasks.map (fun t => t.Name))) :=
  ⟨by decide,
    count_resolution_frame 1000 1000 ⟨[⟨"api", 60⟩]⟩
      ⟨[⟨"api", none, [⟨"a1", 7, 7⟩]⟩, ⟨"worker", some 4, [⟨"w1", 8, 9⟩]⟩]⟩
      ⟨[⟨"api", some 1, [⟨"a1", 600, 600⟩]⟩, ⟨"worker", some 4, [⟨"w1", 100, 100⟩]⟩]⟩
      (by decide)⟩

/-- C17 (counterexample): with the configured totals `2^60` and the weight table
`[{a, 60}]`, the product of lines 112-113 of `main.go` wraps and the single task of the
group `a` is assigned -46116860184273879; `floor(2^60 * 60 / 100 / 1)` is
691752902764108185. -/
theorem main_share_wraps :
    Main.action ⟨⟨1152921504606846976, 1152921504606846976, 0⟩, [⟨"a", 60⟩]⟩
        ⟨[⟨"a", none, [⟨"a1", 0, 0⟩]⟩]⟩ =
      .done ⟨[⟨"a", some 1, [⟨"a1", -46116860184273879, -46116860184273879⟩]⟩]⟩ ∧
    ([(⟨"a", 60⟩ : GroupConfig)].filter (fun e => decide (e.Name = "a")) = [⟨"a", 60⟩]) ∧
    (1152921504606846976 : Int) * 60 / 100 / 1 = 691752902764108185 := by
  decide

/-- C17 (amended): after a successful run of the inline path of `main.go`, every task of a
group whose name exactly one weight entry of `w` percent carries is assigned
`T * w / 100 / t` in Go's `int` arithmetic, where `T` is the configured total
(`Infrastructure.CPU`, resp. `Infrastructure.Memory`) and `t` the number of listed tasks;
the value is `floor(floor(T * w / 100) / t)` when `T` and `w` are non-negative and `T * w`
is at most `2^63 - 1`.  All tasks of the group receive the same amount, which depends
neither on the pool nor on the safety margin. -/
theorem main_weighted_share (config : Main.Config) (job job1 : Job) (gc : GroupConfig)
    (h : Main.action config job = .done job1) :
    ∀ g ∈ job1.TaskGroups,
      config.Groups.filter (fun e => decide (e.Name = g.Name)) = [gc] →
      (∀ t ∈ g.Tasks,
        t.CPU = intDiv (intDiv (intMul config.Infrastructure.CPU gc.Weight) 100)
          (g.Tasks.length : Int) ∧
        t.MemoryMB = intDiv (intDiv (intMul config.Infrastructure.Memory gc.Weight) 100)
          (g.Tasks.length : Int)) ∧
      (0 ≤ gc.Weight → 0 ≤ config.Infrastructure.CPU →
        config.Infrastructure.CPU * gc.Weight ≤ 9223372036854775807 → ∀ t ∈ g.Tasks,
        t.CPU = config.Infrastructure.CPU * gc.Weight / 100 / (g.Tasks.length : Int)) ∧
      (0 ≤ gc.Weight → 0 ≤ config.Infrastructure.Memory →
        config.Infrastructure.Memory * gc.Weight ≤ 9223372036854775807 → ∀ t ∈ g.Tasks,
        t.MemoryMB = config.Infrastructure.Memory * gc.Weight / 100 / (g.Tasks.length : Int)) ∧
      (∀ t ∈ g.Tasks, ∀ t2 ∈ g.Tasks, t.CPU = t2.CPU ∧ t.MemoryMB = t2.MemoryMB) := by
  obtain ⟨-, hc, hm, hg⟩ := main_defaultSafetyMargin_fields config
  have hs := main_run_single (Main.defaultSafetyMargin config) h gc
  rw [hc, hm, hg] at hs
  intro g hmem hone
  have hv := hs g hmem hone
  have hlen : ∀ t ∈ g.Tasks, (0 : Int) < (g.Tasks.length : Int) := by
    intro t ht
    have := List.length_pos_of_mem ht
    omega
  refine ⟨hv, ?_, ?_, ?_⟩
  · intro hw hT hfit t ht
    rw [(hv t ht).1, goShare_eq_floor _ _ _ hT hw hfit (hlen t ht)]
  · intro hw hT hfit t ht
    rw [(hv t ht).2, goShare_eq_floor _ _ _ hT hw hfit (hlen t ht)]
  · intro t ht t2 ht2
    exact ⟨(hv t ht).1.trans (hv t2 ht2).1.symm, (hv t ht).2.trans (hv t2 ht2).2.symm⟩

/-- C17 (witness): the scenario of two `api` tasks and three `worker` tasks, with the totals
1000 and 2000 and the default margin. -/
theorem main_weighted_share_witness :
    Main.action ⟨⟨2000, 1000, 0⟩, [⟨"api", 60⟩]⟩
        ⟨[⟨"api", none, [⟨"a1", 0, 0⟩, ⟨"a2", 0, 0⟩]⟩,
          ⟨"worker", none, [⟨"w1", 0, 0⟩, ⟨"w2", 0, 0⟩, ⟨"w3", 0, 0⟩]⟩]⟩ =
      .done ⟨[⟨"api", some 1, [⟨"a1", 300, 600⟩, ⟨"a2", 300, 600⟩]⟩,
          ⟨"worker", some 1, [⟨"w1", 133, 266⟩, ⟨"w2", 133, 266⟩, ⟨"w3", 133, 266⟩]⟩]⟩ ∧
    (∀ t ∈ [(⟨"a1", 300, 600⟩ : Task), ⟨"a2", 300, 600⟩],
      t.CPU = intDiv (intDiv (intMul 1000 60) 100) 2 ∧
        t.MemoryMB = intDiv (intDiv (intMul 2000 60) 100) 2) ∧
    (∀ t ∈ [(⟨"a1", 300, 600⟩ : Task), ⟨"a2", 300, 600⟩], t.CPU = 1000 * 60 / 100 / 2) :=
  ⟨by decide,
    (main_weighted_share ⟨⟨2000, 1000, 0⟩, [⟨"api", 60⟩]⟩
      ⟨[⟨"api", none, [⟨"a1", 0, 0⟩, ⟨"a2", 0, 0⟩]⟩,
        ⟨"worker", none, [⟨"w1", 0, 0⟩, ⟨"w2", 0, 0⟩, ⟨"w3", 0, 0⟩]⟩]⟩
      ⟨[⟨"api", some 1, [⟨"a1", 300, 600⟩, ⟨"a2", 300, 600⟩]⟩,
        ⟨"worker", some 1, [⟨"w1", 133, 266⟩, ⟨"w2", 133, 266⟩, ⟨"w3", 133, 266⟩]⟩]⟩
      ⟨"api", 60⟩ (by decide)
      ⟨"api", some 1, [⟨"a1", 300, 600⟩, ⟨"a2", 300, 600⟩]⟩ (by decide) (by decide)).1,
    (main_weighted_share ⟨⟨2000, 1000, 0⟩, [⟨"api", 60⟩]⟩
      ⟨[⟨"api", none, [⟨"a1", 0, 0⟩, ⟨"a2", 0, 0⟩]⟩,
        ⟨"worker", none, [⟨"w1", 0, 0⟩, ⟨"w2", 0, 0⟩, ⟨"w3", 0, 0⟩]⟩]⟩
      ⟨[⟨"api", some 1, [⟨"a1", 300, 600⟩, ⟨"a2", 300, 600⟩]⟩,
        ⟨"worker", some 1, [⟨"w1", 133, 266⟩, ⟨"w2", 133, 266⟩, ⟨"w3", 133, 266⟩]⟩]⟩
      ⟨"api", 60⟩ (by decide)
      ⟨"api", some 1, [⟨"a1", 300, 600⟩, ⟨"a2", 300, 600⟩]⟩ (by decide) (by decide)).2.1
      (by decide) (by decide) (by decide)⟩

/-- C18 (counterexample): with capacities `2^60`, the weight table `[{a, 60}]` and the
groups `a` and `b` of one task each, every stated condition holds and the run assigns
-46116860184273879 to the task of `a` and 1199038364791120855, more than the capacity, to
the task of `b`: the product of lines 40-41 wraps.  With the empty weight table and one
group of four tasks with the count `2^62`, the product of line 16 wraps to 0 and the run
divides by zero. -/
theorem well_formed_overflow :
    Allocate 1152921504606846976 1152921504606846976 ⟨[⟨"a", 60⟩]⟩
        ⟨[⟨"a", none, [⟨"a1", 0, 0⟩]⟩, ⟨"b", none, [⟨"b1", 0, 0⟩]⟩]⟩ =
      .done ⟨[⟨"a", some 1, [⟨"a1", -46116860184273879, -46116860184273879⟩]⟩,
        ⟨"b", some 1, [⟨"b1", 1199038364791120855, 1199038364791120855⟩]⟩]⟩ ∧
    (1152921504606846976 : Int) < 1199038364791120855 ∧
    (∀ g ∈ [(⟨"g", some 4611686018427387904,
        [⟨"t1", 0, 0⟩, ⟨"t2", 0, 0⟩, ⟨"t3", 0, 0⟩, ⟨"t4", 0, 0⟩]⟩ : TaskGroup)],
      1 ≤ g.Count.getD 1) ∧
    Allocate 1000 1000 ⟨[]⟩
        ⟨[⟨"g", some 4611686018427387904,
          [⟨"t1", 0, 0⟩, ⟨"t2", 0, 0⟩, ⟨"t3", 0, 0⟩, ⟨"t4", 0, 0⟩]⟩]⟩ =
      .divByZero ⟨[⟨"g", some 4611686018427387904,
        [⟨"t1", 0, 0⟩, ⟨"t2", 0, 0⟩, ⟨"t3", 0, 0⟩, ⟨"t4", 0, 0⟩]⟩]⟩ := by
  decide

/-- C18 (amended): if the weight table has pairwise distinct names and non-negative weights
that sum to at most 100 (so every weight is in [0, 100]), every count is absent or at least
1, the number of task instances (the listed tasks of every group multiplied by its count)
is at most `2^63 - 1`, and the margin-adjusted capacities `E` and `M` are in
`[0, maxCapacity]`, where `maxCapacity` is 92233720368547758, the largest value whose
hundredfold fits in an `int`, then `Allocate` runs to its end without error and without a
division by zero, every task is assigned a CPU value in `[0, E]` and a memory value in
`[0, M]`, and the assigned values sum to at most `E` and `M`. -/
theorem well_formed_allocation (E M : Int) (config : Config) (job : Job)
    (hE : 0 ≤ E) (hEc : E ≤ maxCapacity) (hM : 0 ≤ M) (hMc : M ≤ maxCapacity)
    (hw : ∀ gc ∈ config.Groups, 0 ≤ gc.Weight)
    (hsum : (config.Groups.map (fun gc => gc.Weight)).sum ≤ 100)
    (hnames : (config.Groups.map (fun gc => gc.Name)).Nodup)
    (hcount : ∀ g ∈ job.TaskGroups, 1 ≤ g.Count.getD 1)
    (htasks : taskCount job.TaskGroups ≤ 9223372036854775807) :
    ∃ job1, Allocate E M config job = .done job1 ∧
      (∀ t ∈ job1.allTasks, (0 ≤ t.CPU ∧ t.CPU ≤ E) ∧ (0 ≤ t.MemoryMB ∧ t.MemoryMB ≤ M)) ∧
      job1.totalCPU ≤ E ∧ job1.totalMemory ≤ M := by
  cases hrun : Allocate E M config job with
  | weightError job1 =>
    obtain ⟨p1, e⟩ := Allocate_weightError hrun
    obtain ⟨hb, -⟩ := phase1_weightError config _ _ _ e
    rw [overBudget_false_of_nonneg config.Groups hw hsum] at hb
    cases hb
  | divByZero job1 => exact absurd hrun (Allocate_ne_divByZero hnames hcount htasks job1)
  | done job1 =>
    obtain ⟨hall, hc, hm⟩ := Allocate_done_values hE hEc hM hMc (weights_le_100 hw hsum)
      hnames hcount htasks hrun
    refine ⟨job1, rfl, ?_, hc, hm⟩
    intro t ht
    obtain ⟨c0, m0⟩ := hall t ht
    have hcs : t.CPU ≤ job1.totalCPU :=
      List.single_le_sum (l := job1.allTasks.map (fun t => t.CPU))
        (by
          intro x hx
          obtain ⟨t2, h2, rfl⟩ := List.mem_map.mp hx
          exact (hall t2 h2).1) _
        (List.mem_map.mpr ⟨t, ht, rfl⟩)
    have hms : t.MemoryMB ≤ job1.totalMemory :=
      List.single_le_sum (l := job1.allTasks.map (fun t => t.MemoryMB))
        (by
          intro x hx
          obtain ⟨t2, h2, rfl⟩ := List.mem_map.mp hx
          exact (hall t2 h2).2) _
        (List.mem_map.mpr ⟨t, ht, rfl⟩)
    exact ⟨⟨c0, by omega⟩, ⟨m0, by omega⟩⟩

/-- C18 (witness): two weighted groups and one without a weight, with a count of 2. -/
theorem well_formed_allocation_witness :
    (((0 : Int) ≤ 970 ∧ (970 : Int) ≤ maxCapacity) ∧
      ((0 : Int) ≤ 1940 ∧ (1940 : Int) ≤ maxCapacity)) ∧
    (∀ gc ∈ [(⟨"api", 60⟩ : GroupConfig), ⟨"db", 20⟩], 0 ≤ gc.Weight) ∧
    (([⟨"api", 60⟩, ⟨"db", 20⟩] : List GroupConfig).map (fun gc => gc.Weight)).sum ≤ 100 ∧
    (([⟨"api", 60⟩, ⟨"db", 20⟩] : List GroupConfig).map (fun gc => gc.Name)).Nodup ∧
    taskCount [⟨"api", none, [⟨"a1", 0, 0⟩, ⟨"a2", 0, 0⟩]⟩, ⟨"db", some 1, [⟨"d1", 0, 0⟩]⟩,
      ⟨"worker", some 2, [⟨"w1", 0, 0⟩]⟩] ≤ 9223372036854775807 ∧
    ∃ job1, Allocate 970 1940 ⟨[⟨"api", 60⟩, ⟨"db", 20⟩]⟩
        ⟨[⟨"api", none, [⟨"a1", 0, 0⟩, ⟨"a2", 0, 0⟩]⟩, ⟨"db", some 1, [⟨"d1", 0, 0⟩]⟩,
          ⟨"worker", some 2, [⟨"w1", 0, 0⟩]⟩]⟩ = .done job1 ∧
      (∀ t ∈ job1.allTasks,
        (0 ≤ t.CPU ∧ t.CPU ≤ 970) ∧ (0 ≤ t.MemoryMB ∧ t.MemoryMB ≤ 1940)) ∧
      job1.totalCPU ≤ 970 ∧ job1.totalMemory ≤ 1940 :=
  ⟨by decide, by decide, by decide, by decide, by decide,
    well_formed_allocation 970 1940 ⟨[⟨"api", 60⟩, ⟨"db", 20⟩]⟩
      ⟨[⟨"api", none, [⟨"a1", 0, 0⟩, ⟨"a2", 0, 0⟩]⟩, ⟨"db", some 1, [⟨"d1", 0, 0⟩]⟩,
        ⟨"worker", some 2, [⟨"w1", 0, 0⟩]⟩]⟩
      (by decide) (by decide) (by decide) (by decide) (by decide) (by decide) (by decide)
      (by decide) (by decide)⟩

/-- C19 (counterexample): no prefix of the weight table
`[{a, -9223372036854775808}, {b, -1}]` has a sum above 100, yet `Allocate` returns the
error for a job with one task: the running sum of line 35 wraps to `2^63 - 1` at the second
entry.  The table `[{x, 100}, {y, 9223372036854775807}]` has a prefix with a sum above 100,
and `Allocate` returns without error for a job with one task. -/
theorem error_not_iff_prefix :
    ((∃ job1, Allocate 1000 1000 ⟨[⟨"a", -9223372036854775808⟩, ⟨"b", -1⟩]⟩
        ⟨[⟨"g", none, [⟨"t", 0, 0⟩]⟩]⟩ = .weightError job1) ∧
      ¬ ∃ n, (([(⟨"a", -9223372036854775808⟩ : GroupConfig), ⟨"b", -1⟩].take n).map
        (fun gc => gc.Weight)).sum > 100) ∧
    ((∃ g ∈ [(⟨"g", none, [⟨"t", 0, 0⟩]⟩ : TaskGroup)], g.Tasks ≠ []) ∧
      (([(⟨"x", 100⟩ : GroupConfig), ⟨"y", 9223372036854775807⟩].take 2).map
        (fun gc => gc.Weight)).sum > 100 ∧
      Allocate 1000 1000 ⟨[⟨"x", 100⟩, ⟨"y", 9223372036854775807⟩]⟩
          ⟨[⟨"g", none, [⟨"t", 0, 0⟩]⟩]⟩ =
        .done ⟨[⟨"g", some 1, [⟨"t", 1000, 1000⟩]⟩]⟩) := by
  refine ⟨⟨⟨_, rfl⟩, ?_⟩, by decide⟩
  rintro ⟨n, hn⟩
  rcases n with _ | _ | n
  · revert hn
    decide
  · revert hn
    decide
  · rw [List.take_of_length_le (by simp)] at hn
    revert hn
    decide

/-- C19 (amended): `Allocate` returns the error if and only if some group of the job lists
at least one task and some non-empty prefix of the weight table, in declaration order, has
a weight sum that is greater than 100 once reduced to an `int`.  When every prefix sum fits
in an `int`, that is: if and only if some group of the job lists at least one task and some
prefix of the weight table has a weight sum greater than 100. -/
theorem error_iff_task_and_prefix (E M : Int) (config : Config) (job : Job) :
    ((∃ job1, Allocate E M config job = .weightError job1) ↔
      (∃ g ∈ job.TaskGroups, g.Tasks ≠ []) ∧
        ∃ n, n < config.Groups.length ∧
          wrap (((config.Groups.take (n + 1)).map (fun gc => gc.Weight)).sum) > 100) ∧
    ((∀ n, n < config.Groups.length →
        -9223372036854775808 ≤ ((config.Groups.take (n + 1)).map (fun gc => gc.Weight)).sum ∧
          ((config.Groups.take (n + 1)).map (fun gc => gc.Weight)).sum ≤
            9223372036854775807) →
      ((∃ job1, Allocate E M config job = .weightError job1) ↔
        (∃ g ∈ job.TaskGroups, g.Tasks ≠ []) ∧
          ∃ n, ((config.Groups.take n).map (fun gc => gc.Weight)).sum > 100)) := by
  have hrun : (∃ job1, Allocate E M config job = .weightError job1) ↔
      (∃ g ∈ job.TaskGroups, g.Tasks ≠ []) ∧ overBudget config.Groups 0 = true := by
    constructor
    · rintro ⟨job1, h⟩
      obtain ⟨p1, e⟩ := Allocate_weightError h
      obtain ⟨hb, hex⟩ := phase1_weightError config _ _ _ e
      exact ⟨hex, hb⟩
    · rintro ⟨hex, hb⟩
      obtain ⟨p1, groups1, -, -, -, e, -⟩ :=
        phase1_overBudget config job.TaskGroups ⟨E, M, absoluteTasks job⟩ hb hex
      refine ⟨⟨groups1⟩, ?_⟩
      unfold Allocate
      simp only [e]
  refine ⟨?_, fun hfit => ?_⟩
  · rw [hrun, overBudget_iff_wrap]
    simp only [zero_add]
  · rw [hrun, overBudget_iff_prefix config.Groups hfit]

/-- C19 (witness): the table `[{api, 60}, {b, 41}]`, whose prefix sums 60 and 101 fit, and
a job with one task. -/
theorem error_iff_task_and_prefix_witness :
    (∀ n, n < ([⟨"api", 60⟩, ⟨"b", 41⟩] : List GroupConfig).length →
      -9223372036854775808 ≤
          ((([⟨"api", 60⟩, ⟨"b", 41⟩] : List GroupConfig).take (n + 1)).map
            (fun gc => gc.Weight)).sum ∧
        ((([⟨"api", 60⟩, ⟨"b", 41⟩] : List GroupConfig).take (n + 1)).map
            (fun gc => gc.Weight)).sum ≤ 9223372036854775807) ∧
    ((∃ job1, Allocate 1000 1000 ⟨[⟨"api", 60⟩, ⟨"b", 41⟩]⟩
        ⟨[⟨"worker", none, [⟨"w1", 0, 0⟩]⟩]⟩ = .weightError job1) ↔
      (∃ g ∈ [(⟨"worker", none, [⟨"w1", 0, 0⟩]⟩ : TaskGroup)], g.Tasks ≠ []) ∧
        ∃ n, ((([⟨"api", 60⟩, ⟨"b", 41⟩] : List GroupConfig).take n).map
          (fun gc => gc.Weight)).sum > 100) :=
  ⟨by decide,
    ( error_iff_task_and_prefix 1000 1000 ⟨[⟨"api", 60⟩, ⟨"b", 41⟩]⟩
      ⟨[⟨"worker", none, [⟨"w1", 0, 0⟩]⟩]⟩).2 (by decide)⟩

/-- C20 (counterexample): with capacities `2^60`, the weight table `[{a, 60}]` and one
group `a` of two tasks, the products of lines 40-41 wrap: the tasks are assigned
-23058430092136939 and then -16140901064495857, a larger value, and the first is not
`floor(2^60 * 60 / 100 / 2)`, which is 345876451382054092. -/
theorem running_shares_wrap :
    Allocate 1152921504606846976 1152921504606846976 ⟨[⟨"a", 60⟩]⟩
        ⟨[⟨"a", none, [⟨"a1", 0, 0⟩, ⟨"a2", 0, 0⟩]⟩]⟩ =
      .done ⟨[⟨"a", some 1, [⟨"a1", -23058430092136939, -23058430092136939⟩,
        ⟨"a2", -16140901064495857, -16140901064495857⟩]⟩]⟩ ∧
    (-23058430092136939 : Int) < -16140901064495857 ∧
    (1152921504606846976 : Int) * 60 / 100 / 2 = 345876451382054092 := by
  decide

/-- C20 (amended): in a successful run, the tasks of a group whose name exactly one weight
entry of `w` percent carries are assigned, in list order, the running shares of the pool
`pa` that is left when the group is reached: the k-th task gets `P_k * w / 100 / t` in Go's
`int` arithmetic, with `P_1 = pa` and `P_(k+1) = P_k` minus the k-th assignment, and the
pool after the group is `pa` with the assignments subtracted one after the other.  For
`0 <= w <= 100` and a pool in `[0, maxCapacity]`, where `maxCapacity` is
92233720368547758, the shares are the floors `floor(floor(P_k * w / 100) / t)`, a later
task is never assigned more than an earlier one, and the pool after the group is the pool
before it minus the group's total. -/
theorem running_pool_shares (E M : Int) (config : Config) (job job1 : Job) (gc : GroupConfig)
    (pre : List TaskGroup) (g : TaskGroup) (post : List TaskGroup)
    (h : Allocate E M config job = .done job1)
    (hjob : job.TaskGroups = pre ++ g :: post)
    (hone : config.Groups.filter (fun e => decide (e.Name = g.Name)) = [gc]) :
    ∃ pa pb r1 g1 g2,
      phase1 config pre ⟨E, M, absoluteTasks job⟩ = .done (pa, r1) ∧
      phase1Group config pa g = .done (pb, g2) ∧
      job1.TaskGroups[pre.length]? = some g1 ∧
      (g1.Tasks.map (fun t => t.CPU) =
          runningShares (goShare gc.Weight (g.Tasks.length : Int)) intSub pa.availableCPU
            g.Tasks.length ∧
        g1.Tasks.map (fun t => t.MemoryMB) =
          runningShares (goShare gc.Weight (g.Tasks.length : Int)) intSub pa.availableMemory
            g.Tasks.length) ∧
      (pb.availableCPU = (g1.Tasks.map (fun t => t.CPU)).foldl intSub pa.availableCPU ∧
        pb.availableMemory =
          (g1.Tasks.map (fun t => t.MemoryMB)).foldl intSub pa.availableMemory) ∧
      (0 ≤ gc.Weight → gc.Weight ≤ 100 →
        (0 ≤ pa.availableCPU → pa.availableCPU ≤ maxCapacity →
          g1.Tasks.map (fun t => t.CPU) =
              runningShares (floorShare gc.Weight (g.Tasks.length : Int)) (fun a b => a - b)
                pa.availableCPU g.Tasks.length ∧
            (g1.Tasks.map (fun t => t.CPU)).Pairwise (fun a b => b ≤ a) ∧
            pb.availableCPU = pa.availableCPU - (g1.Tasks.map (fun t => t.CPU)).sum) ∧
        (0 ≤ pa.availableMemory → pa.availableMemory ≤ maxCapacity →
          g1.Tasks.map (fun t => t.MemoryMB) =
              runningShares (floorShare gc.Weight (g.Tasks.length : Int)) (fun a b => a - b)
                pa.availableMemory g.Tasks.length ∧
            (g1.Tasks.map (fun t => t.MemoryMB)).Pairwise (fun a b => b ≤ a) ∧
            pb.availableMemory =
              pa.availableMemory - (g1.Tasks.map (fun t => t.MemoryMB)).sum)) := by
  obtain ⟨-, -, hwt⟩ := weighted_of_filter hone
  obtain ⟨pa, pb, r1, g1, g2, ts1, h1, hb, hloop, hat, hts⟩ :=
    Allocate_done_at h pre g post hjob hwt
  have hone2 : config.Groups.filter (fun e => decide (e.Name = (resolveCount g).Name)) = [gc] := by
    simpa using hone
  obtain ⟨⟨hc, hc2⟩, ⟨hm, hm2⟩⟩ :=
    phase1Tasks_single config (resolveCount g) gc hone2 _ _ _ _ hloop
  simp only [resolveCount_Tasks] at hc hm
  have hfloor : ∀ P : Int, 0 ≤ gc.Weight → gc.Weight ≤ 100 → 0 ≤ P → P ≤ maxCapacity →
      runningShares (goShare gc.Weight (g.Tasks.length : Int)) intSub P g.Tasks.length =
          runningShares (floorShare gc.Weight (g.Tasks.length : Int)) (fun a b => a - b) P
            g.Tasks.length ∧
        (runningShares (goShare gc.Weight (g.Tasks.length : Int)) intSub P
          g.Tasks.length).Pairwise (fun a b => b ≤ a) ∧
        (runningShares (goShare gc.Weight (g.Tasks.length : Int)) intSub P
            g.Tasks.length).foldl intSub P =
          P - (runningShares (goShare gc.Weight (g.Tasks.length : Int)) intSub P
            g.Tasks.length).sum := by
    intro P hw0 hw1 hP hPc
    cases hlen : g.Tasks.length with
    | zero => simp [runningShares]
    | succ m =>
      have hpos : (0 : Int) < ((m + 1 : Nat) : Int) := by
        push_cast
        omega
      obtain ⟨f1, -, f3, f4, -⟩ :=
        runningShares_floor gc.Weight ((m + 1 : Nat) : Int) hw0 hw1 hpos P P hP (le_refl P)
          hPc (m + 1)
      exact ⟨f1, f3, f4⟩
  refine ⟨pa, pb, r1, g1, g2, h1, hb, hat, ?_, ?_, ?_⟩
  · rw [hts]
    exact ⟨hc, hm⟩
  · rw [hts]
    exact ⟨hc2, hm2⟩
  · intro hw0 hw1
    rw [hts]
    refine ⟨fun hP hPc => ?_, fun hP hPc => ?_⟩
    · obtain ⟨f1, f3, f4⟩ := hfloor pa.availableCPU hw0 hw1 hP hPc
      rw [hc2, hc]
      exact ⟨f1, f3, f4⟩
    · obtain ⟨f1, f3, f4⟩ := hfloor pa.availableMemory hw0 hw1 hP hPc
      rw [hm2, hm]
      exact ⟨f1, f3, f4⟩

/-- C20 (witness): the group `api` of three tasks, weight 60, reached with the pool 900
after the group `db`. -/
theorem running_pool_shares_witness :
    Allocate 1000 1000 ⟨[⟨"db", 10⟩, ⟨"api", 60⟩]⟩
        ⟨[⟨"db", none, [⟨"d1", 0, 0⟩]⟩,
          ⟨"api", none, [⟨"a1", 0, 0⟩, ⟨"a2", 0, 0⟩, ⟨"a3", 0, 0⟩]⟩]⟩ =
      .done ⟨[⟨"db", some 1, [⟨"d1", 100, 100⟩]⟩,
        ⟨"api", some 1, [⟨"a1", 180, 180⟩, ⟨"a2", 144, 144⟩, ⟨"a3", 115, 115⟩]⟩]⟩ ∧
    ∃ pa pb r1 g1 g2,
      phase1 ⟨[⟨"db", 10⟩, ⟨"api", 60⟩]⟩ [⟨"db", none, [⟨"d1", 0, 0⟩]⟩]
        ⟨1000, 1000, absoluteTasks ⟨[⟨"db", none, [⟨"d1", 0, 0⟩]⟩,
          ⟨"api", none, [⟨"a1", 0, 0⟩, ⟨"a2", 0, 0⟩, ⟨"a3", 0, 0⟩]⟩]⟩⟩ = .done (pa, r1) ∧
      phase1Group ⟨[⟨"db", 10⟩, ⟨"api", 60⟩]⟩ pa
        ⟨"api", none, [⟨"a1", 0, 0⟩, ⟨"a2", 0, 0⟩, ⟨"a3", 0, 0⟩]⟩ = .done (pb, g2) ∧
      ([⟨"db", some 1, [⟨"d1", 100, 100⟩]⟩,
        ⟨"api", some 1, [⟨"a1", 180, 180⟩, ⟨"a2", 144, 144⟩, ⟨"a3", 115, 115⟩]⟩] :
          List TaskGroup)[1]? = some g1 ∧
      (g1.Tasks.map (fun t => t.CPU) =
          runningShares (goShare 60 3) intSub pa.availableCPU 3 ∧
        g1.Tasks.map (fun t => t.MemoryMB) =
          runningShares (goShare 60 3) intSub pa.availableMemory 3) ∧
      (pb.availableCPU = (g1.Tasks.map (fun t => t.CPU)).foldl intSub pa.availableCPU ∧
        pb.availableMemory =
          (g1.Tasks.map (fun t => t.MemoryMB)).foldl intSub pa.availableMemory) ∧
      ((0 : Int) ≤ 60 → (60 : Int) ≤ 100 →
        (0 ≤ pa.availableCPU → pa.availableCPU ≤ maxCapacity →
          g1.Tasks.map (fun t => t.CPU) =
              runningShares (floorShare 60 3) (fun a b => a - b) pa.availableCPU 3 ∧
            (g1.Tasks.map (fun t => t.CPU)).Pairwise (fun a b => b ≤ a) ∧
            pb.availableCPU = pa.availableCPU - (g1.Tasks.map (fun t => t.CPU)).sum) ∧
        (0 ≤ pa.availableMemory → pa.availableMemory ≤ maxCapacity →
          g1.Tasks.map (fun t => t.MemoryMB) =
              runningShares (floorShare 60 3) (fun a b => a - b) pa.availableMemory 3 ∧
            (g1.Tasks.map (fun t => t.MemoryMB)).Pairwise (fun a b => b ≤ a) ∧
            pb.availableMemory =
              pa.availableMemory - (g1.Tasks.map (fun t => t.MemoryMB)).sum)) :=
  ⟨by decide,
    running_pool_shares 1000 1000 ⟨[⟨"db", 10⟩, ⟨"api", 60⟩]⟩
      ⟨[⟨"db", none, [⟨"d1", 0, 0⟩]⟩,
        ⟨"api", none, [⟨"a1", 0, 0⟩, ⟨"a2", 0, 0⟩, ⟨"a3", 0, 0⟩]⟩]⟩
      ⟨[⟨"db", some 1, [⟨"d1", 100, 100⟩]⟩,
        ⟨"api", some 1, [⟨"a1", 180, 180⟩, ⟨"a2", 144, 144⟩, ⟨"a3", 115, 115⟩]⟩]⟩
      ⟨"api", 60⟩ [⟨"db", none, [⟨"d1", 0, 0⟩]⟩]
      ⟨"api", none, [⟨"a1", 0, 0⟩, ⟨"a2", 0, 0⟩, ⟨"a3", 0, 0⟩]⟩ []
      (by decide) (by decide) (by decide)⟩

end Roamer
